import Mathlib

/-!
# Chart translation option collection (moses chart decoder)

A shallow embedding of `moses/src/ChartTranslationOptionCollection.cpp`:
the per-span lists of translation options, the strict and relaxed rule
lookups, the unknown-word fallback, pruning and sorting.

Conventions of the embedding

* `size_t` values are natural numbers; subtraction and addition wrap
  modulo `2^64` exactly where the C++ does (`sizeSub`, `sizeAdd`).
* A member function that can abort returns `Except Failure _`.
  `Failure.checkFailed` is an aborting `CHECK(...)`; `Failure.undefinedBehaviour`
  is an access the C++ does not guard at all (an unchecked `std::vector`
  index past the end, a null `Factor*` dereference).
* Objects reached through pointers that the collection allocates itself
  (`new TargetPhraseCollection`) live in an explicit heap, a list indexed by
  address, so that aliasing between options is visible.
* Classes of the decoder whose code is outside this translation unit
  (`StaticData`, `TranslationSystem`, `ChartCellCollection`, `Word`
  construction, the score helpers of `Util.h`, the rule lookup managers)
  are carried as data and function fields of `StaticData`, `Helpers` and
  `Decoder`; containers declared in headers outside these sources (words,
  phrases, dotted rules, option lists) are the lists of their elements.
* `lookupLog` is a record of the lookup calls, kept only to state which
  lookups a function makes; no function reads it.
* Scores are `float` values: the finite ones are the rationals of the IEEE
  binary32 format, every sum and product is rounded to nearest, ties to
  even, and overflows to an infinity (`Score.ofRat`).
-/

namespace Moses

/-! ## Machine integers -/

/-- Number of values of a 64-bit `size_t`. -/
def SIZE_MODULUS : Nat := 2 ^ 64

/-- Subtraction of two `size_t` values, wrapping modulo `2^64`. -/
def sizeSub (a b : Nat) : Nat := (a % SIZE_MODULUS + SIZE_MODULUS - b % SIZE_MODULUS) % SIZE_MODULUS

/-- Addition of two `size_t` values, wrapping modulo `2^64`. -/
def sizeAdd (a b : Nat) : Nat := (a + b) % SIZE_MODULUS

/-! ## Failures -/

/-- Ways a call can end without returning. -/
inductive Failure where
  /-- A `CHECK(cond)` whose condition is false: the process aborts. -/
  | checkFailed
  /-- An access the code does not guard: indexing a `std::vector` past its
  end with `operator[]`, or dereferencing a null pointer. -/
  | undefinedBehaviour
deriving DecidableEq, Repr

/-- Equality of results is decidable when it is for failures and values. -/
instance instDecidableEqExcept {ε α : Type} [DecidableEq ε] [DecidableEq α] :
    DecidableEq (Except ε α)
  | .ok a, .ok b =>
    if h : a = b then isTrue (congrArg Except.ok h)
    else isFalse fun h2 => h (Except.ok.inj h2)
  | .error a, .error b =>
    if h : a = b then isTrue (congrArg Except.error h)
    else isFalse fun h2 => h (Except.error.inj h2)
  | .ok _, .error _ => isFalse fun h => Except.noConfusion h
  | .error _, .ok _ => isFalse fun h => Except.noConfusion h

/-! ## Scores -/

/-- Value of a C++ `float`: a rational, one of the two infinities, or NaN.
The arithmetic below rounds every result to the nearest `float`; the sign of
a zero is not represented (the two zeros compare equal). -/
inductive Score where
  | nan
  | negInf
  | fin (q : ℚ)
  | posInf
deriving DecidableEq, Repr

/-- Position of a score on the extended line, NaN placed below everything so
that the comparison used for sorting is total. -/
def Score.rank : Score → Nat
  | .nan => 0
  | .negInf => 1
  | .fin _ => 2
  | .posInf => 3

/-- Total comparison of scores: `a ≤ b`. Finite values compare as rationals. -/
def Score.le : Score → Score → Bool
  | .fin a, .fin b => decide (a ≤ b)
  | a, b => decide (a.rank ≤ b.rank)

/-! ## Rounding to `float` -/

/-- The number of halvings that bring `f` below `2 ^ p`; the first argument
bounds the recursion. -/
def shiftFor (p : Nat) : Nat → Nat → Nat
  | 0, _ => 0
  | fuel + 1, f => if f < 2 ^ p then 0 else shiftFor p fuel (f / 2) + 1

/-- The integer nearest to `n / d`, the even one of the two at a tie. -/
def roundHalfEven (n d : Nat) : Nat :=
  if 2 * (n % d) < d then n / d
  else if d < 2 * (n % d) then n / d + 1
  else if (n / d) % 2 = 0 then n / d else n / d + 1

/-- The natural number with at most `p` significant bits nearest to `n / d`,
ties to the even significand: `n / d` is rounded to a multiple of `2 ^ s`,
where `s` is the number of bits of its integer part beyond `p`. -/
def roundSignificand (p n d : Nat) : Nat :=
  roundHalfEven n (d * 2 ^ shiftFor p (n / d) (n / d)) * 2 ^ shiftFor p (n / d) (n / d)

/-- Rounding of a rational to the binary floating-point format with `p`
significant bits whose values are multiples of `2 ^ (-e)`: round to nearest,
ties to even, the exponent not bounded above. -/
def roundToFormat (p e : Nat) (q : ℚ) : ℚ :=
  if q.num < 0 then -((roundSignificand p (q.num.natAbs * 2 ^ e) q.den : ℚ) / 2 ^ e)
  else (roundSignificand p (q.num.natAbs * 2 ^ e) q.den : ℚ) / 2 ^ e

/-- The `float` nearest to a rational, as IEEE 754 binary32 arithmetic rounds
an exact result: 24 significant bits, multiples of `2 ^ (-149)`, round to
nearest with ties to even; a rounded magnitude of `2 ^ 128` or more
overflows to the infinity of its sign. -/
def Score.ofRat (q : ℚ) : Score :=
  if (2 : ℚ) ^ 128 ≤ roundToFormat 24 149 q then .posInf
  else if roundToFormat 24 149 q ≤ -(2 : ℚ) ^ 128 then .negInf
  else .fin (roundToFormat 24 149 q)

/-- The value of a floating literal of type `double` (IEEE 754 binary64: 53
significant bits, multiples of `2 ^ (-1074)`), for a literal within the range
of the doubles. -/
def doubleLiteral (q : ℚ) : ℚ := roundToFormat 53 1074 q

/-- A value that a `float` can hold: an infinity, NaN, or a rational that the
rounding keeps. -/
def Score.IsFloat : Score → Prop
  | .fin q => Score.ofRat q = .fin q
  | _ => True

/-! ## Words, phrases, ranges -/

/-- Source range `WordsRange(startPos, endPos)`, both ends inclusive. -/
structure WordsRange where
  startPos : Nat
  endPos : Nat
deriving DecidableEq, Repr

/-- A word: its factor array (a null `Factor*` is `none`, a factor is its
string) and the non-terminal flag. -/
structure Word where
  isNonTerminal : Bool
  factorArray : List (Option String)
deriving DecidableEq, Repr

/-- The factor of the given type, `Word::GetFactor` and `Word::operator[]`:
null when the factor is not set. -/
def Word.GetFactor (w : Word) (factorType : Nat) : Option String :=
  (w.factorArray.get? factorType).join

/-- A phrase is its sequence of words. -/
abbrev Phrase := List Word

/-- The score producers the fallback refers to. -/
inductive ScoreProducer where
  | unknownWordPenalty
  | wordPenalty
  | other (id : Nat)
deriving DecidableEq, Repr

/-- Modelled from the spec: `ScoreComponentCollection` is declared outside
these sources. It is the named score-component breakdown of a phrase: the
score vector assigned to each producer; a producer without an entry has all
its components at zero. -/
abbrev ScoreComponentCollection := List (ScoreProducer × List Score)

/-- Modelled from the spec: `ScoreComponentCollection::Assign` is implemented
outside these sources. It replaces the scores of one producer and leaves the
other producers as they are. -/
def ScoreComponentCollection.Assign (b : ScoreComponentCollection)
    (producer : ScoreProducer) (scores : List Score) : ScoreComponentCollection :=
  if b.any (fun e => e.1 == producer) then
    b.map (fun e => if e.1 == producer then (producer, scores) else e)
  else b ++ [(producer, scores)]

/-- The scores recorded for a producer, if any were assigned. -/
def ScoreComponentCollection.GetScoresForProducer (b : ScoreComponentCollection)
    (producer : ScoreProducer) : Option (List Score) :=
  (b.find? (fun e => e.1 == producer)).map Prod.snd

/-- A target phrase: its words, its scores, its source phrase and left-hand
side, and the members `m_alignmentInfo` (the aligned position pairs) and
`m_debugOutput` of `TargetPhrase.cpp`, which a fresh phrase holds empty. -/
structure TargetPhrase where
  words : List Word
  m_transScore : Score
  m_ngramScore : Score
  m_fullScore : Score
  m_scoreBreakdown : ScoreComponentCollection
  m_sourcePhrase : Option Phrase
  m_targetLHS : Option Word
  m_alignmentInfo : List (Nat × Nat) := []
  m_debugOutput : Option String := none
deriving DecidableEq, Repr

/-- A target phrase collection owns its target phrases. -/
abbrev TargetPhraseCollection := List TargetPhrase

/-- Label of a chart cell: the range it covers and its word. -/
structure ChartCellLabel where
  coverage : WordsRange
  label : Word
deriving DecidableEq, Repr

/-- A dotted rule: `DottedRule()` is the empty start rule, and
`DottedRule(cellLabel, prev)` extends `prev` by one consumed symbol. -/
inductive DottedRule where
  | root
  | step (cellLabel : ChartCellLabel) (prev : DottedRule)
deriving DecidableEq, Repr

/-- The symbols a dotted rule has consumed, first consumed first. -/
def DottedRule.symbols : DottedRule → List ChartCellLabel
  | .root => []
  | .step l prev => prev.symbols ++ [l]

/-- Where an option's target phrase collection lives: in the rule table
(owned by the lookup manager, never written here), or at an address of the
heap of collections this object allocated. -/
inductive TargetPhraseCollectionRef where
  | ruleTable (tpc : TargetPhraseCollection)
  | cached (address : Nat)
deriving DecidableEq, Repr

/-- A chart translation option: target phrases, dotted rule, covered range,
and the score estimate computed once by its constructor. -/
structure ChartTranslationOption where
  m_targetPhraseCollection : TargetPhraseCollectionRef
  m_dottedRule : DottedRule
  m_wordsRange : WordsRange
  m_estimateOfBestScore : Score
deriving DecidableEq, Repr

/-- The option list of one span. -/
structure ChartTranslationOptionList where
  m_range : WordsRange
  m_collection : List ChartTranslationOption
deriving DecidableEq, Repr

/-- An empty list for a range, `ChartTranslationOptionList(range)`. -/
def ChartTranslationOptionList.new (range : WordsRange) : ChartTranslationOptionList :=
  { m_range := range, m_collection := [] }

/-- Source range of the list. -/
def ChartTranslationOptionList.GetSourceRange (l : ChartTranslationOptionList) : WordsRange :=
  l.m_range

/-- Number of options in the list. -/
def ChartTranslationOptionList.GetSize (l : ChartTranslationOptionList) : Nat :=
  l.m_collection.length

/-- Modelled from the spec: `ChartTranslationOptionList::Add(ChartTranslationOption*)`
is implemented in `ChartTranslationOptionList.cpp`, outside these sources. The
option is put at the end of the list, options being kept in insertion order. -/
def ChartTranslationOptionList.Add (l : ChartTranslationOptionList)
    (transOpt : ChartTranslationOption) : ChartTranslationOptionList :=
  { l with m_collection := l.m_collection ++ [transOpt] }

/-! ## Collaborators outside this translation unit -/

/-- One rule grouping, `DecodeGraph`: its number of steps and the longest
span it applies to (`0` for no limit). -/
structure DecodeGraph where
  m_size : Nat
  m_maxChartSpan : Nat
deriving DecidableEq, Repr

/-- Number of steps of the grouping. -/
def DecodeGraph.GetSize (g : DecodeGraph) : Nat := g.m_size

/-- Longest span the grouping applies to, `0` for no limit. -/
def DecodeGraph.GetMaxChartSpan (g : DecodeGraph) : Nat := g.m_maxChartSpan

/-- Modelled from the spec: `ChartRuleLookupManager::GetChartRuleCollection` is
implemented by the grammar engine, outside these sources. Following the
RuleMatcher contract `lookup(span, relaxed) -> [TranslationOption]`, a manager
is the function giving the options it returns for a range; the flag is the
`adhereTableLimit` argument of the call, `true` for the strict lookup and
`false` for the relaxed one. -/
structure ChartRuleLookupManager where
  lookup : WordsRange → Bool → List ChartTranslationOption

/-- The settings `StaticData::Instance()` provides to the collection. -/
structure StaticData where
  m_dropUnknown : Bool
  m_isAlwaysCreateDirectTranslationOption : Bool
  /-- Fallback target labels with their probabilities, in configuration order. -/
  m_unknownLHS : List (String × Score)
  /-- Configured maximum number of options per span, if any. -/
  m_maxNoTransOptPerCoverage : Option Nat

/-- Functions the fallback calls whose code is in other files (`Util.h`,
`Word.cpp`, `ScoreComponentCollection.cpp`, `ChartTranslationOption.cpp`). -/
structure Helpers where
  /-- The helper `FloorScore` of `Util.h`. -/
  FloorScore : Score → Score
  /-- The helper `TransformScore` of `Util.h`. -/
  TransformScore : Score → Score
  /-- The call `Word::CreateFromString(Output, outputFactorOrder, str, isNonTerminal)`. -/
  CreateFromString : String → Bool → Word
  /-- The call `Word::CreateUnknownWord(sourceWord)`. -/
  CreateUnknownWord : Word → Word
  /-- The call `ScoreComponentCollection::GetWeightedScore()`. -/
  GetWeightedScore : ScoreComponentCollection → Score
  /-- The estimate the constructor of `ChartTranslationOption` derives from the
  target phrase collection, the dotted rule and the range. -/
  CalcEstimateOfBestScore : TargetPhraseCollection → DottedRule → WordsRange → Score

/-- The members of the collection that never change after construction,
together with the configuration it reads. -/
structure Decoder where
  /-- The input sentence `m_source`, one word per position. -/
  m_source : List Word
  m_decodeGraphList : List DecodeGraph
  m_ruleLookupManagers : List ChartRuleLookupManager
  /-- The source-word label of the chart cell of a range,
  `m_hypoStackColl.Get(range).GetSourceWordLabel()`. -/
  m_hypoStackColl : WordsRange → ChartCellLabel
  staticData : StaticData
  helpers : Helpers

/-! ## Target phrases -/

/-- A fresh target phrase, `TargetPhrase(Output)`: no word, all scores zero,
no source phrase. -/
def TargetPhrase.new : TargetPhrase :=
  { words := [], m_transScore := .fin 0, m_ngramScore := .fin 0, m_fullScore := .fin 0,
    m_scoreBreakdown := [], m_sourcePhrase := none, m_targetLHS := none }

/-- Append a word, `Phrase::AddWord()` followed by the assignment of the word. -/
def TargetPhrase.AddWord (tp : TargetPhrase) (w : Word) : TargetPhrase :=
  { tp with words := tp.words ++ [w] }

/-- Set the scores of one producer, `TargetPhrase::SetScore(producer, scoreVector)`. -/
def TargetPhrase.SetScore (h : Helpers) (tp : TargetPhrase) (producer : ScoreProducer)
    (scoreVector : List Score) : TargetPhrase :=
  let breakdown := tp.m_scoreBreakdown.Assign producer scoreVector
  { tp with
    m_scoreBreakdown := breakdown
    m_transScore := .fin 0
    m_ngramScore := .fin 0
    m_fullScore := h.GetWeightedScore breakdown }

/-- Record the source phrase, `TargetPhrase::SetSourcePhrase`. -/
def TargetPhrase.SetSourcePhrase (tp : TargetPhrase) (p : Phrase) : TargetPhrase :=
  { tp with m_sourcePhrase := some p }

/-- Record the target left-hand side, `TargetPhrase::SetTargetLHS`. -/
def TargetPhrase.SetTargetLHS (tp : TargetPhrase) (lhs : Word) : TargetPhrase :=
  { tp with m_targetLHS := some lhs }

/-! ## The collection -/

/-- One call of a rule lookup manager, recorded for the statements about
which lookups are made: the index of the manager, the range and the
`adhereTableLimit` flag. -/
structure LookupCall where
  manager : Nat
  range : WordsRange
  adhereTableLimit : Bool
deriving DecidableEq, Repr

/-- The mutable part of a `ChartTranslationOptionCollection`. -/
structure ChartTranslationOptionCollection where
  /-- The lists, `m_collection[startPos][endPos - startPos]`. -/
  m_collection : List (List ChartTranslationOptionList)
  m_unksrcs : List Phrase
  /-- Addresses of the collections to release in the destructor. -/
  m_cacheTargetPhraseCollection : List Nat
  m_dottedRuleCache : List (List DottedRule)
  /-- The target phrase collections allocated with `new` by this object; the
  address of a collection is its index. -/
  heap : List TargetPhraseCollection
  /-- The lookup calls made so far, oldest first. -/
  lookupLog : List LookupCall
deriving DecidableEq, Repr

/-- The constructor: one empty list per span `(startPos, endPos)` with
`startPos <= endPos < size`. -/
def ChartTranslationOptionCollection.new (d : Decoder) : ChartTranslationOptionCollection :=
  let size := d.m_source.length
  { m_collection := (List.range size).map fun startPos =>
      (List.range (size - startPos)).map fun k =>
        ChartTranslationOptionList.new ⟨startPos, startPos + k⟩
    m_unksrcs := []
    m_cacheTargetPhraseCollection := []
    m_dottedRuleCache := []
    heap := []
    lookupLog := [] }

/-- The list of a span, `GetTranslationOptionList(startPos, endPos)`. -/
def ChartTranslationOptionCollection.GetTranslationOptionList
    (c : ChartTranslationOptionCollection) (startPos endPos : Nat) :
    Except Failure ChartTranslationOptionList :=
  match c.m_collection.get? startPos with
  | none => .error .undefinedBehaviour
  | some row =>
    let sizeVec := row.length
    if sizeSub endPos startPos < sizeVec then
      match row.get? (sizeSub endPos startPos) with
      | some l => .ok l
      | none => .error .undefinedBehaviour
    else .error .checkFailed

/-- Write through the reference returned by `GetTranslationOptionList`: the
list at `m_collection[startPos][endPos - startPos]` is replaced. -/
def ChartTranslationOptionCollection.setList (c : ChartTranslationOptionCollection)
    (startPos endPos : Nat) (l : ChartTranslationOptionList) :
    ChartTranslationOptionCollection :=
  { c with m_collection :=
      c.m_collection.modify (fun row => row.set (sizeSub endPos startPos) l) startPos }

/-! ## Rule lookups -/

/-- Modelled from the spec: the call
`ruleLookupManager.GetChartRuleCollection(wordsRange, adhereTableLimit, outColl)`
of the manager with index `i`. The options the manager returns for the range
are added to the list `outColl` of span `(startPos, endPos)` in the order
returned, and the call is recorded in the lookup log. The reference `outColl`
is the list found again at its position. -/
def GetChartRuleCollection (m : ChartRuleLookupManager) (i : Nat) (wordsRange : WordsRange)
    (adhereTableLimit : Bool) (startPos endPos : Nat) (c : ChartTranslationOptionCollection) :
    Except Failure ChartTranslationOptionCollection := do
  let outColl ← c.GetTranslationOptionList startPos endPos
  let outColl := (m.lookup wordsRange adhereTableLimit).foldl ChartTranslationOptionList.Add outColl
  let c := c.setList startPos endPos outColl
  pure { c with lookupLog := c.lookupLog ++ [⟨i, wordsRange, adhereTableLimit⟩] }

/-- The loop of `CreateTranslationOptionsForRange` over the decode graphs and,
in step, the lookup managers; `i` is the index of the manager reached. -/
def strictLookupLoop (wordsRange : WordsRange) (startPos endPos : Nat) :
    List DecodeGraph → List ChartRuleLookupManager → Nat → ChartTranslationOptionCollection →
    Except Failure ChartTranslationOptionCollection
  | [], _, _, c => .ok c
  | decodeGraph :: graphs, managers, i, c =>
    if decodeGraph.GetSize ≠ 1 then .error .checkFailed
    else
      match managers with
      | [] => .error .undefinedBehaviour
      | ruleLookupManager :: managers =>
        let maxSpan := decodeGraph.GetMaxChartSpan
        if maxSpan = 0 ∨ sizeAdd (sizeSub endPos startPos) 1 ≤ maxSpan then do
          let c ← GetChartRuleCollection ruleLookupManager i wordsRange true startPos endPos c
          strictLookupLoop wordsRange startPos endPos graphs managers (i + 1) c
        else
          strictLookupLoop wordsRange startPos endPos graphs managers (i + 1) c

/-- The first part of `CreateTranslationOptionsForRange`, up to the call of
`ProcessUnknownWord`: the strict lookups of the groupings whose maximum span
permits the span. -/
def strictLookups (d : Decoder) (c : ChartTranslationOptionCollection) (startPos endPos : Nat) :
    Except Failure ChartTranslationOptionCollection := do
  let chartRuleColl ← c.GetTranslationOptionList startPos endPos
  let wordsRange := chartRuleColl.GetSourceRange
  if d.m_decodeGraphList.length ≠ d.m_ruleLookupManagers.length then .error .checkFailed
  else strictLookupLoop wordsRange startPos endPos d.m_decodeGraphList d.m_ruleLookupManagers 0 c

/-! ## Unknown-word fallback -/

/-- The test `s.find_first_of("0123456789") != string::npos`. -/
def containsDigit (s : String) : Bool :=
  s.data.any fun ch => "0123456789".data.contains ch

/-- The word penalty score vector `vector<float> wordPenaltyScore(1,
-0.434294482)`: its one component is the `float` the `double` literal
`-0.434294482` converts to, `-14572505 / 2 ^ 25`. -/
def wordPenaltyScore : List Score := [.fin (-14572505 / 33554432)]

/-- The constructor call `ChartTranslationOption(*tpc, dottedRule, range, m_hypoStackColl)`
for a collection at a heap address. -/
def ChartTranslationOption.new (h : Helpers) (heap : List TargetPhraseCollection)
    (address : Nat) (dottedRule : DottedRule) (range : WordsRange) : ChartTranslationOption :=
  { m_targetPhraseCollection := .cached address
    m_dottedRule := dottedRule
    m_wordsRange := range
    m_estimateOfBestScore := h.CalcEstimateOfBestScore (heap.getD address []) dottedRule range }

/-- The dotted rule of a fallback option, `*dottedRuleList->back()`: the
empty start rule `DottedRule()` extended by the source-word label of the cell. -/
def unknownWordDottedRule (sourceWordLabel : ChartCellLabel) : DottedRule :=
  DottedRule.step sourceWordLabel DottedRule.root

/-- The statements of the pass-through branch that fill the new target phrase
of one fallback label: the unknown word, the two scores, the source phrase
and the left-hand side. -/
def passThroughPhrase (d : Decoder) (sourceWord : Word) (m_unksrc : Phrase)
    (entry : String × Score) : TargetPhrase :=
  let targetLHS := d.helpers.CreateFromString entry.1 true
  let targetPhrase := TargetPhrase.new.AddWord (d.helpers.CreateUnknownWord sourceWord)
  -- scores
  let unknownScore := [d.helpers.FloorScore (d.helpers.TransformScore entry.2)]
  let targetPhrase := targetPhrase.SetScore d.helpers .unknownWordPenalty unknownScore
  let targetPhrase := targetPhrase.SetScore d.helpers .wordPenalty wordPenaltyScore
  let targetPhrase := targetPhrase.SetSourcePhrase m_unksrc
  targetPhrase.SetTargetLHS targetLHS

/-- The loop over the fallback labels in the pass-through branch of
`ProcessOneUnknownWord`. -/
def passThroughLoop (d : Decoder) (sourceWord : Word) (sourcePos : Nat) (m_unksrc : Phrase)
    (lastDottedRule : DottedRule) (range : WordsRange) :
    List (String × Score) → ChartTranslationOptionCollection →
    Except Failure ChartTranslationOptionCollection
  | [], c => .ok c
  | entry :: rest, c =>
    let targetLHS := d.helpers.CreateFromString entry.1 true
    if targetLHS.GetFactor 0 = none then .error .checkFailed
    else do
      -- add to dictionary
      let address := c.heap.length
      let targetPhrase := passThroughPhrase d sourceWord m_unksrc entry
      let c := { c with
        heap := c.heap ++ [[targetPhrase]]
        m_cacheTargetPhraseCollection := c.m_cacheTargetPhraseCollection ++ [address] }
      -- chart rule
      let chartRule := ChartTranslationOption.new d.helpers c.heap address lastDottedRule range
      let transOptColl ← c.GetTranslationOptionList sourcePos sourcePos
      let c := c.setList sourcePos sourcePos (transOptColl.Add chartRule)
      passThroughLoop d sourceWord sourcePos m_unksrc lastDottedRule range rest c

/-- The statements of one iteration of the drop branch that write the shared
target phrase: the source phrase, the unknown-word score and the left-hand
side of the label. -/
def dropPhrase (d : Decoder) (m_unksrc : Phrase) (unknownScore : List Score)
    (targetPhrase : TargetPhrase) (entry : String × Score) : TargetPhrase :=
  let targetLHS := d.helpers.CreateFromString entry.1 true
  let targetPhrase := targetPhrase.SetSourcePhrase m_unksrc
  let targetPhrase := targetPhrase.SetScore d.helpers .unknownWordPenalty unknownScore
  targetPhrase.SetTargetLHS targetLHS

/-- The loop over the fallback labels in the drop branch of
`ProcessOneUnknownWord`; `address` is the one collection allocated before the
loop and `targetPhrase` the phrase it holds. -/
def dropLoop (d : Decoder) (sourcePos : Nat) (m_unksrc : Phrase)
    (sourceWordLabel : ChartCellLabel) (range : WordsRange) (unknownScore : List Score)
    (address : Nat) :
    List (String × Score) → TargetPhrase → ChartTranslationOptionCollection →
    Except Failure ChartTranslationOptionCollection
  | [], _, c => .ok c
  | entry :: rest, targetPhrase, c =>
    let targetLHS := d.helpers.CreateFromString entry.1 true
    if targetLHS.GetFactor 0 = none then .error .checkFailed
    else do
      let targetPhrase := dropPhrase d m_unksrc unknownScore targetPhrase entry
      -- words consumed
      let dottedRuleList := [DottedRule.root, unknownWordDottedRule sourceWordLabel]
      let c := { c with
        m_cacheTargetPhraseCollection := c.m_cacheTargetPhraseCollection ++ [address]
        heap := c.heap.set address [targetPhrase]
        m_dottedRuleCache := c.m_dottedRuleCache ++ [dottedRuleList] }
      -- chart rule
      let chartRule := ChartTranslationOption.new d.helpers c.heap address
        (unknownWordDottedRule sourceWordLabel) range
      let transOptColl ← c.GetTranslationOptionList sourcePos sourcePos
      let c := c.setList sourcePos sourcePos (transOptColl.Add chartRule)
      dropLoop d sourcePos m_unksrc sourceWordLabel range unknownScore address rest targetPhrase c

/-- Special handling of one unknown word, `ProcessOneUnknownWord(sourceWord, sourcePos)`. -/
def ProcessOneUnknownWord (d : Decoder) (c : ChartTranslationOptionCollection)
    (sourceWord : Word) (sourcePos : Nat) : Except Failure ChartTranslationOptionCollection := do
  let transOptColl ← c.GetTranslationOptionList sourcePos sourcePos
  let range := transOptColl.GetSourceRange
  let sourceWordLabel := d.m_hypoStackColl range
  let isDigit ←
    if d.staticData.m_dropUnknown then
      match sourceWord.GetFactor 0 with
      | none => Except.error Failure.undefinedBehaviour
      | some s => pure (containsDigit s)
    else pure false
  let m_unksrc : Phrase := [sourceWord]
  let c := { c with m_unksrcs := c.m_unksrcs ++ [m_unksrc] }
  if !d.staticData.m_dropUnknown || isDigit then
    -- create dotted rules
    let dottedRuleList := [DottedRule.root, unknownWordDottedRule sourceWordLabel]
    let c := { c with m_dottedRuleCache := c.m_dottedRuleCache ++ [dottedRuleList] }
    passThroughLoop d sourceWord sourcePos m_unksrc
      (unknownWordDottedRule sourceWordLabel) range d.staticData.m_unknownLHS c
  else
    -- drop source word. create blank trans opt
    let unknownScore := [d.helpers.FloorScore .negInf]
    let targetPhrase := TargetPhrase.new
    let address := c.heap.length
    let c := { c with heap := c.heap ++ [[targetPhrase]] }
    dropLoop d sourcePos m_unksrc sourceWordLabel range unknownScore address
      d.staticData.m_unknownLHS targetPhrase c

/-- The overload `ProcessUnknownWord(sourcePos)`. -/
def ProcessUnknownWordAt (d : Decoder) (c : ChartTranslationOptionCollection) (sourcePos : Nat) :
    Except Failure ChartTranslationOptionCollection :=
  match d.m_source.get? sourcePos with
  | none => .error .undefinedBehaviour
  | some sourceWord => ProcessOneUnknownWord d c sourceWord sourcePos

/-- The loop of `ProcessUnknownWord(startPos, endPos)` over the decode graphs
and, in step, the lookup managers: a relaxed lookup for each manager reached
while the list is empty. The `CHECK` after the loop is its last case. -/
def relaxedLookupLoop (wordsRange : WordsRange) (startPos : Nat) :
    List DecodeGraph → List ChartRuleLookupManager → Nat → ChartTranslationOptionCollection →
    Except Failure ChartTranslationOptionCollection
  | [], [], _, c => .ok c
  | [], _ :: _, _, _ => .error .checkFailed
  | _ :: _, [], _, _ => .error .undefinedBehaviour
  | _ :: graphs, ruleLookupManager :: managers, i, c => do
    let fullList ← c.GetTranslationOptionList startPos startPos
    let numTransOpt := fullList.GetSize
    if numTransOpt = 0 then
      let c ← GetChartRuleCollection ruleLookupManager i wordsRange false startPos startPos c
      relaxedLookupLoop wordsRange startPos graphs managers (i + 1) c
    else
      relaxedLookupLoop wordsRange startPos graphs managers (i + 1) c

/-- Force the creation of a translation option where there is none for a
source position, `ProcessUnknownWord(startPos, endPos)`. -/
def ProcessUnknownWord (d : Decoder) (c : ChartTranslationOptionCollection)
    (startPos endPos : Nat) : Except Failure ChartTranslationOptionCollection :=
  if startPos ≠ endPos then .ok c
  else if startPos = 0 ∨ startPos = sizeSub d.m_source.length 1 then .ok c
  else do
    let fullList ← c.GetTranslationOptionList startPos startPos
    let wordsRange := fullList.GetSourceRange
    let c ← relaxedLookupLoop wordsRange startPos d.m_decodeGraphList d.m_ruleLookupManagers 0 c
    let fullList ← c.GetTranslationOptionList startPos startPos
    if fullList.GetSize = 0 ∨ d.staticData.m_isAlwaysCreateDirectTranslationOption = true then
      ProcessUnknownWordAt d c startPos
    else .ok c

/-! ## Pruning and sorting -/

/-- The function `Prune(startPos, endPos)`: its body is empty. -/
def Prune (_d : Decoder) (c : ChartTranslationOptionCollection) (_startPos _endPos : Nat) :
    ChartTranslationOptionCollection := c

/-- Order of two options in a sorted list: the first does not score below the
second. -/
def ChartTranslationOptionOrderer (a b : ChartTranslationOption) : Prop :=
  Score.le b.m_estimateOfBestScore a.m_estimateOfBestScore = true

instance : DecidableRel ChartTranslationOptionOrderer :=
  fun a b => inferInstanceAs (Decidable (Score.le b.m_estimateOfBestScore a.m_estimateOfBestScore = true))

/-- Modelled from the spec: `ChartTranslationOptionList::Sort` is implemented in
`ChartTranslationOptionList.cpp`, outside these sources. Options are ordered
by score (rule score plus future-cost estimate) descending, ties broken by
insertion order: a stable insertion sort on `m_estimateOfBestScore`
(the name `Sort` is reserved in Lean). -/
def ChartTranslationOptionList.SortList (l : ChartTranslationOptionList) :
    ChartTranslationOptionList :=
  { l with m_collection := l.m_collection.insertionSort ChartTranslationOptionOrderer }

/-- Sort the options of one list, `Sort(startPos, endPos)` (the name `Sort`
is reserved in Lean). -/
def SortRange (c : ChartTranslationOptionCollection) (startPos endPos : Nat) :
    Except Failure ChartTranslationOptionCollection := do
  let list ← c.GetTranslationOptionList startPos endPos
  pure (c.setList startPos endPos list.SortList)

/-- The options of a span: strict lookups, fallback, pruning and sorting,
`CreateTranslationOptionsForRange(startPos, endPos)`. -/
def CreateTranslationOptionsForRange (d : Decoder) (c : ChartTranslationOptionCollection)
    (startPos endPos : Nat) : Except Failure ChartTranslationOptionCollection := do
  let c ← strictLookups d c startPos endPos
  let c ← ProcessUnknownWord d c startPos endPos
  let c := Prune d c startPos endPos
  SortRange c startPos endPos

/-! ## Closed forms used in the statements -/

/-- The collection has the shape the constructor gives it for a sentence of
`n` words: `n` rows, row `s` holding the lists of ranges `(s, s)`, `(s, s + 1)`,
up to `(s, n - 1)`, in this order. -/
def ChartTranslationOptionCollection.WellFormed (c : ChartTranslationOptionCollection) (n : Nat) : Prop :=
  c.m_collection.map (fun row => row.map fun l => l.m_range) =
    (List.range n).map fun s => (List.range (n - s)).map fun k => (⟨s, s + k⟩ : WordsRange)

instance (c : ChartTranslationOptionCollection) (n : Nat) : Decidable (c.WellFormed n) :=
  inferInstanceAs (Decidable (_ = _))

/-- The options of the list of a span, none when the span is not in the
collection. -/
def ChartTranslationOptionCollection.optionsAt (c : ChartTranslationOptionCollection)
    (startPos endPos : Nat) : List ChartTranslationOption :=
  match c.GetTranslationOptionList startPos endPos with
  | .ok l => l.m_collection
  | .error _ => []

/-- The list followed by further options, as after as many calls of `Add`. -/
def ChartTranslationOptionList.append (l : ChartTranslationOptionList)
    (xs : List ChartTranslationOption) : ChartTranslationOptionList :=
  { l with m_collection := l.m_collection ++ xs }

/-- The collection in which the list of a span is followed by further
options, every other list and member being as before. -/
def ChartTranslationOptionCollection.addOptions (c : ChartTranslationOptionCollection)
    (startPos endPos : Nat) (xs : List ChartTranslationOption) : ChartTranslationOptionCollection :=
  { c with m_collection :=
      c.m_collection.modify (List.modify (fun l => l.append xs) (sizeSub endPos startPos)) startPos }

/-- Whether the maximum span of a grouping permits the span `(startPos, endPos)`:
no limit, or a span length within the limit. -/
def DecodeGraph.permits (g : DecodeGraph) (startPos endPos : Nat) : Prop :=
  g.GetMaxChartSpan = 0 ∨ endPos - startPos + 1 ≤ g.GetMaxChartSpan

instance (g : DecodeGraph) (startPos endPos : Nat) : Decidable (g.permits startPos endPos) :=
  inferInstanceAs (Decidable (_ ∨ _))

/-- The options the strict lookups of the permitted groupings return for a
range, in grouping order. -/
def strictOptions (r : WordsRange) (startPos endPos : Nat) :
    List DecodeGraph → List ChartRuleLookupManager → List ChartTranslationOption
  | g :: gs, m :: ms =>
    (if g.permits startPos endPos then m.lookup r true else []) ++ strictOptions r startPos endPos gs ms
  | _, _ => []

/-- The strict lookup calls of the permitted groupings, in grouping order,
the first grouping having index `i`. -/
def strictCalls (r : WordsRange) (startPos endPos : Nat) :
    List DecodeGraph → List ChartRuleLookupManager → Nat → List LookupCall
  | g :: gs, _ :: ms, i =>
    (if g.permits startPos endPos then [⟨i, r, true⟩] else []) ++
      strictCalls r startPos endPos gs ms (i + 1)
  | _, _, _ => []

/-- The options the relaxed lookups add to an empty list: the result of the
first manager, in order, whose relaxed lookup returns an option. -/
def relaxedOptions (r : WordsRange) : List ChartRuleLookupManager → List ChartTranslationOption
  | [] => []
  | m :: ms => if m.lookup r false = [] then relaxedOptions r ms else m.lookup r false

/-- The relaxed lookup calls made on an empty list: one per manager, in
order, up to and including the first whose lookup returns an option; the
first manager has index `i`. -/
def relaxedCalls (r : WordsRange) : List ChartRuleLookupManager → Nat → List LookupCall
  | [], _ => []
  | m :: ms, i =>
    ⟨i, r, false⟩ :: (if m.lookup r false = [] then relaxedCalls r ms (i + 1) else [])

/-- The options the pass-through branch adds: one per label, in order, the
first one pointing to the collection at heap address `a`, the next at `a + 1`,
and so on. -/
def passThroughOptions (d : Decoder) (sourceWord : Word) (m_unksrc : Phrase)
    (rule : DottedRule) (range : WordsRange) :
    Nat → List (String × Score) → List ChartTranslationOption
  | _, [] => []
  | a, entry :: rest =>
    { m_targetPhraseCollection := .cached a
      m_dottedRule := rule
      m_wordsRange := range
      m_estimateOfBestScore :=
        d.helpers.CalcEstimateOfBestScore [passThroughPhrase d sourceWord m_unksrc entry] rule range } ::
      passThroughOptions d sourceWord m_unksrc rule range (a + 1) rest

/-- The options the drop branch adds: one per label, in order, all pointing
to the one collection at heap address `a`. -/
def dropOptions (d : Decoder) (m_unksrc : Phrase) (unknownScore : List Score)
    (rule : DottedRule) (range : WordsRange) (a : Nat) :
    List (String × Score) → TargetPhrase → List ChartTranslationOption
  | [], _ => []
  | entry :: rest, targetPhrase =>
    { m_targetPhraseCollection := .cached a
      m_dottedRule := rule
      m_wordsRange := range
      m_estimateOfBestScore := d.helpers.CalcEstimateOfBestScore
        [dropPhrase d m_unksrc unknownScore targetPhrase entry] rule range } ::
      dropOptions d m_unksrc unknownScore rule range a rest
        (dropPhrase d m_unksrc unknownScore targetPhrase entry)

/-- Every fallback label yields a left-hand side whose factor 0 is set, so
that the `CHECK` of the fallback loops passes. -/
def labelsHaveFactor (d : Decoder) (labels : List (String × Score)) : Prop :=
  ∀ entry ∈ labels, (d.helpers.CreateFromString entry.1 true).GetFactor 0 ≠ none

instance (d : Decoder) (labels : List (String × Score)) : Decidable (labelsHaveFactor d labels) :=
  inferInstanceAs (Decidable (∀ entry ∈ labels, _))

/-- Whether `ProcessOneUnknownWord` takes the drop branch for a word: the
drop-unknown policy is set and the surface string (factor 0) has no digit. -/
def takesDropBranch (d : Decoder) (sourceWord : Word) : Bool :=
  d.staticData.m_dropUnknown &&
    match sourceWord.GetFactor 0 with
    | some s => !containsDigit s
    | none => false

/-- The options `ProcessOneUnknownWord` adds for a word, the first fresh heap
address being `a`: those of the drop branch or those of the pass-through
branch. -/
def fallbackOptions (d : Decoder) (sourceWord : Word) (range : WordsRange) (a : Nat) :
    List ChartTranslationOption :=
  if takesDropBranch d sourceWord then
    dropOptions d [sourceWord] [d.helpers.FloorScore .negInf]
      (unknownWordDottedRule (d.m_hypoStackColl range)) range a d.staticData.m_unknownLHS
      TargetPhrase.new
  else
    passThroughOptions d sourceWord [sourceWord]
      (unknownWordDottedRule (d.m_hypoStackColl range)) range a d.staticData.m_unknownLHS

/-- The collection after the relaxed lookups of `ProcessUnknownWord` on the
singleton span at `p`: unchanged when the list already holds an option. -/
def withRelaxedLookups (d : Decoder) (c : ChartTranslationOptionCollection) (p : Nat) :
    ChartTranslationOptionCollection :=
  if c.optionsAt p p = [] then
    { c.addOptions p p (relaxedOptions ⟨p, p⟩ d.m_ruleLookupManagers) with
      lookupLog := c.lookupLog ++ relaxedCalls ⟨p, p⟩ d.m_ruleLookupManagers 0 }
  else c

/-- The span is a single word that is neither the first nor the last of the
sentence. -/
def interiorSingleton (d : Decoder) (startPos endPos : Nat) : Prop :=
  startPos = endPos ∧ startPos ≠ 0 ∧ startPos ≠ d.m_source.length - 1

instance (d : Decoder) (startPos endPos : Nat) : Decidable (interiorSingleton d startPos endPos) :=
  inferInstanceAs (Decidable (_ ∧ _ ∧ _))

/-- The configuration passes every `CHECK` that does not depend on the span:
the sentence length is a `size_t`, there are as many lookup managers as
groupings, every grouping has one step, every fallback label gives a
left-hand side, and under the drop policy every source word has a surface
factor. -/
def Decoder.Valid (d : Decoder) : Prop :=
  d.m_source.length < 2 ^ 64 ∧
  d.m_decodeGraphList.length = d.m_ruleLookupManagers.length ∧
  (∀ g ∈ d.m_decodeGraphList, g.GetSize = 1) ∧
  labelsHaveFactor d d.staticData.m_unknownLHS ∧
  (d.staticData.m_dropUnknown = true → ∀ w ∈ d.m_source, w.GetFactor 0 ≠ none)

instance (d : Decoder) : Decidable d.Valid :=
  inferInstanceAs (Decidable (_ ∧ _ ∧ (∀ g ∈ d.m_decodeGraphList, _) ∧ _ ∧
    (_ → ∀ w ∈ d.m_source, _)))

/-- The target phrases an option points to, read in the heap of the
collection when the option was made by the fallback. -/
def ChartTranslationOptionCollection.targetPhrases (c : ChartTranslationOptionCollection)
    (o : ChartTranslationOption) : TargetPhraseCollection :=
  match o.m_targetPhraseCollection with
  | .ruleTable tpc => tpc
  | .cached a => c.heap.getD a []

/-- Walk the sub-spans of a rule from a position: each must start where the
previous one ended and be non-empty; the result is the position reached. -/
def tileFrom : Nat → List WordsRange → Option Nat
  | pos, [] => some pos
  | pos, r :: rest => if r.startPos = pos ∧ r.startPos ≤ r.endPos then tileFrom (r.endPos + 1) rest else none

/-- The sub-spans of the symbols of a dotted rule partition a range exactly:
no gap, no overlap, from its first to its last position. -/
def DottedRule.partitions (rule : DottedRule) (range : WordsRange) : Prop :=
  tileFrom range.startPos (rule.symbols.map fun l => l.coverage) = some (range.endPos + 1)

instance (rule : DottedRule) (range : WordsRange) : Decidable (rule.partitions range) :=
  inferInstanceAs (Decidable (_ = _))

/-- The collection after the strict lookups of span `(startPos, endPos)`. -/
def withStrictLookups (d : Decoder) (c : ChartTranslationOptionCollection)
    (startPos endPos : Nat) : ChartTranslationOptionCollection :=
  { c.addOptions startPos endPos
      (strictOptions ⟨startPos, endPos⟩ startPos endPos d.m_decodeGraphList d.m_ruleLookupManagers) with
    lookupLog := c.lookupLog ++
      strictCalls ⟨startPos, endPos⟩ startPos endPos d.m_decodeGraphList d.m_ruleLookupManagers 0 }

/-- The collection after `ProcessOneUnknownWord` for a word at position `p`:
the fallback options added to the list of `(p, p)`, the source phrase, the
dotted rules and the target phrase collections recorded. -/
def withFallback (d : Decoder) (c : ChartTranslationOptionCollection) (sourceWord : Word)
    (p : Nat) : ChartTranslationOptionCollection :=
  let rule := unknownWordDottedRule (d.m_hypoStackColl ⟨p, p⟩)
  let labels := d.staticData.m_unknownLHS
  if takesDropBranch d sourceWord then
    { c.addOptions p p (fallbackOptions d sourceWord ⟨p, p⟩ c.heap.length) with
      m_unksrcs := c.m_unksrcs ++ [[sourceWord]]
      m_cacheTargetPhraseCollection := c.m_cacheTargetPhraseCollection ++
        List.replicate labels.length c.heap.length
      heap := c.heap ++ [[labels.foldl
        (dropPhrase d [sourceWord] [d.helpers.FloorScore .negInf]) TargetPhrase.new]]
      m_dottedRuleCache := c.m_dottedRuleCache ++
        List.replicate labels.length [DottedRule.root, rule] }
  else
    { c.addOptions p p (fallbackOptions d sourceWord ⟨p, p⟩ c.heap.length) with
      m_unksrcs := c.m_unksrcs ++ [[sourceWord]]
      m_dottedRuleCache := c.m_dottedRuleCache ++ [[DottedRule.root, rule]]
      heap := c.heap ++ labels.map fun entry => [passThroughPhrase d sourceWord [sourceWord] entry]
      m_cacheTargetPhraseCollection := c.m_cacheTargetPhraseCollection ++
        List.range' c.heap.length labels.length }

/-- The collection after `ProcessUnknownWord(startPos, endPos)`, for the word
`sourceWord` at `startPos`: untouched unless the span is an interior
singleton; then the relaxed lookups, followed by the fallback when the list
is still empty or the always-fallback policy is set. -/
def afterUnknownWord (d : Decoder) (c : ChartTranslationOptionCollection)
    (startPos endPos : Nat) (sourceWord : Word) : ChartTranslationOptionCollection :=
  if interiorSingleton d startPos endPos then
    if (withRelaxedLookups d c startPos).optionsAt startPos startPos = [] ∨
        d.staticData.m_isAlwaysCreateDirectTranslationOption = true then
      withFallback d (withRelaxedLookups d c startPos) sourceWord startPos
    else withRelaxedLookups d c startPos
  else c

/-! ## Example configurations -/

/-- Sample helper functions: the floor maps negative infinity to `-100`,
the transform is the identity, a label becomes a one-factor non-terminal,
an unknown word is a copy of the source word, the weighted score is the
sum of nothing, and the estimate of an option is the full score of its
first phrase. -/
def exampleHelpers : Helpers :=
  { FloorScore := fun s => if s = .negInf then .fin (-100) else s
    TransformScore := fun s => s
    CreateFromString := fun str nt => ⟨nt, [some str]⟩
    CreateUnknownWord := fun w => w
    GetWeightedScore := fun _ => .fin 0
    CalcEstimateOfBestScore := fun tpc _ _ =>
      match tpc with
      | tp :: _ => tp.m_fullScore
      | [] => .fin 0 }

/-- A terminal word with one factor, its surface string. -/
def exampleWord (s : String) : Word := ⟨false, [some s]⟩

/-- A three-word sentence whose middle word is `middle`, one grouping without
span limit, with the given policies, labels and lookup manager. -/
def exampleDecoder (drop always : Bool) (labels : List (String × Score))
    (maxOptions : Option Nat) (manager : ChartRuleLookupManager) (middle : String) : Decoder :=
  { m_source := [exampleWord "<s>", exampleWord middle, exampleWord "</s>"]
    m_decodeGraphList := [⟨1, 0⟩]
    m_ruleLookupManagers := [manager]
    m_hypoStackColl := fun r => ⟨r, exampleWord middle⟩
    staticData := ⟨drop, always, labels, maxOptions⟩
    helpers := exampleHelpers }

/-- A manager that never returns an option. -/
def emptyManager : ChartRuleLookupManager := ⟨fun _ _ => []⟩

/-- An option of the rule table over a range, with a given estimate and no
consumed symbol. -/
def exampleOption (r : WordsRange) (estimate : Score) : ChartTranslationOption :=
  ⟨.ruleTable [], .root, r, estimate⟩

/-- A manager whose strict lookup is empty and whose relaxed lookup returns
one option over the requested range. -/
def relaxedOnlyManager : ChartRuleLookupManager :=
  ⟨fun r adhereTableLimit => if adhereTableLimit then [] else [exampleOption r (.fin 0)]⟩

/-- A manager whose strict lookup returns two options over the requested
range, the lower scored first. -/
def twoOptionManager : ChartRuleLookupManager :=
  ⟨fun r adhereTableLimit =>
    if adhereTableLimit then [exampleOption r .negInf, exampleOption r (.fin 0)] else []⟩

/-- A three-word sentence with two groupings: the first limited to spans of
one word, the second without limit; each manager returns one option over the
requested range, with estimates `0` and `-infinity`. -/
def twoGroupingDecoder : Decoder :=
  { m_source := [exampleWord "<s>", exampleWord "abc", exampleWord "</s>"]
    m_decodeGraphList := [⟨1, 1⟩, ⟨1, 0⟩]
    m_ruleLookupManagers :=
      [⟨fun r _ => [exampleOption r (.fin 0)]⟩, ⟨fun r _ => [exampleOption r .negInf]⟩]
    m_hypoStackColl := fun r => ⟨r, exampleWord "abc"⟩
    staticData := ⟨false, false, [("X", .fin 0)], none⟩
    helpers := exampleHelpers }

/-- No rule, one fallback label, no drop policy, middle word `abc`. -/
def passDecoder : Decoder :=
  exampleDecoder false false [("X", .fin 0)] none emptyManager "abc"

/-- As `passDecoder`, with a manager that answers the relaxed lookup only. -/
def relaxedDecoder : Decoder :=
  exampleDecoder false false [("X", .fin 0)] none relaxedOnlyManager "abc"

/-- No rule, two fallback labels, drop policy, middle word `abc`. -/
def dropDecoder : Decoder :=
  exampleDecoder true false [("X", .fin 0), ("Y", .fin 0)] none emptyManager "abc"

/-- No rule, one fallback label, drop policy, middle word `abc`. -/
def dropOneLabelDecoder : Decoder :=
  exampleDecoder true false [("X", .fin 0)] none emptyManager "abc"

/-- A maximum of one option per span and a manager that returns two. -/
def prunedDecoder : Decoder :=
  exampleDecoder false false [("X", .fin 0)] (some 1) twoOptionManager "abc"

/-- The always-fallback policy and a manager that returns two options. -/
def alwaysDecoder : Decoder :=
  exampleDecoder false true [("X", .fin 0)] none twoOptionManager "abc"

/-! ## Score arithmetic and the score helpers -/

/-- Sum of two `float` values, as IEEE 754 binary32: the exact sum of two
finite values rounded to the nearest `float` (an infinity on overflow), and
the rules of the standard on the infinities and NaN. -/
def Score.add : Score → Score → Score
  | .nan, _ => .nan
  | _, .nan => .nan
  | .posInf, .negInf => .nan
  | .negInf, .posInf => .nan
  | .posInf, _ => .posInf
  | _, .posInf => .posInf
  | .negInf, _ => .negInf
  | _, .negInf => .negInf
  | .fin a, .fin b => Score.ofRat (a + b)

/-- An infinity multiplied by a finite value: NaN for zero, else the infinity
with the sign of the product. -/
def Score.infTimes (positive : Bool) (q : ℚ) : Score :=
  if q = 0 then .nan
  else if (0 < q) = positive then .posInf
  else .negInf

/-- Product of two `float` values, as IEEE 754 binary32: the exact product of
two finite values rounded to the nearest `float` (an infinity on overflow),
and the rules of the standard on the infinities and NaN. -/
def Score.mul : Score → Score → Score
  | .nan, _ => .nan
  | _, .nan => .nan
  | .posInf, .posInf => .posInf
  | .negInf, .negInf => .posInf
  | .posInf, .negInf => .negInf
  | .negInf, .posInf => .negInf
  | .posInf, .fin q => Score.infTimes true q
  | .fin q, .posInf => Score.infTimes true q
  | .negInf, .fin q => Score.infTimes false q
  | .fin q, .negInf => Score.infTimes false q
  | .fin a, .fin b => Score.ofRat (a * b)

/-- A finite value: neither an infinity nor NaN. -/
def Score.isFinite : Score → Bool
  | .fin _ => true
  | _ => false

/-- Modelled from the spec: `FloorScore` is defined in `Util.h`, outside these
sources. The score is floored at a floor constant `LOWEST_SCORE`, whose value
the spec leaves open: the result is the constant when the score is below it
(in particular for negative infinity), else the score. -/
def FloorScore (LOWEST_SCORE : ℚ) : Score → Score
  | .negInf => .fin LOWEST_SCORE
  | .fin q => if q < LOWEST_SCORE then .fin LOWEST_SCORE else .fin q
  | .posInf => .posInf
  | .nan => .nan

/-- The weighted sum of a score breakdown given by its lookup `scoresOf`:
the products of component and weight, over all components in the fixed order
of the configured producers, summed in that order from `0.0f` as
`std::inner_product` does; `weights` gives each producer its weight vector,
and the components of a producer without assigned scores are zero. -/
def weightedSum (weights : List (ScoreProducer × List Score))
    (scoresOf : ScoreProducer → Option (List Score)) : Score :=
  (weights.flatMap fun pw =>
    List.zipWith Score.mul ((scoresOf pw.1).getD (List.replicate pw.2.length (.fin 0))) pw.2).foldl
    Score.add (.fin 0)

/-- Modelled from the spec: `ScoreComponentCollection::GetWeightedScore` is
implemented outside these sources. The total weighted score is the sum of
feature score times configured weight over the whole breakdown, computed in
`float` arithmetic. -/
def GetWeightedScore (weights : List (ScoreProducer × List Score))
    (b : ScoreComponentCollection) : Score :=
  weightedSum weights b.GetScoresForProducer

/-- Sample helpers with the floor constant `-100` and the weighted score for
given weights. -/
def scoringHelpers (weights : List (ScoreProducer × List Score)) : Helpers :=
  { exampleHelpers with
    FloorScore := FloorScore (-100)
    GetWeightedScore := GetWeightedScore weights }

/-- Sample weights: `1` for the unknown-word penalty, `2` for a language
model, `-1` for the word penalty. -/
def exampleWeights : List (ScoreProducer × List Score) :=
  [(.unknownWordPenalty, [.fin 1]), (.other 0, [.fin 2]), (.wordPenalty, [.fin (-1)])]

/-- The decoder `dropDecoder` with the scoring helpers. -/
def scoringDecoder : Decoder :=
  { dropDecoder with helpers := scoringHelpers exampleWeights }

/-- Sample weights with the finite weight `2 ^ 125` for the unknown-word
penalty. -/
def overflowWeights : List (ScoreProducer × List Score) :=
  [(.unknownWordPenalty, [.fin (2 ^ 125)]), (.other 0, [.fin 2]), (.wordPenalty, [.fin (-1)])]

/-- The decoder `dropDecoder` with the scoring helpers for `overflowWeights`. -/
def overflowDecoder : Decoder :=
  { dropDecoder with helpers := scoringHelpers overflowWeights }

/-! ## The input and output wrapper (`moses-chart-cmd/src/IOWrapper.cpp`) -/

/-- Largest value of a 64-bit `long`. -/
def LONG_MAX : Int := 2 ^ 63 - 1

/-- Modelled from the spec: `OutputCollector` is declared outside these
sources; it is the external output collaborator that receives the rendered
text of each translation id. The collector is the list of the texts written
to it, in the order of the calls of `Write`. -/
structure OutputCollector where
  written : List (Int × String)
deriving DecidableEq, Repr

/-- The call `collector->Write(translationId, text)`. -/
def OutputCollector.Write (collector : OutputCollector) (translationId : Int) (text : String) :
    OutputCollector :=
  { written := collector.written ++ [(translationId, text)] }

/-- The members of `IOWrapper` the functions below read or write; a null
collector pointer is `none`. -/
structure IOWrapper where
  m_outputFactorOrder : List Nat
  m_surpressSingleBestOutput : Bool
  m_translationId : Int
  m_detailOutputCollector : Option OutputCollector
  m_nBestOutputCollector : Option OutputCollector
  m_singleBestOutputCollector : Option OutputCollector
deriving DecidableEq, Repr

/-- The constructor, as far as these members go: single-best output is
suppressed exactly when an n-best list is asked for on the standard output
(file path `-`); the n-best collector exists when an n-best list is asked
for, the single-best collector when single-best output is not suppressed,
the detail collector when detailed reporting is enabled. The translation id
is not set by the constructor: it is whatever `m_translationId` holds. -/
def IOWrapper.new (outputFactorOrder : List Nat) (nBestSize : Nat) (nBestFilePath : String)
    (detailedReporting : Bool) (m_translationId : Int) : IOWrapper :=
  let surpress := decide (nBestSize > 0) && decide (nBestFilePath = "-")
  { m_outputFactorOrder := outputFactorOrder
    m_surpressSingleBestOutput := surpress
    m_translationId := m_translationId
    m_detailOutputCollector := if detailedReporting then some ⟨[]⟩ else none
    m_nBestOutputCollector := if nBestSize > 0 then some ⟨[]⟩ else none
    m_singleBestOutputCollector := if surpress then none else some ⟨[]⟩ }

/-- An input sentence as `GetInput` sees it: its translation id and its
words. -/
structure InputType where
  m_translationId : Int
  words : List Word
deriving DecidableEq, Repr

/-- The function `IOWrapper::GetInput`. The argument `read` is what
`inputType->Read(...)` gave: `none` when it returned false, else the input
as read. The result is the wrapper and the pointer returned, `none` for
`NULL`. An overflow of the `long` counter is undefined behaviour. -/
def IOWrapper.GetInput (io : IOWrapper) (read : Option InputType) :
    Except Failure (IOWrapper × Option InputType) :=
  match read with
  | some inputType =>
    let x := inputType.m_translationId
    if x ≠ 0 then
      if x ≥ io.m_translationId then
        if x = LONG_MAX then .error .undefinedBehaviour
        else .ok ({ io with m_translationId := x + 1 }, some inputType)
      else .ok (io, some inputType)
    else
      if io.m_translationId = LONG_MAX then .error .undefinedBehaviour
      else .ok ({ io with m_translationId := io.m_translationId + 1 },
        some { inputType with m_translationId := io.m_translationId })
  | none => .ok (io, none)

/-- A sequence of calls of `GetInput`, one per input read with success; the
result is the wrapper after the last call and the inputs returned, in order. -/
def IOWrapper.GetInputSequence (io : IOWrapper) :
    List InputType → Except Failure (IOWrapper × List InputType)
  | [] => .ok (io, [])
  | inputType :: rest =>
    match io.GetInput (some inputType) with
    | .error e => .error e
    | .ok (io1, returned) =>
      match IOWrapper.GetInputSequence io1 rest with
      | .error e => .error e
      | .ok (io2, outs) => .ok (io2, returned.toList ++ outs)

/-- A wrapper with a single-best collector, for the examples. -/
def exampleIOWrapper : IOWrapper := IOWrapper.new [0] 0 "" false 0

/-! ## Hypotheses and the recursive walks of `IOWrapper.cpp` -/

/-- A pointer to a chart hypothesis: `none` is the null pointer, `some a`
the hypothesis at address `a` of the arena. -/
abbrev HypoPtr := Option Nat

/-- A chart hypothesis as the output functions read it. The field
`outputPhrase` is the phrase `CreateOutputPhrase` builds for the hypothesis
(`ChartHypothesis.cpp` is outside these sources). -/
structure ChartHypothesis where
  m_id : Nat
  m_currSourceWordsRange : WordsRange
  m_dottedRule : DottedRule
  m_currTargetPhrase : TargetPhrase
  m_totalScore : Score
  m_scoreBreakdown : ScoreComponentCollection
  m_prevHypos : List HypoPtr
  outputPhrase : Phrase
deriving DecidableEq, Repr

/-- Dereference a hypothesis pointer: a null pointer and an address outside
the arena are undefined behaviour. -/
def deref (arena : List ChartHypothesis) (p : HypoPtr) : Except Failure ChartHypothesis :=
  match p with
  | none => .error .undefinedBehaviour
  | some a =>
    match arena.get? a with
    | some h => .ok h
    | none => .error .undefinedBehaviour

/-- The options of `StaticData::Instance()` the output functions read. -/
structure OutputSettings where
  outputHypoScore : Bool
  pathRecoveryEnabled : Bool
  labeledNBestList : Bool
  outputFactorOrder : List Nat
  verboseLevel : Nat
deriving DecidableEq, Repr

/-- The stream insertions (`operator<<`) of the types printed by the output
functions; they are implemented outside this file and are parameters here.
The flag of `showScore` tells whether `FixPrecision` was applied to the
stream. -/
structure Rendering where
  showScore : Bool → Score → String
  showRange : WordsRange → String
  showDottedRule : DottedRule → String
  showWord : Option Word → String
  showTargetPhrase : TargetPhrase → String
  showBreakdown : ScoreComponentCollection → String
  showPhrase : Phrase → String
  showHypo : ChartHypothesis → String

/-- Modelled from the spec: the macro `VERBOSE(level, str)` of `Util.h` is
outside these sources; it appends `str` to the trace when the verbosity is at
least `level`. -/
def VERBOSE (s : OutputSettings) (level : Nat) (trace str : String) : String :=
  if level ≤ s.verboseLevel then trace ++ str else trace

/-- The loop `for (iter = prevHypos.begin(); iter != prevHypos.end(); ++iter)`
with the given body, threading the state `σ`; `none` is a body that did not
return within its fuel. -/
def forEachPrevHypo {σ : Type} (body : σ → HypoPtr → Option (Except Failure σ)) :
    List HypoPtr → σ → Option (Except Failure σ)
  | [], s => some (.ok s)
  | prevHypo :: rest, s =>
    match body s prevHypo with
    | none => none
    | some (.error e) => some (.error e)
    | some (.ok s2) => forEachPrevHypo body rest s2

/-- The function `IOWrapper::Backtrack`, on the trace written by `VERBOSE`.
The first argument bounds the depth of the recursion; `none` means the bound
was reached. -/
def Backtrack (s : OutputSettings) (arena : List ChartHypothesis) :
    Nat → String → HypoPtr → Option (Except Failure String)
  | 0, _, _ => none
  | fuel + 1, trace, hypo =>
    match deref arena hypo with
    | .error e => some (.error e)
    | .ok h =>
      forEachPrevHypo
        (fun trace prevHypo =>
          let traced : Except Failure String :=
            if 3 ≤ s.verboseLevel then
              (deref arena prevHypo).map (fun prev => trace ++ (toString prev.m_id ++ " <= "))
            else .ok trace
          match traced with
          | .error e => some (.error e)
          | .ok trace2 => Backtrack s arena fuel trace2 prevHypo)
        h.m_prevHypos trace

/-- The record `"Trans Opt " << translationId << " " << range << ": " <<
dottedRule << ": " << targetLHS << "->" << targetPhrase << " " << totalScore
<< scoreBreakdown << endl` of one hypothesis. -/
def transOptRecord (r : Rendering) (translationId : Int) (hypo : ChartHypothesis) : String :=
  "Trans Opt " ++ toString translationId
    ++ " " ++ r.showRange hypo.m_currSourceWordsRange
    ++ ": " ++ r.showDottedRule hypo.m_dottedRule
    ++ ": " ++ r.showWord hypo.m_currTargetPhrase.m_targetLHS
    ++ "->" ++ r.showTargetPhrase hypo.m_currTargetPhrase
    ++ " " ++ r.showScore false hypo.m_totalScore ++ r.showBreakdown hypo.m_scoreBreakdown
    ++ "\n"

/-- The function `OutputTranslationOptions(out, hypo, translationId)`. The
record is written under `if (hypo != NULL)`; the call `hypo->GetPrevHypos()`
after it is not guarded. The first argument bounds the depth of the
recursion; `none` means the bound was reached. -/
def OutputTranslationOptions (r : Rendering) (arena : List ChartHypothesis)
    (translationId : Int) : Nat → String → HypoPtr → Option (Except Failure String)
  | 0, _, _ => none
  | fuel + 1, out, hypo =>
    let written : Except Failure String :=
      match hypo with
      | some _ => (deref arena hypo).map (fun h => out ++ transOptRecord r translationId h)
      | none => .ok out
    match written with
    | .error e => some (.error e)
    | .ok out1 =>
      match deref arena hypo with
      | .error e => some (.error e)
      | .ok h =>
        forEachPrevHypo (fun out2 prevHypo =>
          OutputTranslationOptions r arena translationId fuel out2 prevHypo) h.m_prevHypos out1

/-- The function `IOWrapper::OutputDetailedTranslationReport`. -/
def IOWrapper.OutputDetailedTranslationReport (io : IOWrapper) (r : Rendering)
    (arena : List ChartHypothesis) (fuel : Nat) (hypo : HypoPtr) (translationId : Int) :
    Option (Except Failure IOWrapper) :=
  match hypo with
  | none => some (.ok io)
  | some _ =>
    match OutputTranslationOptions r arena translationId fuel "" hypo with
    | none => none
    | some (.error e) => some (.error e)
    | some (.ok text) =>
      match io.m_detailOutputCollector with
      | none => some (.error .checkFailed)
      | some collector =>
        some (.ok { io with m_detailOutputCollector := some (collector.Write translationId text) })

/-! ### The derivation tree of a hypothesis -/

/-- Number of words of the span a hypothesis covers. -/
def ChartHypothesis.spanLength (h : ChartHypothesis) : Nat :=
  h.m_currSourceWordsRange.endPos + 1 - h.m_currSourceWordsRange.startPos

/-- The invariant on the backpointers below a hypothesis: the pointer is
valid, each child pointer is valid and its hypothesis covers a strictly
shorter span than the parent, and the same holds below each child. -/
inductive SpanOrdered (arena : List ChartHypothesis) : HypoPtr → Prop where
  | node (a : Nat) (h : ChartHypothesis) (valid : arena.get? a = some h)
      (shorter : ∀ p ∈ h.m_prevHypos, ∃ child, deref arena p = .ok child ∧
        child.spanLength < h.spanLength)
      (below : ∀ p ∈ h.m_prevHypos, SpanOrdered arena p) : SpanOrdered arena (some a)

/-- The same invariant over a whole arena, as a check: every child pointer of
every hypothesis is valid and leads to a strictly shorter span. -/
def spanOrderedArena (arena : List ChartHypothesis) : Bool :=
  arena.all fun h => h.m_prevHypos.all fun p =>
    match deref arena p with
    | .ok child => decide (child.spanLength < h.spanLength)
    | .error _ => false

/-- The nodes of the derivation tree below a pointer, in pre-order: the
hypothesis itself, then the nodes below each of its children, children from
left to right. The first argument bounds the depth. -/
def preOrder (arena : List ChartHypothesis) : Nat → HypoPtr → List ChartHypothesis
  | 0, _ => []
  | depth + 1, p =>
    match deref arena p with
    | .error _ => []
    | .ok h => h :: h.m_prevHypos.flatMap (preOrder arena depth)

/-- The nodes of the derivation tree of a hypothesis, in pre-order; the depth
of the tree is at most the span length plus one. -/
def derivationNodes (arena : List ChartHypothesis) (p : HypoPtr) : List ChartHypothesis :=
  match deref arena p with
  | .error _ => []
  | .ok h => preOrder arena (h.spanLength + 1) p

/-- Concatenation of a list of texts. -/
def concat : List String → String
  | [] => ""
  | t :: rest => t ++ concat rest

/-- A rendering for the examples. -/
def exampleRendering : Rendering :=
  { showScore := fun _ score =>
      match score with
      | .fin q => toString q.num ++ "/" ++ toString q.den
      | .nan => "nan"
      | .negInf => "-inf"
      | .posInf => "inf"
    showRange := fun range => "[" ++ toString range.startPos ++ ".." ++ toString range.endPos ++ "]"
    showDottedRule := fun rule => toString rule.symbols.length
    showWord := fun w => ((w.bind (fun x => x.GetFactor 0)).getD "")
    showTargetPhrase := fun tp => toString tp.words.length
    showBreakdown := fun b => toString b.length
    showPhrase := fun p => toString p.length
    showHypo := fun h => toString h.m_id }

/-- A leaf hypothesis over the span `(startPos, endPos)`. -/
def exampleLeaf (id startPos endPos : Nat) : ChartHypothesis :=
  { m_id := id, m_currSourceWordsRange := ⟨startPos, endPos⟩, m_dottedRule := DottedRule.root
    m_currTargetPhrase := TargetPhrase.new, m_totalScore := .fin 0, m_scoreBreakdown := []
    m_prevHypos := [], outputPhrase := [] }

/-- An arena of three hypotheses: the root at address 0 over `(0, 2)` with
the children at addresses 1 and 2. -/
def exampleArena : List ChartHypothesis :=
  [{ exampleLeaf 10 0 2 with m_prevHypos := [some 1, some 2] }, exampleLeaf 11 0 0, exampleLeaf 12 1 2]

/-- An arena whose only hypothesis is its own child. -/
def cyclicArena : List ChartHypothesis :=
  [{ exampleLeaf 10 0 2 with m_prevHypos := [some 0] }]

/-- Output settings for the examples: no score output, no path recovery,
verbosity 3. -/
def exampleSettings : OutputSettings :=
  { outputHypoScore := false, pathRecoveryEnabled := false, labeledNBestList := false
    outputFactorOrder := [0], verboseLevel := 3 }

/-! ## Single-best and n-best output -/

/-- Modelled from the spec: `Phrase::RemoveWord(pos)` is defined outside
these sources; it checks `pos < GetSize()` and erases the word at `pos`. -/
def Phrase.RemoveWord (phrase : Phrase) (pos : Nat) : Except Failure Phrase :=
  if pos < phrase.length then .ok (phrase.eraseIdx pos) else .error .checkFailed

/-- The lines `CHECK(outPhrase.GetSize() >= 2); outPhrase.RemoveWord(0);
outPhrase.RemoveWord(outPhrase.GetSize() - 1);` that `OutputBestHypo` and
`OutputNBestList` both apply to the output phrase. The subtraction does not
wrap: the size is at least 1 when it is evaluated. -/
def removeFirstAndLast (outPhrase : Phrase) : Except Failure Phrase :=
  if outPhrase.length ≥ 2 then
    match Phrase.RemoveWord outPhrase 0 with
    | .error e => .error e
    | .ok outPhrase1 => Phrase.RemoveWord outPhrase1 (outPhrase1.length - 1)
  else .error .checkFailed

/-- The renderings of a phrase that single-best output calls and that are
implemented outside this file: `Phrase::GetStringRep(factorsToPrint)`, which
may fail on a word without a requested factor. -/
structure PhraseRendering where
  GetStringRep : Phrase → List Nat → Except Failure String

/-- The text one word adds in `OutputSurface(out, phrase, outputFactorOrder,
false)`: the factor of the first type, then `|` and the factor for each
further type, then a blank. Dereferencing a null factor is undefined
behaviour. The caller has checked that `outputFactorOrder` is not empty. -/
def surfaceOfWord (outputFactorOrder : List Nat) (word : Word) : Except Failure String :=
  match word.GetFactor (outputFactorOrder.getD 0 0) with
  | none => .error .undefinedBehaviour
  | some factor =>
    let further : Except Failure String :=
      outputFactorOrder.tail.foldl
        (fun acc factorType =>
          match acc with
          | .error e => .error e
          | .ok text =>
            match word.GetFactor factorType with
            | none => .error .undefinedBehaviour
            | some f => .ok (text ++ ("|" ++ f)))
        (.ok factor)
    match further with
    | .error e => .error e
    | .ok text => .ok (text ++ " ")

/-- The text the loop over the positions of the phrase writes. -/
def surfaceOfPhrase (outputFactorOrder : List Nat) : Phrase → Except Failure String
  | [] => .ok ""
  | word :: rest =>
    match surfaceOfWord outputFactorOrder word with
    | .error e => .error e
    | .ok text =>
      match surfaceOfPhrase outputFactorOrder rest with
      | .error e => .error e
      | .ok more => .ok (text ++ more)

/-- The function `OutputSurface(out, phrase, outputFactorOrder,
reportAllFactors)`; the result is the stream after the call. -/
def OutputSurface (r : Rendering) (out : String) (phrase : Phrase)
    (outputFactorOrder : List Nat) (reportAllFactors : Bool) : Except Failure String :=
  if outputFactorOrder.length > 0 then
    if reportAllFactors = true then .ok (out ++ r.showPhrase phrase)
    else
      match surfaceOfPhrase outputFactorOrder phrase with
      | .error e => .error e
      | .ok text => .ok (out ++ text)
  else .error .checkFailed

/-- The text of the stream `out` at the end of `OutputBestHypo` for the null
hypothesis. -/
def emptyResultText (s : OutputSettings) : String :=
  (if s.outputHypoScore then "0 " else "") ++ "\n"

/-- The function `IOWrapper::OutputBestHypo(hypo, translationId, ...)`. The
result is the wrapper, whose single-best collector has received the text
when it exists, and the trace. The bound `fuel` is that of `Backtrack`. -/
def IOWrapper.OutputBestHypo (io : IOWrapper) (s : OutputSettings) (r : Rendering)
    (pr : PhraseRendering) (arena : List ChartHypothesis) (fuel : Nat) (trace : String)
    (hypo : HypoPtr) (translationId : Int) : Option (Except Failure (IOWrapper × String)) :=
  let written : Option (Except Failure (String × String)) :=
    match hypo with
    | some _ =>
      let traced : Except Failure String :=
        if 1 ≤ s.verboseLevel then
          (deref arena hypo).map (fun h => trace ++ ("BEST TRANSLATION: " ++ r.showHypo h ++ "\n"))
        else .ok trace
      match traced with
      | .error e => some (.error e)
      | .ok trace1 =>
        match Backtrack s arena fuel (VERBOSE s 3 trace1 "Best path: ") hypo with
        | none => none
        | some (.error e) => some (.error e)
        | some (.ok trace2) =>
          let trace3 := VERBOSE s 3 trace2 "0\n"
          match deref arena hypo with
          | .error e => some (.error e)
          | .ok h =>
            let out := if s.outputHypoScore then r.showScore true h.m_totalScore ++ " " else ""
            if io.m_surpressSingleBestOutput then some (.ok (out, trace3))
            else
              let out := if s.pathRecoveryEnabled then out ++ "||| " else out
              match removeFirstAndLast h.outputPhrase with
              | .error e => some (.error e)
              | .ok outPhrase =>
                match pr.GetStringRep outPhrase s.outputFactorOrder with
                | .error e => some (.error e)
                | .ok output => some (.ok (out ++ output ++ "\n", trace3))
    | none => some (.ok (emptyResultText s, VERBOSE s 1 trace "NO BEST TRANSLATION\n"))
  match written with
  | none => none
  | some (.error e) => some (.error e)
  | some (.ok (out, trace4)) =>
    match io.m_singleBestOutputCollector with
    | some collector =>
      some (.ok ({ io with
        m_singleBestOutputCollector := some (collector.Write translationId out) }, trace4))
    | none => some (.ok (io, trace4))

/-- A path of the n-best list as `OutputNBestList` reads it; `outputPhrase`
is what `GetOutputPhrase()` returns. -/
structure ChartTrellisPath where
  outputPhrase : Phrase
  m_scoreBreakdown : ScoreComponentCollection
  m_totalScore : Score
deriving DecidableEq, Repr

/-- A phrase dictionary or generation dictionary feature as the n-best
output reads it. -/
structure DictionaryFeature where
  producer : ScoreProducer
  numScoreComponents : Nat
  numInputScores : Nat
  GetScoreProducerWeightShortName : Nat → String

/-- The feature functions of a `TranslationSystem` in the order the n-best
output names them. -/
structure TranslationSystem where
  languageModels : List ScoreProducer
  phraseDictionaries : List DictionaryFeature
  wordPenaltyProducer : ScoreProducer
  generationDictionaries : List DictionaryFeature

/-- Modelled from the spec: `ScoreComponentCollection::GetScoreForProducer`
is implemented outside these sources; it is the single score of a producer,
zero when none was assigned. -/
def ScoreComponentCollection.GetScoreForProducer (b : ScoreComponentCollection)
    (producer : ScoreProducer) : Score :=
  ((b.GetScoresForProducer producer).bind List.head?).getD (.fin 0)

/-- The score vector of a dictionary feature, all zero when none was
assigned. -/
def ScoreComponentCollection.scoresOfFeature (b : ScoreComponentCollection)
    (feature : DictionaryFeature) : List Score :=
  (b.GetScoresForProducer feature.producer).getD
    (List.replicate feature.numScoreComponents (.fin 0))

/-- The text the loop `for (size_t j = 0; j<scores.size(); ++j)` writes for
the scores from index `j` on; `labeled` is `labeledOutput && (i == 0)`. -/
def scoreVectorText (r : Rendering) (fixed labeled : Bool) (feature : DictionaryFeature) :
    Nat → List Score → String
  | _, [] => ""
  | j, score :: rest =>
    (if labeled && (j == 0 || j == feature.numInputScores) then
      " " ++ feature.GetScoreProducerWeightShortName j ++ ":"
    else "") ++ (" " ++ r.showScore fixed score)
      ++ scoreVectorText r fixed labeled feature (j + 1) rest

/-- The text the loop `for( size_t i=0; i<pds.size(); i++ )` writes for the
features from index `i` on. -/
def dictionariesText (r : Rendering) (fixed labeledOutput : Bool)
    (b : ScoreComponentCollection) : Nat → List DictionaryFeature → String
  | _, [] => ""
  | i, feature :: rest =>
    scoreVectorText r fixed (labeledOutput && i == 0) feature 0 (b.scoresOfFeature feature)
      ++ dictionariesText r fixed labeledOutput b (i + 1) rest

/-- The text written after the surface of a path: the scores of the language
models, of the phrase dictionaries, the word penalty, the generation
dictionaries, the total score and the end of line. -/
def nBestScoresText (s : OutputSettings) (r : Rendering) (fixed : Bool)
    (system : TranslationSystem) (path : ChartTrellisPath) : String :=
  " |||"
    ++ (if system.languageModels.length > 0 then
        (if s.labeledNBestList then "lm:" else "")
          ++ concat (system.languageModels.map fun lm =>
            " " ++ r.showScore fixed (path.m_scoreBreakdown.GetScoreForProducer lm))
      else "")
    ++ dictionariesText r fixed s.labeledNBestList path.m_scoreBreakdown 0
        system.phraseDictionaries
    ++ (if s.labeledNBestList then " w:" else "")
    ++ (" " ++ r.showScore fixed
        (path.m_scoreBreakdown.GetScoreForProducer system.wordPenaltyProducer))
    ++ dictionariesText r fixed s.labeledNBestList path.m_scoreBreakdown 0
        system.generationDictionaries
    ++ (" |||" ++ r.showScore fixed path.m_totalScore)
    ++ "\n"

/-- One iteration of the loop over the n-best list: the stream after the
entry of `path` has been written. -/
def nBestEntry (io : IOWrapper) (s : OutputSettings) (r : Rendering)
    (system : TranslationSystem) (translationId : Int) (out : String)
    (path : ChartTrellisPath) : Except Failure String :=
  match removeFirstAndLast path.outputPhrase with
  | .error e => .error e
  | .ok outputPhrase =>
    match OutputSurface r (out ++ (toString translationId ++ " ||| ")) outputPhrase
        io.m_outputFactorOrder false with
    | .error e => .error e
    | .ok out1 => .ok (out1 ++ nBestScoresText s r io.m_surpressSingleBestOutput system path)

/-- The loop `for (iter = nBestList.begin() ; iter != nBestList.end() ; ++iter)`. -/
def nBestLoop (io : IOWrapper) (s : OutputSettings) (r : Rendering)
    (system : TranslationSystem) (translationId : Int) :
    String → List ChartTrellisPath → Except Failure String
  | out, [] => .ok out
  | out, path :: rest =>
    match nBestEntry io s r system translationId out path with
    | .error e => .error e
    | .ok out1 => nBestLoop io s r system translationId out1 rest

/-- The text written before the first entry: the score of the best
hypothesis when single-best output is suppressed and hypothesis-score output
is enabled. -/
def nBestHeader (io : IOWrapper) (s : OutputSettings) (r : Rendering)
    (arena : List ChartHypothesis) (bestHypo : HypoPtr) : Except Failure String :=
  if io.m_surpressSingleBestOutput then
    if s.outputHypoScore then
      match bestHypo with
      | some _ => (deref arena bestHypo).map (fun h => r.showScore true h.m_totalScore ++ " ")
      | none => .ok "0 "
    else .ok ""
  else .ok ""

/-- The function `IOWrapper::OutputNBestList(nBestList, bestHypo, system,
translationId)`. The pointer `system` and the path pointers of the list are
taken to be valid; `out << std::flush` changes nothing in the text. -/
def IOWrapper.OutputNBestList (io : IOWrapper) (s : OutputSettings) (r : Rendering)
    (arena : List ChartHypothesis) (nBestList : List ChartTrellisPath) (bestHypo : HypoPtr)
    (system : TranslationSystem) (translationId : Int) : Except Failure IOWrapper :=
  match nBestHeader io s r arena bestHypo with
  | .error e => .error e
  | .ok out =>
    match nBestLoop io s r system translationId out nBestList with
    | .error e => .error e
    | .ok out1 =>
      match io.m_nBestOutputCollector with
      | none => .error .checkFailed
      | some collector =>
        .ok { io with m_nBestOutputCollector := some (collector.Write translationId out1) }

/-- The entry of one path as a text of its own: the translation id, the
separator, the surface of the phrase without its first and last word, and
the scores. -/
def nBestEntryText (io : IOWrapper) (s : OutputSettings) (r : Rendering)
    (system : TranslationSystem) (translationId : Int) (path : ChartTrellisPath) :
    Except Failure String :=
  nBestEntry io s r system translationId "" path

/-- Modelled from the spec: `Phrase::GetStringRep` is implemented outside
these sources; it renders the words with their requested factors joined by
`|`, the words separated by one blank, and fails on a missing factor. The
empty phrase renders as the empty text. -/
def GetStringRep : Phrase → List Nat → Except Failure String
  | [], _ => .ok ""
  | word :: rest, factorsToPrint =>
    match factorsToPrint.mapM (fun t => (word.GetFactor t).elim
        (Except.error Failure.checkFailed) Except.ok) with
    | .error e => .error e
    | .ok factors =>
      match rest, GetStringRep rest factorsToPrint with
      | _, .error e => .error e
      | [], .ok _ => .ok ("|".intercalate factors)
      | _ :: _, .ok more => .ok ("|".intercalate factors ++ " " ++ more)

/-- The phrase rendering of the examples. -/
def examplePhraseRendering : PhraseRendering := { GetStringRep := GetStringRep }

/-- A word with one factor. -/
def surfaceWord (text : String) : Word := { isNonTerminal := false, factorArray := [some text] }

/-- A hypothesis whose output phrase holds the given words between the two
sentence-boundary words. -/
def sentenceHypothesis (words : List String) : ChartHypothesis :=
  { exampleLeaf 1 0 2 with
    outputPhrase := surfaceWord "<s>" :: (words.map surfaceWord ++ [surfaceWord "</s>"]) }

/-- A wrapper whose n-best list goes to a file: single-best output is not
suppressed and both collectors exist. -/
def fileNBestWrapper : IOWrapper := IOWrapper.new [0] 5 "nbest.txt" false 0

/-- A wrapper whose n-best list goes to the standard output: single-best
output is suppressed. -/
def stdoutNBestWrapper : IOWrapper := IOWrapper.new [0] 5 "-" false 0

/-- A translation system with one language model and one phrase dictionary. -/
def exampleSystem : TranslationSystem :=
  { languageModels := [.other 0]
    phraseDictionaries := [⟨.other 1, 2, 0, fun _ => "tm"⟩]
    wordPenaltyProducer := .wordPenalty
    generationDictionaries := [] }

/-- A path whose output phrase holds the given words between the two
sentence-boundary words. -/
def examplePath (words : List String) : ChartTrellisPath :=
  { outputPhrase := surfaceWord "<s>" :: (words.map surfaceWord ++ [surfaceWord "</s>"])
    m_scoreBreakdown := [], m_totalScore := .fin 0 }

/-! ### Closed forms of the output functions -/

/-- The last statement of `OutputBestHypo`: the text goes to the single-best
collector when that collector exists. -/
def IOWrapper.writeSingleBest (io : IOWrapper) (translationId : Int) (text : String) :
    IOWrapper :=
  match io.m_singleBestOutputCollector with
  | some collector =>
    { io with m_singleBestOutputCollector := some (collector.Write translationId text) }
  | none => io

/-- The text of the stream `out` at the end of `OutputBestHypo` for a
hypothesis, when single-best output is not suppressed and `output` is the
rendering of its output phrase without the first and the last word. -/
def scoredResultText (s : OutputSettings) (r : Rendering) (h : ChartHypothesis)
    (output : String) : String :=
  (if s.outputHypoScore then r.showScore true h.m_totalScore ++ " " else "")
    ++ ((if s.pathRecoveryEnabled then "||| " else "") ++ (output ++ "\n"))

/-- The words at the positions `1 .. n-2` of a phrase of `n` words, in
their order. -/
def innerWords (phrase : Phrase) : Phrase := (phrase.drop 1).take (phrase.length - 2)

/-- Every word of the phrase carries every factor of the factor order. -/
def hasOutputFactors (outputFactorOrder : List Nat) (phrase : Phrase) : Bool :=
  phrase.all fun word => outputFactorOrder.all fun t => (word.GetFactor t).isSome

/-- The entry of a path of at least 2 words whose inner words render as
`surface`: the translation id, the separator, the surface, the scores and
the end of line. -/
def nBestEntryOf (io : IOWrapper) (s : OutputSettings) (r : Rendering)
    (system : TranslationSystem) (translationId : Int) (path : ChartTrellisPath)
    (surface : String) : String :=
  toString translationId ++ " ||| "
    ++ (surface ++ nBestScoresText s r io.m_surpressSingleBestOutput system path)

/-- A hypothesis whose output phrase holds one word only. -/
def oneWordHypothesis : ChartHypothesis :=
  { exampleLeaf 1 0 2 with outputPhrase := [surfaceWord "a"] }

/-- A path whose output phrase holds one word only. -/
def oneWordPath : ChartTrellisPath :=
  { outputPhrase := [surfaceWord "a"], m_scoreBreakdown := [], m_totalScore := .fin 0 }

/-- Modelled from the spec: `RemoveAllInColl` of `Util.h` is outside these
sources; it deletes every pointer of the collection, in order. The first
argument is the list of the addresses released so far; deleting an address a
second time is undefined behaviour. -/
def RemoveAllInColl : List Nat → List Nat → Except Failure (List Nat)
  | released, [] => .ok released
  | released, address :: rest =>
    if address ∈ released then .error .undefinedBehaviour
    else RemoveAllInColl (released ++ [address]) rest

/-- The destructor `~ChartTranslationOptionCollection()`, as far as the
target phrase collections go: `RemoveAllInColl(m_cacheTargetPhraseCollection)`.
The result is the list of the addresses released. -/
def ChartTranslationOptionCollection.destructor (c : ChartTranslationOptionCollection) :
    Except Failure (List Nat) :=
  RemoveAllInColl [] c.m_cacheTargetPhraseCollection

/-- The number of target phrase collections `ProcessOneUnknownWord` creates
for a word: one in the drop branch, one per fallback label otherwise. -/
def createdCollections (d : Decoder) (sourceWord : Word) : Nat :=
  if takesDropBranch d sourceWord then 1 else d.staticData.m_unknownLHS.length

/-- The addresses `ProcessOneUnknownWord` appends to the cache for a word,
the first fresh heap address being `a`: in the drop branch the one created
collection once per label, otherwise each created collection once. -/
def registeredCollections (d : Decoder) (sourceWord : Word) (a : Nat) : List Nat :=
  if takesDropBranch d sourceWord then List.replicate d.staticData.m_unknownLHS.length a
  else List.range' a d.staticData.m_unknownLHS.length

/-! ## Resetting the scores of a target phrase -/

/-- Modelled from the spec: `ScoreComponentCollection::ZeroAll` is
implemented outside these sources. It sets every component of the breakdown
to zero: each producer keeps its entry and its number of components. -/
def ScoreComponentCollection.ZeroAll (b : ScoreComponentCollection) : ScoreComponentCollection :=
  b.map fun e => (e.1, e.2.map fun _ => Score.fin 0)

/-- The function `TargetPhrase::ResetScore`: `m_fullScore = m_ngramScore = 0;
m_scoreBreakdown.ZeroAll();`. -/
def TargetPhrase.ResetScore (tp : TargetPhrase) : TargetPhrase :=
  { tp with
    m_fullScore := .fin 0
    m_ngramScore := .fin 0
    m_scoreBreakdown := tp.m_scoreBreakdown.ZeroAll }

/-- A phrase of one word with translation score `-1`, scores in its
breakdown, a source phrase and one alignment pair. -/
def scoredPhrase : TargetPhrase :=
  { words := [exampleWord "abc"], m_transScore := .fin (-1), m_ngramScore := .fin (-2)
    m_fullScore := .fin (-3), m_scoreBreakdown := [(.other 0, [.fin (-1), .fin (-2)])]
    m_sourcePhrase := some [exampleWord "xyz"], m_targetLHS := none
    m_alignmentInfo := [(0, 0)], m_debugOutput := none }

/-! ## Rule lookups with the integrity check of the specification -/

/-- The option fits the range it was requested for: it covers exactly that
range and the sub-spans of the symbols of its dotted rule partition it. -/
def ChartTranslationOption.fitsRange (o : ChartTranslationOption) (range : WordsRange) : Prop :=
  o.m_wordsRange = range ∧ o.m_dottedRule.partitions range

instance (o : ChartTranslationOption) (range : WordsRange) : Decidable (o.fitsRange range) :=
  inferInstanceAs (Decidable (_ ∧ _))

/-- Modelled from the spec: the call
`ruleLookupManager.GetChartRuleCollection(wordsRange, adhereTableLimit, outColl)`
with the integrity check of the error clause of the specification, "a
returned option whose slot sub-spans do not exactly partition the requested
span is a fatal integrity failure". The manager and
`ChartTranslationOptionList::Add` are implemented outside these sources, and
no statement of `ChartTranslationOptionCollection.cpp` reads the range or the
dotted rule of a returned option, so the check is placed in the call. When
every option the manager returns fits the requested range, the call is
`GetChartRuleCollection`; otherwise it is fatal. -/
def Checked.GetChartRuleCollection (m : ChartRuleLookupManager) (i : Nat)
    (wordsRange : WordsRange) (adhereTableLimit : Bool) (startPos endPos : Nat)
    (c : ChartTranslationOptionCollection) : Except Failure ChartTranslationOptionCollection :=
  if ∀ o ∈ m.lookup wordsRange adhereTableLimit, o.fitsRange wordsRange then
    Moses.GetChartRuleCollection m i wordsRange adhereTableLimit startPos endPos c
  else .error .checkFailed

/-- The loop of `CreateTranslationOptionsForRange` over the decode graphs and,
in step, the lookup managers, the lookup call being the checked one. -/
def Checked.strictLookupLoop (wordsRange : WordsRange) (startPos endPos : Nat) :
    List DecodeGraph → List ChartRuleLookupManager → Nat → ChartTranslationOptionCollection →
    Except Failure ChartTranslationOptionCollection
  | [], _, _, c => .ok c
  | decodeGraph :: graphs, managers, i, c =>
    if decodeGraph.GetSize ≠ 1 then .error .checkFailed
    else
      match managers with
      | [] => .error .undefinedBehaviour
      | ruleLookupManager :: managers =>
        let maxSpan := decodeGraph.GetMaxChartSpan
        if maxSpan = 0 ∨ sizeAdd (sizeSub endPos startPos) 1 ≤ maxSpan then do
          let c ← Checked.GetChartRuleCollection ruleLookupManager i wordsRange true
            startPos endPos c
          Checked.strictLookupLoop wordsRange startPos endPos graphs managers (i + 1) c
        else
          Checked.strictLookupLoop wordsRange startPos endPos graphs managers (i + 1) c

/-- The first part of `CreateTranslationOptionsForRange`, up to the call of
`ProcessUnknownWord`, the lookup call being the checked one. -/
def Checked.strictLookups (d : Decoder) (c : ChartTranslationOptionCollection)
    (startPos endPos : Nat) : Except Failure ChartTranslationOptionCollection := do
  let chartRuleColl ← c.GetTranslationOptionList startPos endPos
  let wordsRange := chartRuleColl.GetSourceRange
  if d.m_decodeGraphList.length ≠ d.m_ruleLookupManagers.length then .error .checkFailed
  else
    Checked.strictLookupLoop wordsRange startPos endPos d.m_decodeGraphList
      d.m_ruleLookupManagers 0 c

/-- The loop of `ProcessUnknownWord(startPos, endPos)` over the decode graphs
and, in step, the lookup managers, the lookup call being the checked one. -/
def Checked.relaxedLookupLoop (wordsRange : WordsRange) (startPos : Nat) :
    List DecodeGraph → List ChartRuleLookupManager → Nat → ChartTranslationOptionCollection →
    Except Failure ChartTranslationOptionCollection
  | [], [], _, c => .ok c
  | [], _ :: _, _, _ => .error .checkFailed
  | _ :: _, [], _, _ => .error .undefinedBehaviour
  | _ :: graphs, ruleLookupManager :: managers, i, c => do
    let fullList ← c.GetTranslationOptionList startPos startPos
    let numTransOpt := fullList.GetSize
    if numTransOpt = 0 then
      let c ← Checked.GetChartRuleCollection ruleLookupManager i wordsRange false
        startPos startPos c
      Checked.relaxedLookupLoop wordsRange startPos graphs managers (i + 1) c
    else
      Checked.relaxedLookupLoop wordsRange startPos graphs managers (i + 1) c

/-- The function `ProcessUnknownWord(startPos, endPos)`, the lookup call
being the checked one. -/
def Checked.ProcessUnknownWord (d : Decoder) (c : ChartTranslationOptionCollection)
    (startPos endPos : Nat) : Except Failure ChartTranslationOptionCollection :=
  if startPos ≠ endPos then .ok c
  else if startPos = 0 ∨ startPos = sizeSub d.m_source.length 1 then .ok c
  else do
    let fullList ← c.GetTranslationOptionList startPos startPos
    let wordsRange := fullList.GetSourceRange
    let c ← Checked.relaxedLookupLoop wordsRange startPos d.m_decodeGraphList
      d.m_ruleLookupManagers 0 c
    let fullList ← c.GetTranslationOptionList startPos startPos
    if fullList.GetSize = 0 ∨ d.staticData.m_isAlwaysCreateDirectTranslationOption = true then
      ProcessUnknownWordAt d c startPos
    else .ok c

/-- The function `CreateTranslationOptionsForRange(startPos, endPos)`, the
lookup call being the checked one. -/
def Checked.CreateTranslationOptionsForRange (d : Decoder)
    (c : ChartTranslationOptionCollection) (startPos endPos : Nat) :
    Except Failure ChartTranslationOptionCollection := do
  let c ← Checked.strictLookups d c startPos endPos
  let c ← Checked.ProcessUnknownWord d c startPos endPos
  let c := Prune d c startPos endPos
  SortRange c startPos endPos

/-! # Properties -/

/-! ## Arithmetic and list access -/

theorem sizeSub_of_le {a b : Nat} (hab : b ≤ a) (ha : a < 2 ^ 64) : sizeSub a b = a - b := by
  unfold sizeSub SIZE_MODULUS
  have hb : b < 2 ^ 64 := lt_of_le_of_lt hab ha
  rw [Nat.mod_eq_of_lt ha, Nat.mod_eq_of_lt hb]
  have : a + 2 ^ 64 - b = (a - b) + 2 ^ 64 := by omega
  rw [this, Nat.add_mod_right, Nat.mod_eq_of_lt]
  omega

theorem sizeSub_of_lt {a b : Nat} (hab : a < b) (hb : b < 2 ^ 64) :
    sizeSub a b = a + 2 ^ 64 - b := by
  unfold sizeSub SIZE_MODULUS
  have ha : a < 2 ^ 64 := lt_trans hab hb
  rw [Nat.mod_eq_of_lt ha, Nat.mod_eq_of_lt hb, Nat.mod_eq_of_lt]
  omega

theorem wellFormed_length {c : ChartTranslationOptionCollection} {n : Nat} (h : c.WellFormed n) :
    c.m_collection.length = n := by
  have := congrArg List.length h
  simpa using this

theorem wellFormed_row {c : ChartTranslationOptionCollection} {n s : Nat} (h : c.WellFormed n)
    (hs : s < n) : ∃ row, c.m_collection[s]? = some row ∧
      row.map (fun l => l.m_range) = (List.range (n - s)).map fun k => (⟨s, s + k⟩ : WordsRange) := by
  have h1 := congrArg (fun l => l[s]?) h
  simp only [List.getElem?_map] at h1
  have hlen := wellFormed_length h
  have : s < c.m_collection.length := by omega
  rw [List.getElem?_eq_getElem this] at h1
  rw [List.getElem?_eq_getElem (by simpa using hs)] at h1
  simp at h1
  exact ⟨_, List.getElem?_eq_getElem this, h1⟩

theorem wellFormed_cell {c : ChartTranslationOptionCollection} {n s e : Nat} (h : c.WellFormed n)
    (hse : s ≤ e) (hen : e < n) : ∃ row l, c.m_collection[s]? = some row ∧ row.length = n - s ∧
      row[e - s]? = some l ∧ l.m_range = ⟨s, e⟩ := by
  obtain ⟨row, hrow, hmap⟩ := wellFormed_row h (lt_of_le_of_lt hse hen)
  have hlen : row.length = n - s := by
    have := congrArg List.length hmap
    simpa using this
  have hk : e - s < row.length := by omega
  refine ⟨row, row[e - s], hrow, hlen, List.getElem?_eq_getElem hk, ?_⟩
  have h2 := congrArg (fun l => l[e - s]?) hmap
  simp only [List.getElem?_map, List.getElem?_eq_getElem hk] at h2
  rw [List.getElem?_eq_getElem (by simp; omega)] at h2
  simp at h2
  rw [h2]
  congr 1
  omega

theorem getList_of_wellFormed {c : ChartTranslationOptionCollection} {n s e : Nat}
    (h : c.WellFormed n) (hn : n < 2 ^ 64) (hse : s ≤ e) (hen : e < n) :
    ∃ l, c.GetTranslationOptionList s e = .ok l ∧ l.m_range = ⟨s, e⟩ := by
  obtain ⟨row, l, hrow, hlen, hl, hr⟩ := wellFormed_cell h hse hen
  refine ⟨l, ?_, hr⟩
  unfold ChartTranslationOptionCollection.GetTranslationOptionList
  simp only [List.get?_eq_getElem?, hrow, sizeSub_of_le hse (lt_trans hen hn), hl]
  rw [if_pos (by omega)]

theorem list_set_eq_modify {α : Type} (f : α → α) :
    ∀ (l : List α) (i : Nat) (a : α), l[i]? = some a → l.set i (f a) = l.modify f i
  | [], i, a, h => by simp at h
  | x :: xs, 0, a, h => by
    simp at h
    simp [h]
  | x :: xs, i + 1, a, h => by
    simp at h
    simp [list_set_eq_modify f xs i a h]

theorem getList_eq_ok {c : ChartTranslationOptionCollection} {s e : Nat}
    {l : ChartTranslationOptionList} (h : c.GetTranslationOptionList s e = .ok l) :
    ∃ row, c.m_collection[s]? = some row ∧ row[sizeSub e s]? = some l := by
  unfold ChartTranslationOptionCollection.GetTranslationOptionList at h
  simp only [List.get?_eq_getElem?] at h
  cases hrow : c.m_collection[s]? with
  | none => simp [hrow] at h
  | some row =>
    simp only [hrow] at h
    split at h
    · cases hl : row[sizeSub e s]? with
      | none => simp [hl] at h
      | some l2 =>
        simp only [hl] at h
        injection h with h
        subst h
        exact ⟨row, rfl, hl⟩
    · cases h

theorem getList_of_cell {c : ChartTranslationOptionCollection} {s e : Nat}
    (row : List ChartTranslationOptionList) {l : ChartTranslationOptionList}
    (hrow : c.m_collection[s]? = some row) (hl : row[sizeSub e s]? = some l) :
    c.GetTranslationOptionList s e = .ok l := by
  unfold ChartTranslationOptionCollection.GetTranslationOptionList
  simp only [List.get?_eq_getElem?, hrow, hl]
  have : sizeSub e s < row.length := by
    by_contra hcon
    rw [List.getElem?_eq_none (by omega)] at hl
    cases hl
  rw [if_pos this]

theorem setList_append {c : ChartTranslationOptionCollection} {s e : Nat}
    {l : ChartTranslationOptionList} (h : c.GetTranslationOptionList s e = .ok l)
    (xs : List ChartTranslationOption) :
    c.setList s e (l.append xs) = c.addOptions s e xs := by
  obtain ⟨row, hrow, hl⟩ := getList_eq_ok h
  unfold ChartTranslationOptionCollection.setList ChartTranslationOptionCollection.addOptions
  congr 1
  apply List.ext_getElem?
  intro i
  by_cases hi : i = s
  · subst hi
    simp only [List.getElem?_modify_eq, hrow]
    show some _ = some _
    congr 1
    exact list_set_eq_modify (fun l => l.append xs) row _ l hl
  · rw [List.getElem?_modify_ne _ _ (Ne.symm hi), List.getElem?_modify_ne _ _ (Ne.symm hi)]

theorem getList_addOptions {c : ChartTranslationOptionCollection} {s e : Nat}
    {l : ChartTranslationOptionList} (h : c.GetTranslationOptionList s e = .ok l)
    (xs : List ChartTranslationOption) :
    (c.addOptions s e xs).GetTranslationOptionList s e = .ok (l.append xs) := by
  obtain ⟨row, hrow, hl⟩ := getList_eq_ok h
  apply getList_of_cell (row.modify (fun l => l.append xs) (sizeSub e s))
  · simp [ChartTranslationOptionCollection.addOptions, hrow]
  · simp [hl]

theorem addOptions_addOptions (c : ChartTranslationOptionCollection) (s e : Nat)
    (xs ys : List ChartTranslationOption) :
    (c.addOptions s e xs).addOptions s e ys = c.addOptions s e (xs ++ ys) := by
  unfold ChartTranslationOptionCollection.addOptions
  simp only [List.modify_modify_eq]
  congr 2
  funext row
  simp only [Function.comp, List.modify_modify_eq]
  congr 1
  funext l
  simp [ChartTranslationOptionList.append, List.append_assoc]

theorem addOptions_nil (c : ChartTranslationOptionCollection) (s e : Nat) :
    c.addOptions s e [] = c := by
  unfold ChartTranslationOptionCollection.addOptions
  have h1 : (fun l : ChartTranslationOptionList => l.append []) = id := by
    funext l
    simp [ChartTranslationOptionList.append]
  have h2 : List.modify (fun l : ChartTranslationOptionList => l.append []) (sizeSub e s) = id := by
    funext row
    rw [h1]
    simp
  rw [h2]
  simp

theorem optionsAt_of_getList {c : ChartTranslationOptionCollection} {s e : Nat}
    {l : ChartTranslationOptionList} (h : c.GetTranslationOptionList s e = .ok l) :
    c.optionsAt s e = l.m_collection := by
  simp [ChartTranslationOptionCollection.optionsAt, h]

theorem foldl_Add (xs : List ChartTranslationOption) :
    ∀ l : ChartTranslationOptionList, xs.foldl ChartTranslationOptionList.Add l = l.append xs := by
  induction xs with
  | nil => intro l; simp [ChartTranslationOptionList.append]
  | cons x xs ih =>
    intro l
    simp [ih, ChartTranslationOptionList.append, ChartTranslationOptionList.Add]

theorem GetChartRuleCollection_eq {c : ChartTranslationOptionCollection} {s e : Nat}
    {l : ChartTranslationOptionList} (h : c.GetTranslationOptionList s e = .ok l)
    (m : ChartRuleLookupManager) (i : Nat) (r : WordsRange) (adhere : Bool) :
    GetChartRuleCollection m i r adhere s e c =
      .ok { c.addOptions s e (m.lookup r adhere) with
            lookupLog := c.lookupLog ++ [⟨i, r, adhere⟩] } := by
  unfold GetChartRuleCollection
  simp only [h, foldl_Add, setList_append h, bind, Except.bind, pure, Except.pure]
  rfl

theorem getList_congr (c1 c2 : ChartTranslationOptionCollection)
    (h : c1.m_collection = c2.m_collection) (s e : Nat) :
    c1.GetTranslationOptionList s e = c2.GetTranslationOptionList s e := by
  unfold ChartTranslationOptionCollection.GetTranslationOptionList
  rw [h]

theorem sizeAdd_sizeSub_one {s e : Nat} (hse : s ≤ e) (he : e + 1 < 2 ^ 64) :
    sizeAdd (sizeSub e s) 1 = e - s + 1 := by
  rw [sizeSub_of_le hse (by omega)]
  unfold sizeAdd SIZE_MODULUS
  apply Nat.mod_eq_of_lt
  omega

theorem strictLookupLoop_eq (r : WordsRange) {s e : Nat} (hse : s ≤ e) (he : e + 1 < 2 ^ 64) :
    ∀ (graphs : List DecodeGraph) (managers : List ChartRuleLookupManager) (i : Nat)
      (c : ChartTranslationOptionCollection) (l : ChartTranslationOptionList),
      c.GetTranslationOptionList s e = .ok l →
      graphs.length = managers.length →
      (∀ g ∈ graphs, g.GetSize = 1) →
      strictLookupLoop r s e graphs managers i c =
        .ok { c.addOptions s e (strictOptions r s e graphs managers) with
              lookupLog := c.lookupLog ++ strictCalls r s e graphs managers i }
  | [], managers, i, c, l, _, _, _ => by
    cases managers <;> simp [strictLookupLoop, strictOptions, strictCalls, addOptions_nil]
  | g :: gs, [], i, c, l, _, hlen, _ => by simp at hlen
  | g :: gs, m :: ms, i, c, l, hget, hlen, hsize => by
    have hg : g.GetSize = 1 := hsize g (by simp)
    have hrest : ∀ g2 ∈ gs, g2.GetSize = 1 := fun g2 h2 => hsize g2 (by simp [h2])
    have hlen2 : gs.length = ms.length := by simpa using hlen
    unfold strictLookupLoop
    simp only [hg, ne_eq, not_true_eq_false, if_false, sizeAdd_sizeSub_one hse he]
    by_cases hp : g.permits s e
    · have hp2 : g.GetMaxChartSpan = 0 ∨ e - s + 1 ≤ g.GetMaxChartSpan := hp
      rw [if_pos hp2, GetChartRuleCollection_eq hget]
      simp only [bind, Except.bind]
      have hget2 : ({ c.addOptions s e (m.lookup r true) with
            lookupLog := c.lookupLog ++ [⟨i, r, true⟩] } :
            ChartTranslationOptionCollection).GetTranslationOptionList s e =
            .ok (l.append (m.lookup r true)) := by
        exact (getList_congr _ (c.addOptions s e (m.lookup r true)) rfl s e).trans
          (getList_addOptions hget _)
      rw [strictLookupLoop_eq r hse he gs ms (i + 1) _ _ hget2 hlen2 hrest]
      simp only [strictOptions, strictCalls, if_pos hp]
      congr 1
      have := addOptions_addOptions c s e (m.lookup r true) (strictOptions r s e gs ms)
      simp only [ChartTranslationOptionCollection.addOptions] at this ⊢
      simp only [ChartTranslationOptionCollection.mk.injEq] at this
      simp [this.1]
    · have hp2 : ¬ (g.GetMaxChartSpan = 0 ∨ e - s + 1 ≤ g.GetMaxChartSpan) := hp
      rw [if_neg hp2]
      rw [strictLookupLoop_eq r hse he gs ms (i + 1) c l hget hlen2 hrest]
      simp [strictOptions, strictCalls, if_neg hp]

theorem relaxedLookupLoop_eq (r : WordsRange) (p : Nat) :
    ∀ (graphs : List DecodeGraph) (managers : List ChartRuleLookupManager) (i : Nat)
      (c : ChartTranslationOptionCollection) (l : ChartTranslationOptionList),
      c.GetTranslationOptionList p p = .ok l →
      graphs.length = managers.length →
      relaxedLookupLoop r p graphs managers i c =
        .ok (if l.m_collection = [] then
              { c.addOptions p p (relaxedOptions r managers) with
                lookupLog := c.lookupLog ++ relaxedCalls r managers i }
            else c)
  | [], [], i, c, l, _, _ => by
    simp [relaxedLookupLoop, relaxedOptions, relaxedCalls, addOptions_nil]
  | [], _ :: _, i, c, l, _, hlen => by simp at hlen
  | _ :: _, [], i, c, l, _, hlen => by simp at hlen
  | g :: gs, m :: ms, i, c, l, hget, hlen => by
    have hlen2 : gs.length = ms.length := by simpa using hlen
    unfold relaxedLookupLoop
    simp only [hget, bind, Except.bind, ChartTranslationOptionList.GetSize, List.length_eq_zero]
    by_cases hl : l.m_collection = []
    · rw [if_pos hl, if_pos hl, GetChartRuleCollection_eq hget]
      simp only
      have hget2 : ({ c.addOptions p p (m.lookup r false) with
            lookupLog := c.lookupLog ++ [⟨i, r, false⟩] } :
            ChartTranslationOptionCollection).GetTranslationOptionList p p =
            .ok (l.append (m.lookup r false)) :=
        (getList_congr _ (c.addOptions p p (m.lookup r false)) rfl p p).trans
          (getList_addOptions hget _)
      rw [relaxedLookupLoop_eq r p gs ms (i + 1) _ _ hget2 hlen2]
      simp only [ChartTranslationOptionList.append, hl, List.nil_append, relaxedOptions,
        relaxedCalls]
      by_cases hx : m.lookup r false = []
      · simp only [hx, if_true]
        congr 1
        have := addOptions_addOptions c p p [] (relaxedOptions r ms)
        simp only [ChartTranslationOptionCollection.addOptions] at this ⊢
        simp only [ChartTranslationOptionCollection.mk.injEq] at this
        simp [this.1]
      · simp [hx]
    · rw [if_neg hl, if_neg hl]
      rw [relaxedLookupLoop_eq r p gs ms (i + 1) c l hget hlen2, if_neg hl]

theorem getD_append_length {α : Type} (xs : List α) (y d : α) :
    (xs ++ [y]).getD xs.length d = y := by
  simp [List.getD_eq_getElem?_getD]

theorem passThroughLoop_eq (d : Decoder) (w : Word) (p : Nat) (m_unksrc : Phrase)
    (rule : DottedRule) (range : WordsRange) :
    ∀ (labels : List (String × Score)) (c : ChartTranslationOptionCollection)
      (l : ChartTranslationOptionList),
      c.GetTranslationOptionList p p = .ok l →
      labelsHaveFactor d labels →
      passThroughLoop d w p m_unksrc rule range labels c =
        .ok { c.addOptions p p (passThroughOptions d w m_unksrc rule range c.heap.length labels) with
              heap := c.heap ++ labels.map fun entry => [passThroughPhrase d w m_unksrc entry]
              m_cacheTargetPhraseCollection :=
                c.m_cacheTargetPhraseCollection ++ List.range' c.heap.length labels.length }
  | [], c, l, _, _ => by
    simp [passThroughLoop, passThroughOptions, addOptions_nil]
  | entry :: rest, c, l, hget, hlab => by
    have h1 : (d.helpers.CreateFromString entry.1 true).GetFactor 0 ≠ none :=
      hlab entry (by simp)
    have hrest : labelsHaveFactor d rest := fun en hen => hlab en (by simp [hen])
    unfold passThroughLoop
    simp only [h1, if_false, bind, Except.bind]
    have hget1 : ({ c with
          heap := c.heap ++ [[passThroughPhrase d w m_unksrc entry]]
          m_cacheTargetPhraseCollection := c.m_cacheTargetPhraseCollection ++ [c.heap.length] } :
          ChartTranslationOptionCollection).GetTranslationOptionList p p = .ok l :=
      (getList_congr _ c rfl p p).trans hget
    have hadd : ∀ x, l.Add x = l.append [x] := fun x => rfl
    simp only [hget1, hadd, setList_append hget1]
    have hget2 := getList_addOptions hget1 [ChartTranslationOption.new d.helpers
      (c.heap ++ [[passThroughPhrase d w m_unksrc entry]]) c.heap.length rule range]
    rw [passThroughLoop_eq d w p m_unksrc rule range rest _ _ hget2 hrest]
    congr 1
    have hcomp := addOptions_addOptions c p p [ChartTranslationOption.new d.helpers
      (c.heap ++ [[passThroughPhrase d w m_unksrc entry]]) c.heap.length rule range]
      (passThroughOptions d w m_unksrc rule range (c.heap.length + 1) rest)
    simp only [ChartTranslationOptionCollection.addOptions,
      ChartTranslationOptionCollection.mk.injEq] at hcomp
    simp only [ChartTranslationOptionCollection.addOptions,
      ChartTranslationOptionCollection.mk.injEq, List.length_append, List.length_singleton,
      passThroughOptions, ChartTranslationOption.new, getD_append_length, hcomp.1,
      List.map_cons, List.append_assoc, List.singleton_append, List.length_cons, List.range'_succ,
      List.cons_append, List.nil_append, true_and, and_true]
    refine ⟨?_, by simp⟩
    have h3 := hcomp.1
    simp only [ChartTranslationOption.new, getD_append_length, List.singleton_append] at h3
    simpa using h3

theorem list_set_self {α : Type} (l : List α) (i : Nat) (a : α) (h : l[i]? = some a) :
    l.set i a = l := by
  have := list_set_eq_modify id l i a h
  simpa using this

theorem getD_set_self {α : Type} (l : List α) (i : Nat) (a b d : α) (h : l[i]? = some b) :
    (l.set i a).getD i d = a := by
  have hi : i < l.length := by
    by_contra hcon
    rw [List.getElem?_eq_none (by omega)] at h
    cases h
  simp [List.getD_eq_getElem?_getD, List.getElem?_set_self, hi]

theorem heap_get_after_set {α : Type} (l : List α) (i : Nat) (a b : α) (h : l[i]? = some b) :
    (l.set i a)[i]? = some a := by
  have hi : i < l.length := by
    by_contra hcon
    rw [List.getElem?_eq_none (by omega)] at h
    cases h
  simp [List.getElem?_set_self, hi]

theorem dropLoop_eq (d : Decoder) (p : Nat) (m_unksrc : Phrase) (lbl : ChartCellLabel)
    (range : WordsRange) (us : List Score) (a : Nat) :
    ∀ (labels : List (String × Score)) (tp : TargetPhrase)
      (c : ChartTranslationOptionCollection) (l : ChartTranslationOptionList),
      c.GetTranslationOptionList p p = .ok l →
      c.heap[a]? = some [tp] →
      labelsHaveFactor d labels →
      dropLoop d p m_unksrc lbl range us a labels tp c =
        .ok { c.addOptions p p
                (dropOptions d m_unksrc us (unknownWordDottedRule lbl) range a labels tp) with
              m_cacheTargetPhraseCollection :=
                c.m_cacheTargetPhraseCollection ++ List.replicate labels.length a
              heap := c.heap.set a [labels.foldl (dropPhrase d m_unksrc us) tp]
              m_dottedRuleCache := c.m_dottedRuleCache ++
                List.replicate labels.length [DottedRule.root, unknownWordDottedRule lbl] }
  | [], tp, c, l, _, hheap, _ => by
    simp [dropLoop, dropOptions, addOptions_nil, list_set_self _ _ _ hheap]
  | entry :: rest, tp, c, l, hget, hheap, hlab => by
    have h1 : (d.helpers.CreateFromString entry.1 true).GetFactor 0 ≠ none :=
      hlab entry (by simp)
    have hrest : labelsHaveFactor d rest := fun en hen => hlab en (by simp [hen])
    unfold dropLoop
    simp only [h1, if_false, bind, Except.bind]
    have hget1 : ({ c with
          m_cacheTargetPhraseCollection := c.m_cacheTargetPhraseCollection ++ [a]
          heap := c.heap.set a [dropPhrase d m_unksrc us tp entry]
          m_dottedRuleCache := c.m_dottedRuleCache ++
            [[DottedRule.root, unknownWordDottedRule lbl]] } :
          ChartTranslationOptionCollection).GetTranslationOptionList p p = .ok l :=
      (getList_congr _ c rfl p p).trans hget
    have hadd : ∀ x, l.Add x = l.append [x] := fun x => rfl
    simp only [hget1, hadd, setList_append hget1]
    have hget2 := getList_addOptions hget1 [ChartTranslationOption.new d.helpers
      (c.heap.set a [dropPhrase d m_unksrc us tp entry]) a (unknownWordDottedRule lbl) range]
    have hheap2 : (c.heap.set a [dropPhrase d m_unksrc us tp entry])[a]? =
        some [dropPhrase d m_unksrc us tp entry] := heap_get_after_set _ _ _ _ hheap
    rw [dropLoop_eq d p m_unksrc lbl range us a rest _ _ _ hget2 hheap2 hrest]
    congr 1
    have hcomp := addOptions_addOptions c p p [ChartTranslationOption.new d.helpers
      (c.heap.set a [dropPhrase d m_unksrc us tp entry]) a (unknownWordDottedRule lbl) range]
      (dropOptions d m_unksrc us (unknownWordDottedRule lbl) range a rest
        (dropPhrase d m_unksrc us tp entry))
    simp only [ChartTranslationOptionCollection.addOptions,
      ChartTranslationOptionCollection.mk.injEq] at hcomp
    have h3 := hcomp.1
    simp only [ChartTranslationOption.new, getD_set_self _ _ _ _ _ hheap,
      List.singleton_append] at h3
    simp only [ChartTranslationOptionCollection.addOptions,
      ChartTranslationOptionCollection.mk.injEq, dropOptions, ChartTranslationOption.new,
      getD_set_self _ _ _ _ _ hheap, List.set_set, List.foldl_cons, List.length_cons,
      List.replicate_succ, List.append_assoc, List.singleton_append, true_and, and_true]
    exact h3

theorem set_append_length {α : Type} (xs : List α) (y z : α) :
    (xs ++ [y]).set xs.length z = xs ++ [z] := by
  induction xs with
  | nil => rfl
  | cons x xs ih => simp [ih]

theorem heap_get_append_length {α : Type} (xs : List α) (y : α) :
    (xs ++ [y])[xs.length]? = some y := by
  simp

theorem ProcessOneUnknownWord_passThrough (d : Decoder) (c : ChartTranslationOptionCollection)
    (w : Word) (p : Nat) (l : ChartTranslationOptionList)
    (hget : c.GetTranslationOptionList p p = .ok l)
    (hbranch : d.staticData.m_dropUnknown = false ∨
      ∃ s, w.GetFactor 0 = some s ∧ containsDigit s = true)
    (hlab : labelsHaveFactor d d.staticData.m_unknownLHS) :
    ProcessOneUnknownWord d c w p =
      .ok { c.addOptions p p (passThroughOptions d w [w]
              (unknownWordDottedRule (d.m_hypoStackColl l.m_range)) l.m_range c.heap.length
              d.staticData.m_unknownLHS) with
            m_unksrcs := c.m_unksrcs ++ [[w]]
            m_dottedRuleCache := c.m_dottedRuleCache ++
              [[DottedRule.root, unknownWordDottedRule (d.m_hypoStackColl l.m_range)]]
            heap := c.heap ++ d.staticData.m_unknownLHS.map fun entry =>
              [passThroughPhrase d w [w] entry]
            m_cacheTargetPhraseCollection := c.m_cacheTargetPhraseCollection ++
              List.range' c.heap.length d.staticData.m_unknownLHS.length } := by
  have hget1 : ({ c with
        m_unksrcs := c.m_unksrcs ++ [[w]]
        m_dottedRuleCache := c.m_dottedRuleCache ++
          [[DottedRule.root, unknownWordDottedRule (d.m_hypoStackColl l.m_range)]] } :
        ChartTranslationOptionCollection).GetTranslationOptionList p p = .ok l :=
    (getList_congr _ c rfl p p).trans hget
  have hloop := passThroughLoop_eq d w p [w]
    (unknownWordDottedRule (d.m_hypoStackColl l.m_range)) l.m_range
    d.staticData.m_unknownLHS _ _ hget1 hlab
  unfold ProcessOneUnknownWord
  simp only [hget, bind, Except.bind, ChartTranslationOptionList.GetSourceRange]
  rcases hbranch with hb | ⟨s, hs, hdig⟩
  · simp only [hb, Bool.false_eq_true, if_false, pure, Except.pure, Bool.not_false,
      Bool.true_or, if_true]
    rw [hloop]
    rfl
  · cases hdrop : d.staticData.m_dropUnknown
    · simp only [Bool.false_eq_true, if_false, pure, Except.pure, Bool.not_false,
        Bool.true_or, if_true]
      rw [hloop]
      rfl
    · simp only [if_true, hs, pure, Except.pure, hdig, Bool.not_true, Bool.or_true]
      rw [hloop]
      rfl

theorem ProcessOneUnknownWord_drop (d : Decoder) (c : ChartTranslationOptionCollection)
    (w : Word) (p : Nat) (l : ChartTranslationOptionList) (s : String)
    (hget : c.GetTranslationOptionList p p = .ok l)
    (hdrop : d.staticData.m_dropUnknown = true)
    (hs : w.GetFactor 0 = some s) (hdig : containsDigit s = false)
    (hlab : labelsHaveFactor d d.staticData.m_unknownLHS) :
    ProcessOneUnknownWord d c w p =
      .ok { c.addOptions p p (dropOptions d [w] [d.helpers.FloorScore .negInf]
              (unknownWordDottedRule (d.m_hypoStackColl l.m_range)) l.m_range c.heap.length
              d.staticData.m_unknownLHS TargetPhrase.new) with
            m_unksrcs := c.m_unksrcs ++ [[w]]
            m_cacheTargetPhraseCollection := c.m_cacheTargetPhraseCollection ++
              List.replicate d.staticData.m_unknownLHS.length c.heap.length
            heap := c.heap ++ [[d.staticData.m_unknownLHS.foldl
              (dropPhrase d [w] [d.helpers.FloorScore .negInf]) TargetPhrase.new]]
            m_dottedRuleCache := c.m_dottedRuleCache ++
              List.replicate d.staticData.m_unknownLHS.length
                [DottedRule.root, unknownWordDottedRule (d.m_hypoStackColl l.m_range)] } := by
  have hget1 : ({ c with
        m_unksrcs := c.m_unksrcs ++ [[w]]
        heap := c.heap ++ [[TargetPhrase.new]] } :
        ChartTranslationOptionCollection).GetTranslationOptionList p p = .ok l :=
    (getList_congr _ c rfl p p).trans hget
  have hloop := dropLoop_eq d p [w] (d.m_hypoStackColl l.m_range) l.m_range
    [d.helpers.FloorScore .negInf] c.heap.length d.staticData.m_unknownLHS TargetPhrase.new
    _ _ hget1 (heap_get_append_length c.heap [TargetPhrase.new]) hlab
  unfold ProcessOneUnknownWord
  simp only [hget, bind, Except.bind, ChartTranslationOptionList.GetSourceRange, hdrop, if_true,
    hs, pure, Except.pure, hdig, Bool.not_true, Bool.or_false, Bool.false_eq_true, if_false]
  rw [hloop]
  simp only [set_append_length]
  rfl

theorem optionsAt_addOptions {c : ChartTranslationOptionCollection} {s e : Nat}
    {l : ChartTranslationOptionList} (h : c.GetTranslationOptionList s e = .ok l)
    (xs : List ChartTranslationOption) :
    (c.addOptions s e xs).optionsAt s e = c.optionsAt s e ++ xs := by
  rw [optionsAt_of_getList (getList_addOptions h xs), optionsAt_of_getList h]
  rfl

theorem ProcessUnknownWord_other (d : Decoder) (c : ChartTranslationOptionCollection)
    (s e : Nat) (hn : d.m_source.length < 2 ^ 64) (hpos : 0 < d.m_source.length)
    (h : ¬ interiorSingleton d s e) :
    ProcessUnknownWord d c s e = .ok c := by
  unfold ProcessUnknownWord
  by_cases hse : s = e
  · have h1 : sizeSub d.m_source.length 1 = d.m_source.length - 1 := sizeSub_of_le hpos hn
    have h2 : s = 0 ∨ s = sizeSub d.m_source.length 1 := by
      rw [h1]
      unfold interiorSingleton at h
      by_contra hcon
      push_neg at hcon
      exact h ⟨hse, hcon.1, hcon.2⟩
    simp [hse ▸ h2, hse]
  · simp [hse]

theorem withRelaxedLookups_getList (d : Decoder) {c : ChartTranslationOptionCollection} {p : Nat}
    {l : ChartTranslationOptionList} (h : c.GetTranslationOptionList p p = .ok l) :
    (withRelaxedLookups d c p).GetTranslationOptionList p p =
      .ok (if l.m_collection = [] then l.append (relaxedOptions ⟨p, p⟩ d.m_ruleLookupManagers)
           else l) := by
  unfold withRelaxedLookups
  rw [optionsAt_of_getList h]
  by_cases hl : l.m_collection = []
  · rw [if_pos hl, if_pos hl]
    exact (getList_congr _ (c.addOptions p p _) rfl p p).trans (getList_addOptions h _)
  · rw [if_neg hl, if_neg hl, h]

theorem ProcessUnknownWord_interior (d : Decoder) (c : ChartTranslationOptionCollection)
    (p : Nat) (l : ChartTranslationOptionList)
    (hn : d.m_source.length < 2 ^ 64) (hpos : 0 < d.m_source.length)
    (hlen : d.m_decodeGraphList.length = d.m_ruleLookupManagers.length)
    (hget : c.GetTranslationOptionList p p = .ok l) (hr : l.m_range = ⟨p, p⟩)
    (h : interiorSingleton d p p) :
    ProcessUnknownWord d c p p =
      if (withRelaxedLookups d c p).optionsAt p p = [] ∨
          d.staticData.m_isAlwaysCreateDirectTranslationOption = true then
        ProcessUnknownWordAt d (withRelaxedLookups d c p) p
      else .ok (withRelaxedLookups d c p) := by
  have h1 : sizeSub d.m_source.length 1 = d.m_source.length - 1 := sizeSub_of_le hpos hn
  have h2 : ¬ (p = 0 ∨ p = sizeSub d.m_source.length 1) := by
    rw [h1]
    unfold interiorSingleton at h
    rintro (h0 | h0)
    · exact h.2.1 h0
    · exact h.2.2 h0
  have hloop := relaxedLookupLoop_eq ⟨p, p⟩ p d.m_decodeGraphList d.m_ruleLookupManagers 0 c l
    hget hlen
  have hw : (if l.m_collection = [] then
        ({ c.addOptions p p (relaxedOptions ⟨p, p⟩ d.m_ruleLookupManagers) with
           lookupLog := c.lookupLog ++ relaxedCalls ⟨p, p⟩ d.m_ruleLookupManagers 0 } :
          ChartTranslationOptionCollection)
      else c) = withRelaxedLookups d c p := by
    unfold withRelaxedLookups
    rw [optionsAt_of_getList hget]
  rw [hw] at hloop
  have hget2 := withRelaxedLookups_getList d hget
  unfold ProcessUnknownWord
  simp only [ne_eq, not_true_eq_false, if_false, h2, hget, bind, Except.bind,
    ChartTranslationOptionList.GetSourceRange, hr, hloop, hget2,
    ChartTranslationOptionList.GetSize, List.length_eq_zero, optionsAt_of_getList hget2]

theorem strictLookups_eq (d : Decoder) (c : ChartTranslationOptionCollection) (s e : Nat)
    (hv : d.Valid) (hwf : c.WellFormed d.m_source.length) (hse : s ≤ e)
    (hen : e < d.m_source.length) :
    strictLookups d c s e = .ok (withStrictLookups d c s e) := by
  obtain ⟨hn, hlen, hsize, _, _⟩ := hv
  obtain ⟨l, hget, hr⟩ := getList_of_wellFormed hwf hn hse hen
  unfold strictLookups
  simp only [hget, bind, Except.bind, hlen, ne_eq, not_true_eq_false, if_false,
    ChartTranslationOptionList.GetSourceRange, hr]
  rw [strictLookupLoop_eq ⟨s, e⟩ hse (by omega) _ _ 0 c l hget hlen hsize]
  rfl

theorem ProcessOneUnknownWord_eq (d : Decoder) (c : ChartTranslationOptionCollection)
    (w : Word) (p : Nat) (l : ChartTranslationOptionList)
    (hget : c.GetTranslationOptionList p p = .ok l) (hr : l.m_range = ⟨p, p⟩)
    (hlab : labelsHaveFactor d d.staticData.m_unknownLHS)
    (hw : d.staticData.m_dropUnknown = true → w.GetFactor 0 ≠ none) :
    ProcessOneUnknownWord d c w p = .ok (withFallback d c w p) := by
  cases hdrop : d.staticData.m_dropUnknown
  · rw [ProcessOneUnknownWord_passThrough d c w p l hget (Or.inl hdrop) hlab]
    simp [withFallback, fallbackOptions, takesDropBranch, hdrop, hr]
  · cases hs : w.GetFactor 0 with
    | none => exact absurd hs (hw hdrop)
    | some s =>
      cases hdig : containsDigit s
      · rw [ProcessOneUnknownWord_drop d c w p l s hget hdrop hs hdig hlab]
        simp [withFallback, fallbackOptions, takesDropBranch, hdrop, hr, hs, hdig]
      · rw [ProcessOneUnknownWord_passThrough d c w p l hget (Or.inr ⟨s, hs, hdig⟩) hlab]
        simp [withFallback, fallbackOptions, takesDropBranch, hdrop, hr, hs, hdig]

theorem withFallback_getList (d : Decoder) {c : ChartTranslationOptionCollection} (w : Word)
    {p : Nat} {l : ChartTranslationOptionList} (h : c.GetTranslationOptionList p p = .ok l) :
    (withFallback d c w p).GetTranslationOptionList p p =
      .ok (l.append (fallbackOptions d w ⟨p, p⟩ c.heap.length)) := by
  unfold withFallback
  dsimp only
  split <;>
    exact (getList_congr _ (c.addOptions p p _) rfl p p).trans (getList_addOptions h _)

theorem withFallback_unksrcs (d : Decoder) (c : ChartTranslationOptionCollection) (w : Word)
    (p : Nat) : (withFallback d c w p).m_unksrcs = c.m_unksrcs ++ [[w]] := by
  unfold withFallback
  dsimp only
  split <;> rfl

theorem withFallback_lookupLog (d : Decoder) (c : ChartTranslationOptionCollection) (w : Word)
    (p : Nat) : (withFallback d c w p).lookupLog = c.lookupLog := by
  unfold withFallback
  dsimp only
  split <;> rfl

theorem withStrictLookups_getList (d : Decoder) {c : ChartTranslationOptionCollection}
    {s e : Nat} {l : ChartTranslationOptionList} (h : c.GetTranslationOptionList s e = .ok l) :
    (withStrictLookups d c s e).GetTranslationOptionList s e =
      .ok (l.append (strictOptions ⟨s, e⟩ s e d.m_decodeGraphList d.m_ruleLookupManagers)) :=
  (getList_congr _ (c.addOptions s e _) rfl s e).trans (getList_addOptions h _)

theorem passThroughOptions_length (d : Decoder) (w : Word) (u : Phrase) (rule : DottedRule)
    (range : WordsRange) : ∀ (labels : List (String × Score)) (a : Nat),
    (passThroughOptions d w u rule range a labels).length = labels.length
  | [], _ => rfl
  | _ :: rest, a => by simp [passThroughOptions, passThroughOptions_length d w u rule range rest]

theorem dropOptions_length (d : Decoder) (u : Phrase) (us : List Score) (rule : DottedRule)
    (range : WordsRange) (a : Nat) : ∀ (labels : List (String × Score)) (tp : TargetPhrase),
    (dropOptions d u us rule range a labels tp).length = labels.length
  | [], _ => rfl
  | _ :: rest, tp => by simp [dropOptions, dropOptions_length d u us rule range a rest]

theorem fallbackOptions_length (d : Decoder) (w : Word) (range : WordsRange) (a : Nat) :
    (fallbackOptions d w range a).length = d.staticData.m_unknownLHS.length := by
  unfold fallbackOptions
  split
  · exact dropOptions_length _ _ _ _ _ _ _ _
  · exact passThroughOptions_length _ _ _ _ _ _ _

theorem wellFormed_new (d : Decoder) :
    (ChartTranslationOptionCollection.new d).WellFormed d.m_source.length := by
  unfold ChartTranslationOptionCollection.WellFormed ChartTranslationOptionCollection.new
  simp [List.map_map, Function.comp_def, ChartTranslationOptionList.new]

theorem getList_checkFailed {c : ChartTranslationOptionCollection} {n s e : Nat}
    (h : c.WellFormed n) (hn : n < 2 ^ 64) (he : e < 2 ^ 64) (hs : s < n)
    (hout : ¬ (s ≤ e ∧ e < n)) :
    c.GetTranslationOptionList s e = .error .checkFailed := by
  obtain ⟨row, hrow, hmap⟩ := wellFormed_row h hs
  have hlen : row.length = n - s := by
    have := congrArg List.length hmap
    simpa using this
  unfold ChartTranslationOptionCollection.GetTranslationOptionList
  simp only [List.get?_eq_getElem?, hrow]
  have hge : ¬ sizeSub e s < row.length := by
    by_cases hse : s ≤ e
    · rw [sizeSub_of_le hse he]
      have : n ≤ e := by
        by_contra hcon
        exact hout ⟨hse, by omega⟩
      omega
    · rw [sizeSub_of_lt (by omega) (by omega)]
      omega
  rw [if_neg hge]

theorem getList_undefined {c : ChartTranslationOptionCollection} {n s : Nat}
    (h : c.WellFormed n) (hs : n ≤ s) (e : Nat) :
    c.GetTranslationOptionList s e = .error .undefinedBehaviour := by
  have hlen := wellFormed_length h
  unfold ChartTranslationOptionCollection.GetTranslationOptionList
  simp only [List.get?_eq_getElem?]
  rw [List.getElem?_eq_none (by omega)]

theorem new_optionsAt (d : Decoder) (s e : Nat) :
    (ChartTranslationOptionCollection.new d).optionsAt s e = [] := by
  unfold ChartTranslationOptionCollection.optionsAt
  cases h : (ChartTranslationOptionCollection.new d).GetTranslationOptionList s e with
  | error err => rfl
  | ok l =>
    obtain ⟨row, hrow, hl⟩ := getList_eq_ok h
    simp only [ChartTranslationOptionCollection.new, List.getElem?_map] at hrow
    cases hr : (List.range d.m_source.length)[s]? with
    | none => simp [hr] at hrow
    | some s2 =>
      simp only [hr, Option.map_some', Option.some.injEq] at hrow
      subst hrow
      simp only [List.getElem?_map] at hl
      cases hk : (List.range (d.m_source.length - s2))[sizeSub e s]? with
      | none => simp [hk] at hl
      | some k =>
        simp only [hk, Option.map_some', Option.some.injEq] at hl
        subst hl
        rfl

theorem strictOptions_eq_flatMap (r : WordsRange) (s e : Nat) :
    ∀ (graphs : List DecodeGraph) (managers : List ChartRuleLookupManager),
      strictOptions r s e graphs managers =
        (List.zip graphs managers).flatMap fun gm =>
          if gm.1.permits s e then gm.2.lookup r true else []
  | [], _ => by simp [strictOptions]
  | _ :: _, [] => by simp [strictOptions]
  | g :: gs, m :: ms => by
    simp [strictOptions, strictOptions_eq_flatMap r s e gs ms]

theorem mem_strictCalls (r : WordsRange) (s e : Nat) (call : LookupCall) :
    ∀ (graphs : List DecodeGraph) (managers : List ChartRuleLookupManager) (i : Nat),
      graphs.length = managers.length →
      (call ∈ strictCalls r s e graphs managers i ↔
        ∃ j g, call = ⟨i + j, r, true⟩ ∧ graphs[j]? = some g ∧ g.permits s e)
  | [], _, i, _ => by simp [strictCalls]
  | _ :: _, [], i, hlen => by simp at hlen
  | g :: gs, m :: ms, i, hlen => by
    have hlen2 : gs.length = ms.length := by simpa using hlen
    simp only [strictCalls, List.mem_append, mem_strictCalls r s e call gs ms (i + 1) hlen2]
    constructor
    · rintro (h | ⟨j, g2, hc, hg, hp⟩)
      · by_cases hp : g.permits s e
        · simp only [hp, if_true, List.mem_singleton] at h
          exact ⟨0, g, by simpa using h, by simp, hp⟩
        · simp [hp] at h
      · exact ⟨j + 1, g2, by rw [hc]; congr 1; omega, by simpa using hg, hp⟩
    · rintro ⟨j, g2, hc, hg, hp⟩
      cases j with
      | zero =>
        simp only [List.getElem?_cons_zero, Option.some.injEq] at hg
        subst hg
        left
        simp [hp, hc]
      | succ j =>
        right
        exact ⟨j, g2, by rw [hc]; congr 1; omega, by simpa using hg, hp⟩

theorem ProcessUnknownWordAt_eq (d : Decoder) (c : ChartTranslationOptionCollection)
    (w : Word) (p : Nat) (l : ChartTranslationOptionList) (hv : d.Valid)
    (hw : d.m_source[p]? = some w)
    (hget : c.GetTranslationOptionList p p = .ok l) (hr : l.m_range = ⟨p, p⟩) :
    ProcessUnknownWordAt d c p = .ok (withFallback d c w p) := by
  obtain ⟨_, _, _, hlab, hfac⟩ := hv
  unfold ProcessUnknownWordAt
  simp only [List.get?_eq_getElem?, hw]
  exact ProcessOneUnknownWord_eq d c w p l hget hr hlab
    (fun hdrop => hfac hdrop w (List.getElem?_mem hw))

theorem withRelaxedLookups_optionsAt (d : Decoder) (c : ChartTranslationOptionCollection)
    (p : Nat) (l : ChartTranslationOptionList) (h : c.GetTranslationOptionList p p = .ok l) :
    (withRelaxedLookups d c p).optionsAt p p =
      if c.optionsAt p p = [] then relaxedOptions ⟨p, p⟩ d.m_ruleLookupManagers
      else c.optionsAt p p := by
  rw [optionsAt_of_getList (withRelaxedLookups_getList d h), optionsAt_of_getList h]
  by_cases hl : l.m_collection = []
  · simp [hl, ChartTranslationOptionList.append]
  · simp [hl]

theorem withRelaxedLookups_range (d : Decoder) (c : ChartTranslationOptionCollection)
    (p : Nat) (l : ChartTranslationOptionList) (h : c.GetTranslationOptionList p p = .ok l) :
    ∃ l2, (withRelaxedLookups d c p).GetTranslationOptionList p p = .ok l2 ∧
      l2.m_range = l.m_range := by
  refine ⟨_, withRelaxedLookups_getList d h, ?_⟩
  split <;> rfl

theorem passThroughOptions_getElem? (d : Decoder) (w : Word) (u : Phrase) (rule : DottedRule)
    (range : WordsRange) : ∀ (labels : List (String × Score)) (a i : Nat),
    (passThroughOptions d w u rule range a labels)[i]? =
      labels[i]?.map fun entry =>
        { m_targetPhraseCollection := .cached (a + i)
          m_dottedRule := rule
          m_wordsRange := range
          m_estimateOfBestScore :=
            d.helpers.CalcEstimateOfBestScore [passThroughPhrase d w u entry] rule range }
  | [], _, _ => by simp [passThroughOptions]
  | _ :: _, _, 0 => by simp [passThroughOptions]
  | _ :: rest, a, i + 1 => by
    simp only [passThroughOptions, List.getElem?_cons_succ,
      passThroughOptions_getElem? d w u rule range rest (a + 1) i]
    have : a + 1 + i = a + (i + 1) := by omega
    rw [this]

theorem mem_passThroughOptions (d : Decoder) (w : Word) (u : Phrase) (rule : DottedRule)
    (range : WordsRange) (labels : List (String × Score)) (a : Nat) (o : ChartTranslationOption)
    (h : o ∈ passThroughOptions d w u rule range a labels) :
    ∃ i entry, labels[i]? = some entry ∧
      o.m_targetPhraseCollection = .cached (a + i) ∧ o.m_dottedRule = rule ∧
      o.m_wordsRange = range := by
  obtain ⟨i, hi⟩ := List.mem_iff_getElem?.1 h
  rw [passThroughOptions_getElem?] at hi
  cases hl : labels[i]? with
  | none => simp [hl] at hi
  | some entry =>
    simp only [hl, Option.map_some', Option.some.injEq] at hi
    subst hi
    exact ⟨i, entry, hl, rfl, rfl, rfl⟩

theorem mem_dropOptions (d : Decoder) (u : Phrase) (us : List Score) (rule : DottedRule)
    (range : WordsRange) (a : Nat) (o : ChartTranslationOption) :
    ∀ (labels : List (String × Score)) (tp : TargetPhrase),
      o ∈ dropOptions d u us rule range a labels tp →
      o.m_targetPhraseCollection = .cached a ∧ o.m_dottedRule = rule ∧ o.m_wordsRange = range
  | [], _, h => by simp [dropOptions] at h
  | entry :: rest, tp, h => by
    simp only [dropOptions, List.mem_cons] at h
    rcases h with h | h
    · subst h
      exact ⟨rfl, rfl, rfl⟩
    · exact mem_dropOptions d u us rule range a o rest _ h

theorem getD_append_map {α β : Type} (xs : List α) (ys : List β) (f : β → α) (i : Nat) (y : β)
    (dflt : α) (h : ys[i]? = some y) : (xs ++ ys.map f).getD (xs.length + i) dflt = f y := by
  simp [List.getD_eq_getElem?_getD, List.getElem?_append_right, h]

theorem foldl_dropPhrase_words (d : Decoder) (u : Phrase) (us : List Score) :
    ∀ (labels : List (String × Score)) (tp : TargetPhrase),
      (labels.foldl (dropPhrase d u us) tp).words = tp.words
  | [], _ => rfl
  | entry :: rest, tp => by
    rw [List.foldl_cons, foldl_dropPhrase_words d u us rest]
    rfl

theorem getScores_assign (b : ScoreComponentCollection) (producer : ScoreProducer)
    (scores : List Score) :
    (b.Assign producer scores).GetScoresForProducer producer = some scores := by
  unfold ScoreComponentCollection.Assign ScoreComponentCollection.GetScoresForProducer
  induction b with
  | nil => simp
  | cons x xs ih =>
    by_cases hx : x.1 = producer
    · simp [hx]
    · have hx2 : (x.1 == producer) = false := by simpa using hx
      by_cases hany : xs.any (fun e => e.1 == producer) = true
      · simp only [hany, if_true] at ih
        simp only [List.any_cons, hx2, Bool.false_or, hany, if_true, List.map_cons,
          Bool.false_eq_true, if_false, List.find?_cons_of_neg, not_false_eq_true]
        exact ih
      · simp only [hany, if_false] at ih
        simp only [List.any_cons, hx2, Bool.false_or, hany, if_false, List.cons_append,
          Bool.false_eq_true, List.find?_cons_of_neg, not_false_eq_true]
        exact ih

theorem foldl_dropPhrase_score (d : Decoder) (u : Phrase) (us : List Score) :
    ∀ (labels : List (String × Score)) (tp : TargetPhrase), labels ≠ [] →
      (labels.foldl (dropPhrase d u us) tp).m_scoreBreakdown.GetScoresForProducer
        .unknownWordPenalty = some us
  | [], _, h => absurd rfl h
  | [entry], tp, _ => by
    simp only [List.foldl_cons, List.foldl_nil, dropPhrase, TargetPhrase.SetTargetLHS,
      TargetPhrase.SetScore, TargetPhrase.SetSourcePhrase]
    exact getScores_assign _ _ _
  | entry :: e2 :: rest, tp, _ => by
    rw [List.foldl_cons]
    exact foldl_dropPhrase_score d u us (e2 :: rest) _ (by simp)

theorem optionsAt_congr (c1 c2 : ChartTranslationOptionCollection)
    (h : c1.m_collection = c2.m_collection) (s e : Nat) :
    c1.optionsAt s e = c2.optionsAt s e := by
  unfold ChartTranslationOptionCollection.optionsAt
  rw [getList_congr c1 c2 h]

theorem getList_setList {c : ChartTranslationOptionCollection} {s e : Nat}
    {l : ChartTranslationOptionList} (h : c.GetTranslationOptionList s e = .ok l)
    (l2 : ChartTranslationOptionList) :
    (c.setList s e l2).GetTranslationOptionList s e = .ok l2 := by
  obtain ⟨row, hrow, hl⟩ := getList_eq_ok h
  have hk : sizeSub e s < row.length := by
    by_contra hcon
    rw [List.getElem?_eq_none (by omega)] at hl
    cases hl
  apply getList_of_cell (row.set (sizeSub e s) l2)
  · simp [ChartTranslationOptionCollection.setList, hrow]
  · simp [List.getElem?_set_self, hk]

theorem SortRange_eq {c : ChartTranslationOptionCollection} {s e : Nat}
    {l : ChartTranslationOptionList} (h : c.GetTranslationOptionList s e = .ok l) :
    SortRange c s e = .ok (c.setList s e l.SortList) := by
  unfold SortRange
  simp only [h, bind, Except.bind, pure, Except.pure]

theorem containsDigit_iff (s : String) :
    containsDigit s = true ↔ ∃ ch ∈ s.data, ch ∈ "0123456789".data := by
  unfold containsDigit
  simp [List.any_eq_true]

theorem ProcessUnknownWord_eq (d : Decoder) (c : ChartTranslationOptionCollection)
    (s e : Nat) (w : Word) (l : ChartTranslationOptionList) (hv : d.Valid)
    (hen : e < d.m_source.length) (hw : d.m_source[s]? = some w)
    (hget : c.GetTranslationOptionList s e = .ok l) (hr : l.m_range = ⟨s, e⟩) :
    ProcessUnknownWord d c s e = .ok (afterUnknownWord d c s e w) ∧
    ∃ l2, (afterUnknownWord d c s e w).GetTranslationOptionList s e = .ok l2 ∧
      l2.m_range = ⟨s, e⟩ := by
  have hv2 := hv
  obtain ⟨hn, hlen, hsize, hlab, hfac⟩ := hv
  have hpos : 0 < d.m_source.length := by omega
  unfold afterUnknownWord
  by_cases hint : interiorSingleton d s e
  · have hse2 : s = e := hint.1
    subst hse2
    rw [if_pos hint, ProcessUnknownWord_interior d c s l hn hpos hlen hget hr hint]
    obtain ⟨l2, hget2, hr2⟩ := withRelaxedLookups_range d _ s _ hget
    split
    · exact ⟨ProcessUnknownWordAt_eq d _ _ s l2 hv2 hw hget2 (hr2.trans hr),
        _, withFallback_getList d w hget2, hr2.trans hr⟩
    · exact ⟨rfl, l2, hget2, hr2.trans hr⟩
  · rw [if_neg hint]
    exact ⟨ProcessUnknownWord_other d c s e hn hpos hint, l, hget, hr⟩

theorem CreateTranslationOptionsForRange_eq (d : Decoder)
    (c : ChartTranslationOptionCollection) (s e : Nat) (hv : d.Valid)
    (hwf : c.WellFormed d.m_source.length) (hse : s ≤ e) (hen : e < d.m_source.length) :
    ∃ w l2, d.m_source[s]? = some w ∧
      strictLookups d c s e = .ok (withStrictLookups d c s e) ∧
      ProcessUnknownWord d (withStrictLookups d c s e) s e =
        .ok (afterUnknownWord d (withStrictLookups d c s e) s e w) ∧
      (afterUnknownWord d (withStrictLookups d c s e) s e w).GetTranslationOptionList s e =
        .ok l2 ∧
      l2.m_range = ⟨s, e⟩ ∧
      CreateTranslationOptionsForRange d c s e =
        .ok ((afterUnknownWord d (withStrictLookups d c s e) s e w).setList s e l2.SortList) := by
  have hstrict := strictLookups_eq d c s e hv hwf hse hen
  have hn := hv.1
  obtain ⟨l, hget, hr⟩ := getList_of_wellFormed hwf hn hse hen
  have hget1 := withStrictLookups_getList d hget
  have hs : s < d.m_source.length := by omega
  have hw : d.m_source[s]? = some d.m_source[s] := List.getElem?_eq_getElem hs
  obtain ⟨hPU, l2, hget2, hr2⟩ := ProcessUnknownWord_eq d (withStrictLookups d c s e) s e
    d.m_source[s] _ hv hen hw hget1 hr
  refine ⟨_, l2, hw, hstrict, hPU, hget2, hr2, ?_⟩
  unfold CreateTranslationOptionsForRange
  rw [hstrict]
  simp only [bind, Except.bind, hPU, Prune]
  exact SortRange_eq hget2

theorem mem_fallbackOptions (d : Decoder) (w : Word) (range : WordsRange) (a : Nat)
    (o : ChartTranslationOption) (h : o ∈ fallbackOptions d w range a) :
    o.m_dottedRule = unknownWordDottedRule (d.m_hypoStackColl range) ∧
      o.m_wordsRange = range := by
  unfold fallbackOptions at h
  split at h
  · exact (mem_dropOptions _ _ _ _ _ _ _ _ _ h).2
  · obtain ⟨_, _, _, _, h1, h2⟩ := mem_passThroughOptions _ _ _ _ _ _ _ _ h
    exact ⟨h1, h2⟩

theorem scoreLe_total (a b : Score) : Score.le a b = true ∨ Score.le b a = true := by
  cases a <;> cases b <;> simp [Score.le, Score.rank]
  exact le_total _ _

theorem scoreLe_trans (a b c : Score) (hab : Score.le a b = true) (hbc : Score.le b c = true) :
    Score.le a c = true := by
  cases a <;> cases b <;> cases c <;> simp_all [Score.le, Score.rank]
  exact le_trans hab hbc

theorem strictOptions_nil (r : WordsRange) (s e : Nat) :
    ∀ (graphs : List DecodeGraph) (managers : List ChartRuleLookupManager),
      (∀ m ∈ managers, m.lookup r true = []) → strictOptions r s e graphs managers = []
  | [], _, _ => by simp [strictOptions]
  | _ :: _, [], _ => by simp [strictOptions]
  | g :: gs, m :: ms, h => by
    simp only [strictOptions, h m (by simp), ite_self, List.nil_append]
    exact strictOptions_nil r s e gs ms fun m2 hm2 => h m2 (by simp [hm2])

theorem relaxedOptions_nil (r : WordsRange) :
    ∀ (managers : List ChartRuleLookupManager),
      (∀ m ∈ managers, m.lookup r false = []) → relaxedOptions r managers = []
  | [], _ => rfl
  | m :: ms, h => by
    simp only [relaxedOptions, h m (by simp), if_true]
    exact relaxedOptions_nil r ms fun m2 hm2 => h m2 (by simp [hm2])

theorem withRelaxedLookups_heap (d : Decoder) (c : ChartTranslationOptionCollection) (p : Nat) :
    (withRelaxedLookups d c p).heap = c.heap := by
  unfold withRelaxedLookups
  split <;> rfl

theorem withFallback_heap_drop (d : Decoder) (c : ChartTranslationOptionCollection) (w : Word)
    (p : Nat) (h : takesDropBranch d w = true) :
    (withFallback d c w p).heap = c.heap ++ [[d.staticData.m_unknownLHS.foldl
      (dropPhrase d [w] [d.helpers.FloorScore .negInf]) TargetPhrase.new]] := by
  unfold withFallback
  simp only [h, if_true]

theorem afterUnknownWord_mono (d : Decoder) (c : ChartTranslationOptionCollection)
    (s e : Nat) (w : Word) (l : ChartTranslationOptionList)
    (hget : c.GetTranslationOptionList s e = .ok l) :
    ∀ o ∈ l.m_collection, o ∈ (afterUnknownWord d c s e w).optionsAt s e := by
  intro o ho
  unfold afterUnknownWord
  by_cases hint : interiorSingleton d s e
  · have hse : s = e := hint.1
    subst hse
    rw [if_pos hint]
    have hR : o ∈ (withRelaxedLookups d c s).optionsAt s s := by
      rw [withRelaxedLookups_optionsAt d c s l hget, optionsAt_of_getList hget]
      have hne : l.m_collection ≠ [] := List.ne_nil_of_mem ho
      rw [if_neg hne]
      exact ho
    obtain ⟨lR, hgetR, _⟩ := withRelaxedLookups_range d c s l hget
    split
    · rw [optionsAt_of_getList (withFallback_getList d w hgetR)]
      rw [optionsAt_of_getList hgetR] at hR
      exact List.mem_append_left _ hR
    · exact hR
  · rw [if_neg hint, optionsAt_of_getList hget]
    exact ho

/-! ## Rounding to `float` -/

theorem shiftFor_div_lt (p : Nat) :
    ∀ (fuel f : Nat), f < 2 ^ (p + fuel) → f / 2 ^ shiftFor p fuel f < 2 ^ p
  | 0, f, h => by simpa [shiftFor] using h
  | fuel + 1, f, h => by
    unfold shiftFor
    by_cases hf : f < 2 ^ p
    · simp [hf]
    · rw [if_neg hf]
      have h2 : f / 2 < 2 ^ (p + fuel) := by
        rw [Nat.div_lt_iff_lt_mul (by norm_num)]
        calc f < 2 ^ (p + (fuel + 1)) := h
          _ = 2 ^ (p + fuel) * 2 := by rw [← Nat.add_assoc, Nat.pow_succ]
      have ih := shiftFor_div_lt p fuel (f / 2) h2
      rw [Nat.pow_succ, Nat.mul_comm, ← Nat.div_div_eq_div_mul]
      exact ih

theorem shiftFor_le_div (p : Nat) :
    ∀ (fuel f t : Nat), t < shiftFor p fuel f → 2 ^ p ≤ f / 2 ^ t
  | 0, f, t, h => by simp [shiftFor] at h
  | fuel + 1, f, t, h => by
    unfold shiftFor at h
    by_cases hf : f < 2 ^ p
    · simp [hf] at h
    · rw [if_neg hf] at h
      cases t with
      | zero => simpa using Nat.le_of_not_lt hf
      | succ t =>
        have ih := shiftFor_le_div p fuel (f / 2) t (by omega)
        rw [Nat.pow_succ, Nat.mul_comm, ← Nat.div_div_eq_div_mul]
        exact ih

theorem roundHalfEven_le (n d : Nat) : roundHalfEven n d ≤ n / d + 1 := by
  unfold roundHalfEven
  split
  · omega
  · split
    · omega
    · split <;> omega

theorem roundHalfEven_of_dvd (n d : Nat) (hd : 0 < d) (h : d ∣ n) :
    roundHalfEven n d = n / d := by
  unfold roundHalfEven
  rw [Nat.mod_eq_zero_of_dvd h, if_pos (by omega)]

theorem lt_two_pow_self_add (p f : Nat) : f < 2 ^ (p + f) :=
  lt_of_lt_of_le (Nat.lt_two_pow f) (Nat.pow_le_pow_right (by norm_num) (by omega))

/-- The significand of a rounded value has at most `p` bits, or is `2 ^ p`. -/
theorem roundHalfEven_shift_le (p n d : Nat) :
    roundHalfEven n (d * 2 ^ shiftFor p (n / d) (n / d)) ≤ 2 ^ p := by
  have h1 := roundHalfEven_le n (d * 2 ^ shiftFor p (n / d) (n / d))
  have h2 := shiftFor_div_lt p (n / d) (n / d) (lt_two_pow_self_add p _)
  rw [Nat.div_div_eq_div_mul] at h2
  omega

/-- A value with significand `m ≤ 2 ^ p` at shift `s` is kept by the rounding. -/
theorem roundSignificand_fixed (p m s d : Nat) (hp : 0 < p) (hd : 0 < d) (hm : m ≤ 2 ^ p) :
    roundSignificand p (m * 2 ^ s * d) d = m * 2 ^ s := by
  have hdiv : m * 2 ^ s * d / d = m * 2 ^ s := Nat.mul_div_cancel _ hd
  unfold roundSignificand
  rw [hdiv]
  have hdvd : 2 ^ shiftFor p (m * 2 ^ s) (m * 2 ^ s) ∣ m * 2 ^ s := by
    rcases Nat.lt_or_ge m (2 ^ p) with hlt | hge
    · have hle : shiftFor p (m * 2 ^ s) (m * 2 ^ s) ≤ s := by
        by_contra hcon
        have h3 := shiftFor_le_div p (m * 2 ^ s) (m * 2 ^ s) s (by omega)
        rw [Nat.mul_div_cancel _ (Nat.two_pow_pos s)] at h3
        omega
      exact Dvd.dvd.mul_left (pow_dvd_pow 2 hle) m
    · have hm2 : m = 2 ^ p := le_antisymm hm hge
      subst hm2
      have hle : shiftFor p (2 ^ p * 2 ^ s) (2 ^ p * 2 ^ s) ≤ s + 1 := by
        by_contra hcon
        have h3 := shiftFor_le_div p (2 ^ p * 2 ^ s) (2 ^ p * 2 ^ s) (s + 1) (by omega)
        have h4 : 2 ^ p * 2 ^ s / 2 ^ (s + 1) = 2 ^ (p - 1) := by
          rw [← Nat.pow_add, Nat.pow_div (by omega) (by norm_num)]
          congr 1
          omega
        rw [h4] at h3
        have h5 : 2 ^ (p - 1) < 2 ^ p := Nat.pow_lt_pow_right (by norm_num) (by omega)
        omega
      have h6 : 2 ^ (s + 1) ∣ 2 ^ p * 2 ^ s := by
        rw [← Nat.pow_add]
        exact pow_dvd_pow 2 (by omega)
      exact Dvd.dvd.trans (pow_dvd_pow 2 hle) h6
  have hdvd2 : d * 2 ^ shiftFor p (m * 2 ^ s) (m * 2 ^ s) ∣ m * 2 ^ s * d := by
    rw [Nat.mul_comm d]
    exact Nat.mul_dvd_mul hdvd (dvd_refl d)
  rw [roundHalfEven_of_dvd _ _ (Nat.mul_pos hd (Nat.two_pow_pos _)) hdvd2,
    ← Nat.div_div_eq_div_mul, Nat.mul_div_cancel _ hd, Nat.div_mul_cancel hdvd]

theorem roundSignificand_idem (p n d d2 : Nat) (hp : 0 < p) (hd2 : 0 < d2) :
    roundSignificand p (roundSignificand p n d * d2) d2 = roundSignificand p n d := by
  unfold roundSignificand
  exact roundSignificand_fixed p _ _ d2 hp hd2 (roundHalfEven_shift_le p n d)

/-- A magnitude below `2 ^ (p + k)` rounds to at most `2 ^ (p + k)`. -/
theorem roundSignificand_le (p k n d : Nat) (h : n / d < 2 ^ (p + k)) :
    roundSignificand p n d ≤ 2 ^ (p + k) := by
  unfold roundSignificand
  have hle : shiftFor p (n / d) (n / d) ≤ k := by
    by_contra hcon
    have h3 := shiftFor_le_div p (n / d) (n / d) k (by omega)
    have h4 : n / d / 2 ^ k < 2 ^ p := by
      rw [Nat.div_lt_iff_lt_mul (Nat.two_pow_pos k), ← Nat.pow_add]
      exact h
    omega
  calc roundHalfEven n (d * 2 ^ shiftFor p (n / d) (n / d)) * 2 ^ shiftFor p (n / d) (n / d)
      ≤ 2 ^ p * 2 ^ k :=
        Nat.mul_le_mul (roundHalfEven_shift_le p n d) (Nat.pow_le_pow_right (by norm_num) hle)
    _ = 2 ^ (p + k) := (Nat.pow_add 2 p k).symm

theorem natAbs_mul_eq_of_abs_eq (v : ℚ) (N k : Nat) (hk : 0 < k)
    (h : |v| = (N : ℚ) / (k : ℚ)) : v.num.natAbs * k = N * v.den := by
  have hden : (0 : ℚ) < (v.den : ℚ) := by exact_mod_cast v.den_pos
  have hk2 : (0 : ℚ) < (k : ℚ) := by exact_mod_cast hk
  have h1 : |v| = (v.num.natAbs : ℚ) / (v.den : ℚ) := by
    conv_lhs => rw [← Rat.num_div_den v]
    rw [abs_div, abs_of_pos hden, Nat.cast_natAbs, Int.cast_abs]
  rw [h1, div_eq_div_iff (ne_of_gt hden) (ne_of_gt hk2)] at h
  exact_mod_cast h

theorem roundToFormat_abs (p e : Nat) (q : ℚ) :
    |roundToFormat p e q| =
      ((roundSignificand p (q.num.natAbs * 2 ^ e) q.den : Nat) : ℚ) / ((2 ^ e : Nat) : ℚ) := by
  have hpos : (0 : ℚ) ≤
      ((roundSignificand p (q.num.natAbs * 2 ^ e) q.den : Nat) : ℚ) / ((2 ^ e : Nat) : ℚ) :=
    div_nonneg (Nat.cast_nonneg _) (Nat.cast_nonneg _)
  unfold roundToFormat
  push_cast at hpos ⊢
  split
  · rw [abs_neg, abs_of_nonneg hpos]
  · rw [abs_of_nonneg hpos]

theorem roundToFormat_def (p e : Nat) (q : ℚ) :
    roundToFormat p e q =
      if q.num < 0 then -((roundSignificand p (q.num.natAbs * 2 ^ e) q.den : ℚ) / 2 ^ e)
      else (roundSignificand p (q.num.natAbs * 2 ^ e) q.den : ℚ) / 2 ^ e := rfl

theorem roundToFormat_idem (p e : Nat) (hp : 0 < p) (q : ℚ) :
    roundToFormat p e (roundToFormat p e q) = roundToFormat p e q := by
  have hN := natAbs_mul_eq_of_abs_eq (roundToFormat p e q) _ (2 ^ e) (Nat.two_pow_pos e)
    (roundToFormat_abs p e q)
  have hfix : roundSignificand p ((roundToFormat p e q).num.natAbs * 2 ^ e)
      (roundToFormat p e q).den = roundSignificand p (q.num.natAbs * 2 ^ e) q.den := by
    rw [hN]
    exact roundSignificand_idem p _ _ _ hp (roundToFormat p e q).den_pos
  have hpos : (0 : ℚ) ≤
      ((roundSignificand p (q.num.natAbs * 2 ^ e) q.den : Nat) : ℚ) / (2 : ℚ) ^ e :=
    div_nonneg (Nat.cast_nonneg _) (by positivity)
  have hdef := roundToFormat_def p e q
  rw [roundToFormat_def p e (roundToFormat p e q), hfix]
  by_cases hneg : (roundToFormat p e q).num < 0
  · rw [if_pos hneg]
    have hlt : roundToFormat p e q < 0 := Rat.num_neg.1 hneg
    by_cases hq : q.num < 0
    · rw [hdef, if_pos hq]
    · rw [hdef, if_neg hq] at hlt
      exact absurd hlt (not_lt.2 hpos)
  · rw [if_neg hneg]
    have hge : 0 ≤ roundToFormat p e q := Rat.num_nonneg.1 (not_lt.1 hneg)
    by_cases hq : q.num < 0
    · rw [hdef, if_pos hq] at hge
      have hz : ((roundSignificand p (q.num.natAbs * 2 ^ e) q.den : Nat) : ℚ) / (2 : ℚ) ^ e = 0 :=
        le_antisymm (neg_nonneg.1 hge) hpos
      rw [hdef, if_pos hq, hz, neg_zero]
    · rw [hdef, if_neg hq]

/-- A value of the format: a rational that the rounding keeps, an infinity
or NaN. -/
theorem ofRat_fin_idem (q v : ℚ) (h : Score.ofRat q = .fin v) : Score.ofRat v = .fin v := by
  unfold Score.ofRat at h
  split at h
  · cases h
  · split at h
    · cases h
    · rename_i h1 h2
      injection h with hv
      unfold Score.ofRat
      rw [← hv, roundToFormat_idem 24 149 (by norm_num), if_neg h1, if_neg h2]

theorem ofRat_zero : Score.ofRat 0 = .fin 0 := by decide!

theorem ofRat_isFloat (q : ℚ) : (Score.ofRat q).IsFloat := by
  cases h : Score.ofRat q with
  | fin v => exact ofRat_fin_idem q v h
  | nan => trivial
  | negInf => trivial
  | posInf => trivial

/-- A value of magnitude below `2 ^ 127` does not overflow. -/
theorem ofRat_isFinite (q : ℚ) (h : |q| < 2 ^ 127) : (Score.ofRat q).isFinite = true := by
  have hden : (0 : ℚ) < (q.den : ℚ) := by exact_mod_cast q.den_pos
  have habs : |q| = (q.num.natAbs : ℚ) / (q.den : ℚ) := by
    conv_lhs => rw [← Rat.num_div_den q]
    rw [abs_div, abs_of_pos hden, Nat.cast_natAbs, Int.cast_abs]
  rw [habs, div_lt_iff₀ hden] at h
  have h1 : q.num.natAbs < 2 ^ 127 * q.den := by exact_mod_cast h
  have h2 : q.num.natAbs * 2 ^ 149 / q.den < 2 ^ (24 + 252) := by
    rw [Nat.div_lt_iff_lt_mul q.den_pos]
    calc q.num.natAbs * 2 ^ 149 < 2 ^ 127 * q.den * 2 ^ 149 :=
          Nat.mul_lt_mul_of_pos_right h1 (Nat.two_pow_pos 149)
      _ = 2 ^ (24 + 252) * q.den := by ring
  have h3 := roundSignificand_le 24 252 _ _ h2
  have h4 : |roundToFormat 24 149 q| ≤ 2 ^ 127 := by
    rw [roundToFormat_abs, div_le_iff₀ (by positivity)]
    have h5 : ((roundSignificand 24 (q.num.natAbs * 2 ^ 149) q.den : Nat) : ℚ) ≤
        ((2 ^ (24 + 252) : Nat) : ℚ) := by exact_mod_cast h3
    calc ((roundSignificand 24 (q.num.natAbs * 2 ^ 149) q.den : Nat) : ℚ)
        ≤ ((2 ^ (24 + 252) : Nat) : ℚ) := h5
      _ = 2 ^ 127 * ((2 ^ 149 : Nat) : ℚ) := by
        simp only [Nat.cast_pow, Nat.cast_ofNat]
        rw [← pow_add]
  have h6 := abs_le.1 h4
  unfold Score.ofRat
  rw [if_neg, if_neg]
  · rfl
  · intro hc
    have : (-(2 : ℚ) ^ 128) < -(2 : ℚ) ^ 127 := by norm_num
    linarith [h6.1]
  · intro hc
    have : (2 : ℚ) ^ 127 < (2 : ℚ) ^ 128 := by norm_num
    linarith [h6.2]

/-! ## Score arithmetic -/

theorem scoreAdd_comm (x y : Score) : x.add y = y.add x := by
  cases x <;> cases y <;> simp [Score.add, add_comm]

theorem scoreMul_comm (x y : Score) : x.mul y = y.mul x := by
  cases x <;> cases y <;> simp [Score.mul, mul_comm]

theorem scoreAdd_isFloat (x y : Score) : (x.add y).IsFloat := by
  cases x <;> cases y <;> first | trivial | exact ofRat_isFloat _

theorem infTimes_isFloat (positive : Bool) (q : ℚ) : (Score.infTimes positive q).IsFloat := by
  unfold Score.infTimes
  split
  · trivial
  · split <;> trivial

theorem scoreMul_isFloat (x y : Score) : (x.mul y).IsFloat := by
  cases x <;> cases y <;> first | trivial | exact ofRat_isFloat _ | exact infTimes_isFloat _ _

theorem zero_isFloat : (Score.fin 0).IsFloat := ofRat_zero

theorem scoreAdd_zero_left (x : Score) (hx : x.IsFloat) : (Score.fin 0).add x = x := by
  cases x with
  | fin q =>
    simp only [Score.add, zero_add]
    exact hx
  | nan => rfl
  | negInf => rfl
  | posInf => rfl

theorem scoreAdd_zero_right (x : Score) (hx : x.IsFloat) : x.add (Score.fin 0) = x := by
  rw [scoreAdd_comm]
  exact scoreAdd_zero_left x hx

theorem zero_mul_of_isFinite (w : Score) (hw : w.isFinite = true) :
    (Score.fin 0).mul w = .fin 0 := by
  cases w with
  | fin q =>
    simp only [Score.mul, zero_mul]
    exact ofRat_zero
  | nan => cases hw
  | negInf => cases hw
  | posInf => cases hw

theorem zipWith_zeros :
    ∀ (n : Nat) (weights : List Score), (∀ x ∈ weights, x.isFinite = true) →
      ∀ t ∈ List.zipWith Score.mul (List.replicate n (.fin 0)) weights, t = Score.fin 0
  | 0, _, _, t, ht => by simp at ht
  | _ + 1, [], _, t, ht => by simp at ht
  | n + 1, w :: ws, hw, t, ht => by
    simp only [List.replicate_succ, List.zipWith_cons_cons, List.mem_cons] at ht
    rcases ht with ht | ht
    · rw [ht]
      exact zero_mul_of_isFinite w (hw w (List.mem_cons_self _ _))
    · exact zipWith_zeros n ws (fun x hx => hw x (List.mem_cons_of_mem _ hx)) t ht

theorem foldl_add_zeros :
    ∀ (ts : List Score) (acc : Score), (∀ t ∈ ts, t = Score.fin 0) → acc.IsFloat →
      ts.foldl Score.add acc = acc
  | [], _, _, _ => rfl
  | t :: ts, acc, h, hacc => by
    rw [List.foldl_cons, h t (List.mem_cons_self _ _), scoreAdd_zero_right acc hacc]
    exact foldl_add_zeros ts acc (fun u hu => h u (List.mem_cons_of_mem _ hu)) hacc

theorem foldl_flatMap_add {α : Type} (f : α → List Score) :
    ∀ (ws : List α) (acc : Score),
      (ws.flatMap f).foldl Score.add acc = ws.foldl (fun a x => (f x).foldl Score.add a) acc
  | [], _ => rfl
  | x :: xs, acc => by
    rw [List.flatMap_cons, List.foldl_append, List.foldl_cons]
    exact foldl_flatMap_add f xs _

theorem foldl_terms_zero {α : Type} (f : α → List Score) :
    ∀ (ws : List α) (acc : Score), (∀ x ∈ ws, ∀ t ∈ f x, t = Score.fin 0) → acc.IsFloat →
      ws.foldl (fun a x => (f x).foldl Score.add a) acc = acc
  | [], _, _, _ => rfl
  | x :: xs, acc, h, hacc => by
    rw [List.foldl_cons, foldl_add_zeros (f x) acc (h x (List.mem_cons_self _ _)) hacc]
    exact foldl_terms_zero f xs acc (fun y hy => h y (List.mem_cons_of_mem _ hy)) hacc

theorem foldl_terms_one {α : Type} (f : α → List Score) (e : α) (t : Score) (he : f e = [t]) :
    ∀ (ws : List α) (acc : Score), ws.Nodup → e ∈ ws →
      (∀ x ∈ ws, x ≠ e → ∀ u ∈ f x, u = Score.fin 0) → acc.IsFloat →
      ws.foldl (fun a x => (f x).foldl Score.add a) acc = acc.add t
  | [], _, _, hmem, _, _ => by simp at hmem
  | x :: xs, acc, hnd, hmem, h, hacc => by
    rw [List.nodup_cons] at hnd
    rw [List.foldl_cons]
    by_cases hx : x = e
    · subst hx
      rw [he, List.foldl_cons, List.foldl_nil]
      exact foldl_terms_zero f xs _
        (fun y hy => h y (List.mem_cons_of_mem _ hy) (fun hyx => hnd.1 (hyx ▸ hy)))
        (scoreAdd_isFloat _ _)
    · rw [foldl_add_zeros (f x) acc (h x (List.mem_cons_self _ _) hx) hacc]
      have he2 : e ∈ xs := by
        rcases List.mem_cons.1 hmem with h1 | h1
        · exact absurd h1.symm hx
        · exact h1
      exact foldl_terms_one f e t he xs acc hnd.2 he2
        (fun y hy => h y (List.mem_cons_of_mem _ hy)) hacc

theorem foldl_terms_two {α : Type} (f : α → List Score) (e1 e2 : α) (t1 t2 : Score)
    (hne : e1 ≠ e2) (h1 : f e1 = [t1]) (h2 : f e2 = [t2]) (ht1 : t1.IsFloat)
    (ht2 : t2.IsFloat) :
    ∀ (ws : List α), ws.Nodup → e1 ∈ ws → e2 ∈ ws →
      (∀ x ∈ ws, x ≠ e1 → x ≠ e2 → ∀ u ∈ f x, u = Score.fin 0) →
      ws.foldl (fun a x => (f x).foldl Score.add a) (.fin 0) = t1.add t2
  | [], _, hm1, _, _ => by simp at hm1
  | x :: xs, hnd, hm1, hm2, h => by
    rw [List.nodup_cons] at hnd
    rw [List.foldl_cons]
    by_cases hx1 : x = e1
    · subst hx1
      have hm2' : e2 ∈ xs := by
        rcases List.mem_cons.1 hm2 with h3 | h3
        · exact absurd h3.symm hne
        · exact h3
      rw [h1, List.foldl_cons, List.foldl_nil, scoreAdd_zero_left t1 ht1]
      exact foldl_terms_one f e2 t2 h2 xs t1 hnd.2 hm2'
        (fun y hy hy2 => h y (List.mem_cons_of_mem _ hy) (fun hyx => hnd.1 (hyx ▸ hy)) hy2) ht1
    · by_cases hx2 : x = e2
      · subst hx2
        have hm1' : e1 ∈ xs := by
          rcases List.mem_cons.1 hm1 with h3 | h3
          · exact absurd h3 hne
          · exact h3
        rw [h2, List.foldl_cons, List.foldl_nil, scoreAdd_zero_left t2 ht2,
          foldl_terms_one f e1 t1 h1 xs t2 hnd.2 hm1'
            (fun y hy hy1 => h y (List.mem_cons_of_mem _ hy) hy1 (fun hyx => hnd.1 (hyx ▸ hy)))
            ht2]
        exact scoreAdd_comm _ _
      · rw [foldl_add_zeros (f x) _ (h x (List.mem_cons_self _ _) hx1 hx2) zero_isFloat]
        have hm1' : e1 ∈ xs := by
          rcases List.mem_cons.1 hm1 with h3 | h3
          · exact absurd h3.symm hx1
          · exact h3
        have hm2' : e2 ∈ xs := by
          rcases List.mem_cons.1 hm2 with h3 | h3
          · exact absurd h3.symm hx2
          · exact h3
        exact foldl_terms_two f e1 e2 t1 t2 hne h1 h2 ht1 ht2 xs hnd.2 hm1' hm2'
          (fun y hy => h y (List.mem_cons_of_mem _ hy))

theorem eq_of_key_eq {α β : Type} (ws : List (α × β)) (hnd : (ws.map Prod.fst).Nodup)
    (a b : α × β) (ha : a ∈ ws) (hb : b ∈ ws) (hab : a.1 = b.1) : a = b :=
  List.inj_on_of_nodup_map hnd ha hb hab

/-- The weighted sum of a breakdown holding one unknown-word score and one
word-penalty score, whatever the order of the producers. -/
theorem weightedSum_two (weights : List (ScoreProducer × List Score))
    (scoresOf : ScoreProducer → Option (List Score)) (u c wu ww : Score)
    (hsu : scoresOf .unknownWordPenalty = some [u]) (hsc : scoresOf .wordPenalty = some [c])
    (hso : ∀ q, q ≠ .unknownWordPenalty → q ≠ .wordPenalty → scoresOf q = none)
    (hnd : (weights.map Prod.fst).Nodup)
    (hu : (ScoreProducer.unknownWordPenalty, [wu]) ∈ weights)
    (hw : (ScoreProducer.wordPenalty, [ww]) ∈ weights)
    (hfin : ∀ pw ∈ weights, ∀ x ∈ pw.2, x.isFinite = true) :
    weightedSum weights scoresOf = (u.mul wu).add (c.mul ww) := by
  unfold weightedSum
  rw [foldl_flatMap_add]
  refine foldl_terms_two _ (.unknownWordPenalty, [wu]) (.wordPenalty, [ww]) _ _ (by simp)
    (by simp [hsu]) (by simp [hsc]) (scoreMul_isFloat _ _) (scoreMul_isFloat _ _) weights
    (List.Nodup.of_map _ hnd) hu hw ?_
  intro pw hpw h1 h2
  have hk1 : pw.1 ≠ .unknownWordPenalty := fun h =>
    h1 (eq_of_key_eq weights hnd _ _ hpw hu h)
  have hk2 : pw.1 ≠ .wordPenalty := fun h =>
    h2 (eq_of_key_eq weights hnd _ _ hpw hw h)
  simp only [hso pw.1 hk1 hk2, Option.getD_none]
  exact zipWith_zeros _ _ (hfin pw hpw)

/-- The weighted sum of a breakdown holding the unknown-word score only. -/
theorem weightedSum_one (weights : List (ScoreProducer × List Score))
    (scoresOf : ScoreProducer → Option (List Score)) (u wu : Score)
    (hsu : scoresOf .unknownWordPenalty = some [u])
    (hso : ∀ q, q ≠ .unknownWordPenalty → scoresOf q = none)
    (hnd : (weights.map Prod.fst).Nodup)
    (hu : (ScoreProducer.unknownWordPenalty, [wu]) ∈ weights)
    (hfin : ∀ pw ∈ weights, ∀ x ∈ pw.2, x.isFinite = true) :
    weightedSum weights scoresOf = u.mul wu := by
  unfold weightedSum
  rw [foldl_flatMap_add,
    foldl_terms_one _ (.unknownWordPenalty, [wu]) (u.mul wu) (by simp [hsu]) weights _
      (List.Nodup.of_map _ hnd) hu ?_ zero_isFloat]
  · exact scoreAdd_zero_left _ (scoreMul_isFloat _ _)
  · intro pw hpw h1
    have hk1 : pw.1 ≠ .unknownWordPenalty := fun h =>
      h1 (eq_of_key_eq weights hnd _ _ hpw hu h)
    simp only [hso pw.1 hk1, Option.getD_none]
    exact zipWith_zeros _ _ (hfin pw hpw)

theorem getScores_assign_ne (b : ScoreComponentCollection) (producer q : ScoreProducer)
    (scores : List Score) (hq : q ≠ producer) :
    (b.Assign producer scores).GetScoresForProducer q = b.GetScoresForProducer q := by
  have hqb : (producer == q) = false := beq_eq_false_iff_ne.2 (Ne.symm hq)
  unfold ScoreComponentCollection.Assign ScoreComponentCollection.GetScoresForProducer
  have hmap : ∀ xs : List (ScoreProducer × List Score),
      (xs.map (fun e => if e.1 == producer then (producer, scores) else e)).find?
        (fun e => e.1 == q) = xs.find? (fun e => e.1 == q) := by
    intro xs
    induction xs with
    | nil => rfl
    | cons x xs ih =>
      by_cases hx : x.1 = producer
      · have hxq : (x.1 == q) = false := by rw [hx]; exact hqb
        have hxp : (x.1 == producer) = true := beq_iff_eq.2 hx
        simp only [List.map_cons, hxp, if_true, List.find?_cons, hqb, hxq, ih]
      · have hxp : (x.1 == producer) = false := beq_eq_false_iff_ne.2 hx
        simp only [List.map_cons, hxp, Bool.false_eq_true, if_false, List.find?_cons, ih]
  have happ : ∀ xs : List (ScoreProducer × List Score),
      (xs ++ [(producer, scores)]).find? (fun e => e.1 == q) = xs.find? (fun e => e.1 == q) := by
    intro xs
    induction xs with
    | nil => simp [List.find?, hqb]
    | cons x xs ih => simp only [List.cons_append, List.find?_cons, ih]
  split
  · rw [hmap]
  · rw [happ]

theorem passThroughPhrase_breakdown (d : Decoder) (w : Word) (u : Phrase)
    (entry : String × Score) :
    (passThroughPhrase d w u entry).m_scoreBreakdown =
      [(.unknownWordPenalty, [d.helpers.FloorScore (d.helpers.TransformScore entry.2)]),
       (.wordPenalty, [.fin (-14572505 / 33554432)])] := by
  simp [passThroughPhrase, TargetPhrase.SetScore, TargetPhrase.SetSourcePhrase,
    TargetPhrase.SetTargetLHS, TargetPhrase.AddWord, TargetPhrase.new,
    ScoreComponentCollection.Assign, wordPenaltyScore]

theorem passThroughPhrase_fullScore (d : Decoder) (w : Word) (u : Phrase)
    (entry : String × Score) :
    (passThroughPhrase d w u entry).m_fullScore =
      d.helpers.GetWeightedScore (passThroughPhrase d w u entry).m_scoreBreakdown := by
  simp [passThroughPhrase, TargetPhrase.SetScore, TargetPhrase.SetSourcePhrase,
    TargetPhrase.SetTargetLHS]

theorem foldl_dropPhrase_breakdown (d : Decoder) (u : Phrase) (us : List Score) :
    ∀ (labels : List (String × Score)) (tp : TargetPhrase), labels ≠ [] →
      (tp.m_scoreBreakdown = [] ∨ tp.m_scoreBreakdown = [(.unknownWordPenalty, us)]) →
      (labels.foldl (dropPhrase d u us) tp).m_scoreBreakdown = [(.unknownWordPenalty, us)] ∧
      (labels.foldl (dropPhrase d u us) tp).m_fullScore =
        d.helpers.GetWeightedScore [(.unknownWordPenalty, us)]
  | [], _, h, _ => absurd rfl h
  | entry :: rest, tp, _, htp => by
    have hstep : (dropPhrase d u us tp entry).m_scoreBreakdown = [(.unknownWordPenalty, us)] ∧
        (dropPhrase d u us tp entry).m_fullScore =
          d.helpers.GetWeightedScore [(.unknownWordPenalty, us)] := by
      rcases htp with h | h <;>
        simp [dropPhrase, TargetPhrase.SetScore, TargetPhrase.SetSourcePhrase,
          TargetPhrase.SetTargetLHS, ScoreComponentCollection.Assign, h]
    rw [List.foldl_cons]
    cases rest with
    | nil => exact hstep
    | cons e2 rest2 =>
      exact foldl_dropPhrase_breakdown d u us (e2 :: rest2) _ (by simp) (Or.inr hstep.1)

theorem mem_relaxedCalls (r : WordsRange) (call : LookupCall) :
    ∀ (managers : List ChartRuleLookupManager) (i : Nat),
      call ∈ relaxedCalls r managers i ↔
        ∃ j, call = ⟨i + j, r, false⟩ ∧ j < managers.length ∧
          ∀ k m, k < j → managers[k]? = some m → m.lookup r false = []
  | [], i => by simp [relaxedCalls]
  | m :: ms, i => by
    simp only [relaxedCalls, List.mem_cons]
    constructor
    · rintro (h | h)
      · exact ⟨0, by simpa using h, by simp, fun k _ hk => absurd hk (Nat.not_lt_zero k)⟩
      · by_cases hm : m.lookup r false = []
        · rw [if_pos hm, mem_relaxedCalls r call ms (i + 1)] at h
          obtain ⟨j, hc, hj, hall⟩ := h
          refine ⟨j + 1, by rw [hc]; congr 1; omega, by simpa using hj, ?_⟩
          intro k m2 hk hm2
          cases k with
          | zero =>
            simp only [List.getElem?_cons_zero, Option.some.injEq] at hm2
            rw [← hm2]
            exact hm
          | succ k =>
            simp only [List.getElem?_cons_succ] at hm2
            exact hall k m2 (by omega) hm2
        · rw [if_neg hm] at h
          simp at h
    · rintro ⟨j, hc, hj, hall⟩
      cases j with
      | zero =>
        left
        simpa using hc
      | succ j =>
        right
        have hm : m.lookup r false = [] := hall 0 m (by omega) (by simp)
        rw [if_pos hm, mem_relaxedCalls r call ms (i + 1)]
        refine ⟨j, by rw [hc]; congr 1; omega, by simpa using hj, ?_⟩
        intro k m2 hk hm2
        exact hall (k + 1) m2 (by omega) (by simpa using hm2)

theorem afterUnknownWord_lookupLog (d : Decoder) (c : ChartTranslationOptionCollection)
    (s e : Nat) (w : Word) :
    (afterUnknownWord d c s e w).lookupLog =
      c.lookupLog ++
        if interiorSingleton d s e ∧ c.optionsAt s s = [] then
          relaxedCalls ⟨s, s⟩ d.m_ruleLookupManagers 0
        else [] := by
  have hrel : (withRelaxedLookups d c s).lookupLog =
      c.lookupLog ++ if c.optionsAt s s = [] then relaxedCalls ⟨s, s⟩ d.m_ruleLookupManagers 0
        else [] := by
    unfold withRelaxedLookups
    split <;> simp
  unfold afterUnknownWord
  by_cases hint : interiorSingleton d s e
  · rw [if_pos hint]
    split
    · rw [withFallback_lookupLog, hrel]
      simp [hint]
    · rw [hrel]
      simp [hint]
  · rw [if_neg hint]
    simp [hint]

theorem GetInput_step (io io2 : IOWrapper) (inp out : InputType)
    (h : io.GetInput (some inp) = .ok (io2, some out)) :
    out.m_translationId < io2.m_translationId ∧
    io.m_translationId ≤ io2.m_translationId ∧
    (inp.m_translationId ≠ 0 → out = inp) ∧
    (inp.m_translationId = 0 →
      out = { inp with m_translationId := io.m_translationId } ∧
      io2.m_translationId = io.m_translationId + 1) := by
  unfold IOWrapper.GetInput at h
  by_cases hx : inp.m_translationId ≠ 0
  · simp only [hx, ne_eq, not_false_eq_true, if_true] at h
    by_cases hge : inp.m_translationId ≥ io.m_translationId
    · simp only [hge, if_true] at h
      by_cases hmax : inp.m_translationId = LONG_MAX
      · simp [hmax] at h
      · simp only [hmax, if_false, Except.ok.injEq, Prod.mk.injEq, Option.some.injEq] at h
        obtain ⟨h1, h2⟩ := h
        subst h1 h2
        exact ⟨by simp, by simp; omega, fun _ => rfl, fun h0 => absurd h0 hx⟩
    · simp only [hge, if_false, Except.ok.injEq, Prod.mk.injEq, Option.some.injEq] at h
      obtain ⟨h1, h2⟩ := h
      subst h1 h2
      exact ⟨by omega, le_refl _, fun _ => rfl, fun h0 => absurd h0 hx⟩
  · have hx0 : inp.m_translationId = 0 := by simpa using hx
    simp only [hx0, ne_eq, not_true_eq_false, if_false] at h
    by_cases hmax : io.m_translationId = LONG_MAX
    · simp [hmax] at h
    · simp only [hmax, if_false, Except.ok.injEq, Prod.mk.injEq, Option.some.injEq] at h
      obtain ⟨h1, h2⟩ := h
      subst h1 h2
      exact ⟨by simp, by simp, fun h0 => absurd hx0 h0, fun _ => ⟨rfl, rfl⟩⟩

theorem GetInput_some (io io2 : IOWrapper) (inp : InputType) (r : Option InputType)
    (h : io.GetInput (some inp) = .ok (io2, r)) : ∃ out, r = some out := by
  unfold IOWrapper.GetInput at h
  simp only at h
  split at h
  · split at h
    · split at h
      · cases h
      · simp only [Except.ok.injEq, Prod.mk.injEq] at h
        exact ⟨_, h.2.symm⟩
    · simp only [Except.ok.injEq, Prod.mk.injEq] at h
      exact ⟨_, h.2.symm⟩
  · split at h
    · cases h
    · simp only [Except.ok.injEq, Prod.mk.injEq] at h
      exact ⟨_, h.2.symm⟩

theorem GetInputSequence_spec :
    ∀ (reads : List InputType) (io io2 : IOWrapper) (outs : List InputType),
      io.GetInputSequence reads = .ok (io2, outs) →
      outs.length = reads.length ∧
      io.m_translationId ≤ io2.m_translationId ∧
      (∀ out ∈ outs, out.m_translationId < io2.m_translationId) ∧
      (∀ p ∈ List.zip reads outs, (p.1.m_translationId ≠ 0 → p.2 = p.1) ∧
        (p.1.m_translationId = 0 → io.m_translationId ≤ p.2.m_translationId ∧
          p.2.words = p.1.words)) ∧
      (List.zip reads outs).Pairwise
        (fun a b => b.1.m_translationId = 0 → a.2.m_translationId ≠ b.2.m_translationId)
  | [], io, io2, outs, h => by
    simp only [IOWrapper.GetInputSequence, Except.ok.injEq, Prod.mk.injEq] at h
    obtain ⟨h1, h2⟩ := h
    subst h1 h2
    simp
  | inp :: rest, io, io2, outs, h => by
    unfold IOWrapper.GetInputSequence at h
    cases h1 : io.GetInput (some inp) with
    | error e => simp [h1] at h
    | ok res1 =>
      obtain ⟨io1, r⟩ := res1
      obtain ⟨out, hr⟩ := GetInput_some io io1 inp r h1
      subst hr
      simp only [h1] at h
      cases h2 : io1.GetInputSequence rest with
      | error e => simp [h2] at h
      | ok res2 =>
        obtain ⟨io3, outs2⟩ := res2
        simp only [h2, Except.ok.injEq, Prod.mk.injEq, Option.toList_some,
          List.singleton_append] at h
        obtain ⟨h3, h4⟩ := h
        subst h3 h4
        obtain ⟨s1, s2, s3, s4⟩ := GetInput_step io io1 inp out h1
        obtain ⟨t1, t2, t3, t4, t5⟩ := GetInputSequence_spec rest io1 io3 outs2 h2
        refine ⟨by simp [t1], le_trans s2 t2, ?_, ?_, ?_⟩
        · intro o ho
          rcases List.mem_cons.1 ho with ho | ho
          · subst ho
            exact lt_of_lt_of_le s1 t2
          · exact t3 o ho
        · intro p hp
          simp only [List.zip_cons_cons, List.mem_cons] at hp
          rcases hp with hp | hp
          · subst hp
            refine ⟨s3, fun h0 => ?_⟩
            rw [(s4 h0).1]
            exact ⟨le_refl _, rfl⟩
          · exact ⟨(t4 p hp).1, fun h0 => ⟨le_trans s2 ((t4 p hp).2 h0).1, ((t4 p hp).2 h0).2⟩⟩
        · simp only [List.zip_cons_cons, List.pairwise_cons]
          refine ⟨?_, t5⟩
          intro p hp h0
          have := ((t4 p hp).2 h0).1
          show out.m_translationId ≠ p.2.m_translationId
          omega

theorem GetInputSequence_append :
    ∀ (pre post : List InputType) (io io2 : IOWrapper) (outs : List InputType),
      io.GetInputSequence (pre ++ post) = .ok (io2, outs) →
      ∃ (ioA : IOWrapper) (outsPre outsPost : List InputType),
        io.GetInputSequence pre = .ok (ioA, outsPre) ∧
        ioA.GetInputSequence post = .ok (io2, outsPost) ∧
        outs = outsPre ++ outsPost
  | [], post, io, io2, outs, h => ⟨io, [], outs, rfl, by simpa using h, rfl⟩
  | inp :: pre, post, io, io2, outs, h => by
    rw [List.cons_append] at h
    unfold IOWrapper.GetInputSequence at h
    cases h1 : io.GetInput (some inp) with
    | error e => simp [h1] at h
    | ok res1 =>
      obtain ⟨io1, r⟩ := res1
      simp only [h1] at h
      cases h2 : io1.GetInputSequence (pre ++ post) with
      | error e => simp [h2] at h
      | ok res2 =>
        obtain ⟨io3, outs2⟩ := res2
        simp only [h2, Except.ok.injEq, Prod.mk.injEq] at h
        obtain ⟨h3, h4⟩ := h
        subst h3 h4
        obtain ⟨ioA, outsPre, outsPost, a1, a2, a3⟩ :=
          GetInputSequence_append pre post io1 io3 outs2 h2
        refine ⟨ioA, r.toList ++ outsPre, outsPost, ?_, a2, by simp [a3]⟩
        unfold IOWrapper.GetInputSequence
        simp [h1, a1]

theorem GetInputSequence_cons (inp : InputType) (post : List InputType) (io io2 : IOWrapper)
    (outs : List InputType) (h : io.GetInputSequence (inp :: post) = .ok (io2, outs)) :
    ∃ (io1 : IOWrapper) (out : InputType) (outsPost : List InputType),
      io.GetInput (some inp) = .ok (io1, some out) ∧
      io1.GetInputSequence post = .ok (io2, outsPost) ∧
      outs = out :: outsPost := by
  unfold IOWrapper.GetInputSequence at h
  cases h1 : io.GetInput (some inp) with
  | error e => simp [h1] at h
  | ok res1 =>
    obtain ⟨io1, r⟩ := res1
    obtain ⟨out, hr⟩ := GetInput_some io io1 inp r h1
    subst hr
    simp only [h1] at h
    cases h2 : io1.GetInputSequence post with
    | error e => simp [h2] at h
    | ok res2 =>
      obtain ⟨io3, outs2⟩ := res2
      simp only [h2, Except.ok.injEq, Prod.mk.injEq, Option.toList_some,
        List.singleton_append] at h
      exact ⟨io1, out, outs2, rfl, by rw [← h.1]; exact h2, h.2.symm⟩

/-! ## The recursive walks over the hypotheses -/

theorem concat_append (a b : List String) : concat (a ++ b) = concat a ++ concat b := by
  induction a with
  | nil => simp [concat]
  | cons t rest ih => simp [concat, ih, String.append_assoc]

theorem concat_map_flatMap {α β : Type} (f : α → List β) (g : β → String) (l : List α) :
    concat ((l.flatMap f).map g) = concat (l.map (fun x => concat ((f x).map g))) := by
  induction l with
  | nil => simp [concat]
  | cons x rest ih => simp [List.flatMap_cons, concat, concat_append, ih]

theorem flatMap_congr_mem {α β : Type} (f g : α → List β) (l : List α)
    (h : ∀ x ∈ l, f x = g x) : l.flatMap f = l.flatMap g := by
  induction l with
  | nil => rfl
  | cons x rest ih =>
    simp only [List.flatMap_cons]
    rw [h x (List.mem_cons_self _ _), ih (fun y hy => h y (List.mem_cons_of_mem _ hy))]

theorem map_congr_mem {α β : Type} (f g : α → β) (l : List α)
    (h : ∀ x ∈ l, f x = g x) : l.map f = l.map g :=
  List.map_congr_left h

theorem forEachPrevHypo_concat (body : String → HypoPtr → Option (Except Failure String))
    (g : HypoPtr → String) :
    ∀ (l : List HypoPtr) (s : String),
      (∀ p ∈ l, ∀ s, body s p = some (.ok (s ++ g p))) →
      forEachPrevHypo body l s = some (.ok (s ++ concat (l.map g)))
  | [], s, _ => by simp [forEachPrevHypo, concat]
  | p :: rest, s, h => by
    unfold forEachPrevHypo
    rw [h p (List.mem_cons_self _ _) s]
    simp only
    rw [forEachPrevHypo_concat body g rest (s ++ g p)
      (fun q hq => h q (List.mem_cons_of_mem _ hq))]
    simp [concat, String.append_assoc]

theorem deref_some (arena : List ChartHypothesis) (a : Nat) (h : ChartHypothesis)
    (valid : arena.get? a = some h) : deref arena (some a) = .ok h := by
  unfold deref
  simp only [valid]

theorem spanOrdered_deref (arena : List ChartHypothesis) (p : HypoPtr)
    (hso : SpanOrdered arena p) : ∃ h, deref arena p = .ok h := by
  cases hso with
  | node a h valid shorter below => exact ⟨h, deref_some arena a h valid⟩

theorem preOrder_stable (arena : List ChartHypothesis) (p : HypoPtr)
    (hso : SpanOrdered arena p) :
    ∀ h, deref arena p = .ok h → ∀ depth, h.spanLength < depth →
      preOrder arena depth p = h :: h.m_prevHypos.flatMap (derivationNodes arena) := by
  induction hso with
  | node a h valid shorter below ih =>
    intro h2 hd depth hlt
    rw [deref_some arena a h valid] at hd
    cases hd
    cases depth with
    | zero => omega
    | succ d =>
      simp only [preOrder, deref_some arena a h valid]
      congr 1
      apply flatMap_congr_mem
      intro q hq
      obtain ⟨child, hc, hlen⟩ := shorter q hq
      rw [ih q hq child hc d (by omega)]
      simp only [derivationNodes, hc]
      rw [ih q hq child hc (child.spanLength + 1) (by omega)]

theorem derivationNodes_eq (arena : List ChartHypothesis) (p : HypoPtr)
    (hso : SpanOrdered arena p) (h : ChartHypothesis) (hd : deref arena p = .ok h) :
    derivationNodes arena p = h :: h.m_prevHypos.flatMap (derivationNodes arena) := by
  simp only [derivationNodes, hd]
  exact preOrder_stable arena p hso h hd _ (by omega)

theorem OutputTranslationOptions_eq (r : Rendering) (arena : List ChartHypothesis)
    (translationId : Int) (p : HypoPtr) (hso : SpanOrdered arena p) :
    ∀ h, deref arena p = .ok h → ∀ fuel, h.spanLength < fuel → ∀ out,
      OutputTranslationOptions r arena translationId fuel out p =
        some (.ok (out ++
          concat ((derivationNodes arena p).map (transOptRecord r translationId)))) := by
  induction hso with
  | node a h valid shorter below ih =>
    intro h2 hd fuel hlt out
    have hnodes := derivationNodes_eq arena (some a) (SpanOrdered.node a h valid shorter below) h2 hd
    rw [deref_some arena a h valid] at hd
    cases hd
    cases fuel with
    | zero => omega
    | succ f =>
      simp only [OutputTranslationOptions, deref_some arena a h valid, Except.map]
      rw [forEachPrevHypo_concat _
        (fun q => concat ((derivationNodes arena q).map (transOptRecord r translationId)))]
      · rw [hnodes]
        simp [concat, concat_map_flatMap, String.append_assoc]
      · intro q hq s
        obtain ⟨child, hc, hlen⟩ := shorter q hq
        exact ih q hq child hc f (by omega) s

/-- The text `Backtrack` traces for one hypothesis it descends into. -/
theorem Backtrack_eq (s : OutputSettings) (arena : List ChartHypothesis)
    (p : HypoPtr) (hso : SpanOrdered arena p) :
    ∀ h, deref arena p = .ok h → ∀ fuel, h.spanLength < fuel → ∀ trace,
      Backtrack s arena fuel trace p =
        some (.ok (trace ++ concat ((derivationNodes arena p).tail.map
          (fun node => VERBOSE s 3 "" (toString node.m_id ++ " <= "))))) := by
  induction hso with
  | node a h valid shorter below ih =>
    intro h2 hd fuel hlt trace
    have hnodes := derivationNodes_eq arena (some a) (SpanOrdered.node a h valid shorter below) h2 hd
    rw [deref_some arena a h valid] at hd
    cases hd
    cases fuel with
    | zero => omega
    | succ f =>
      simp only [Backtrack, deref_some arena a h valid]
      rw [forEachPrevHypo_concat _
        (fun q => concat ((derivationNodes arena q).map
          (fun node => VERBOSE s 3 "" (toString node.m_id ++ " <= "))))]
      · rw [hnodes]
        simp [concat_map_flatMap]
      · intro q hq t
        obtain ⟨child, hc, hlen⟩ := shorter q hq
        have hq2 := derivationNodes_eq arena q (below q hq) child hc
        by_cases hv : 3 ≤ s.verboseLevel
        · simp only [hv, if_true, hc, Except.map]
          rw [ih q hq child hc f (by omega), hq2]
          simp [concat, VERBOSE, hv, String.append_assoc]
        · simp only [hv, if_false]
          rw [ih q hq child hc f (by omega), hq2]
          simp [concat, VERBOSE, hv]

theorem spanOrdered_of_arena (arena : List ChartHypothesis)
    (harena : spanOrderedArena arena = true) :
    ∀ (n a : Nat) (h : ChartHypothesis), arena.get? a = some h → h.spanLength < n →
      SpanOrdered arena (some a)
  | 0, _, _, _, hlt => by omega
  | n + 1, a, h, valid, hlt => by
    have hmem : h ∈ arena := List.getElem?_mem (by simpa using valid)
    have hall := (List.all_eq_true.1 harena) h hmem
    have hchild : ∀ p ∈ h.m_prevHypos, ∃ child, deref arena p = .ok child ∧
        child.spanLength < h.spanLength := by
      intro p hp
      have hp2 := (List.all_eq_true.1 hall) p hp
      cases hd : deref arena p with
      | error e => simp [hd] at hp2
      | ok child =>
        simp only [hd, decide_eq_true_eq] at hp2
        exact ⟨child, rfl, hp2⟩
    refine SpanOrdered.node a h valid hchild ?_
    intro p hp
    obtain ⟨child, hc, hlen⟩ := hchild p hp
    cases p with
    | none => simp [deref] at hc
    | some c =>
      have hv : arena.get? c = some child := by
        unfold deref at hc
        simp only at hc
        split at hc
        · rename_i x hx
          cases hc
          exact hx
        · cases hc
      exact spanOrdered_of_arena arena harena n c child hv (by omega)

/-! ## Single-best and n-best output -/

theorem removeFirstAndLast_eq (phrase : Phrase) :
    removeFirstAndLast phrase =
      if 2 ≤ phrase.length then .ok (innerWords phrase) else .error .checkFailed := by
  match phrase with
  | [] => simp [removeFirstAndLast]
  | [a] => simp [removeFirstAndLast]
  | a :: b :: rest =>
    have h1 : (b :: rest).eraseIdx rest.length = (b :: rest).take rest.length := by
      rw [← List.dropLast_eq_eraseIdx (by simp), List.dropLast_eq_take]
      simp
    simp [removeFirstAndLast, Phrase.RemoveWord, innerWords, h1]

theorem mem_innerWords (phrase : Phrase) (w : Word) (h : w ∈ innerWords phrase) : w ∈ phrase :=
  List.mem_of_mem_drop (List.mem_of_mem_take h)

theorem innerWords_length (phrase : Phrase) : (innerWords phrase).length = phrase.length - 2 := by
  simp [innerWords]
  omega

theorem foldl_factors_ok (word : Word) :
    ∀ (types : List Nat) (text : String), (∀ t ∈ types, (word.GetFactor t).isSome = true) →
      ∃ text2, types.foldl
        (fun (acc : Except Failure String) factorType =>
          match acc with
          | .error e => .error e
          | .ok text =>
            match word.GetFactor factorType with
            | none => .error .undefinedBehaviour
            | some f => .ok (text ++ ("|" ++ f)))
        (.ok text) = .ok text2
  | [], text, _ => ⟨text, rfl⟩
  | t :: rest, text, h => by
    obtain ⟨f, hf⟩ := Option.isSome_iff_exists.1 (h t (List.mem_cons_self _ _))
    simp only [List.foldl_cons, hf]
    exact foldl_factors_ok word rest _ (fun u hu => h u (List.mem_cons_of_mem _ hu))

theorem surfaceOfWord_ok (order : List Nat) (word : Word) (hne : order ≠ [])
    (h : ∀ t ∈ order, (word.GetFactor t).isSome = true) :
    ∃ text, surfaceOfWord order word = .ok text := by
  cases order with
  | nil => exact absurd rfl hne
  | cons t rest =>
    obtain ⟨f, hf⟩ := Option.isSome_iff_exists.1 (h t (List.mem_cons_self _ _))
    obtain ⟨text2, h2⟩ := foldl_factors_ok word rest f
      (fun u hu => h u (List.mem_cons_of_mem _ hu))
    refine ⟨text2 ++ " ", ?_⟩
    simp only [surfaceOfWord, List.getD_cons_zero, hf, List.tail_cons, h2]

theorem surfaceOfPhrase_ok (order : List Nat) (hne : order ≠ []) :
    ∀ (phrase : Phrase), hasOutputFactors order phrase = true →
      ∃ text, surfaceOfPhrase order phrase = .ok text
  | [], _ => ⟨"", rfl⟩
  | word :: rest, h => by
    simp only [hasOutputFactors, List.all_cons, Bool.and_eq_true] at h
    obtain ⟨text, ht⟩ := surfaceOfWord_ok order word hne
      (fun t ht => (List.all_eq_true.1 h.1) t ht)
    obtain ⟨more, hm⟩ := surfaceOfPhrase_ok order hne rest h.2
    exact ⟨text ++ more, by simp only [surfaceOfPhrase, ht, hm]⟩

theorem hasOutputFactors_innerWords (order : List Nat) (phrase : Phrase)
    (h : hasOutputFactors order phrase = true) :
    hasOutputFactors order (innerWords phrase) = true := by
  unfold hasOutputFactors at *
  rw [List.all_eq_true] at *
  exact fun w hw => h w (mem_innerWords phrase w hw)

theorem nBestEntry_eq (io : IOWrapper) (s : OutputSettings) (r : Rendering)
    (system : TranslationSystem) (translationId : Int) (out : String)
    (path : ChartTrellisPath) :
    nBestEntry io s r system translationId out path =
      if 2 ≤ path.outputPhrase.length then
        match OutputSurface r (out ++ (toString translationId ++ " ||| "))
            (innerWords path.outputPhrase) io.m_outputFactorOrder false with
        | .error e => .error e
        | .ok out1 =>
          .ok (out1 ++ nBestScoresText s r io.m_surpressSingleBestOutput system path)
      else .error .checkFailed := by
  unfold nBestEntry
  rw [removeFirstAndLast_eq]
  by_cases h : 2 ≤ path.outputPhrase.length
  · simp only [h, if_true]
  · simp only [h, if_false]

theorem nBestEntry_ok (io : IOWrapper) (s : OutputSettings) (r : Rendering)
    (system : TranslationSystem) (translationId : Int) (path : ChartTrellisPath)
    (hne : io.m_outputFactorOrder ≠ []) (hlen : 2 ≤ path.outputPhrase.length)
    (hf : hasOutputFactors io.m_outputFactorOrder path.outputPhrase = true) :
    ∃ surface, surfaceOfPhrase io.m_outputFactorOrder (innerWords path.outputPhrase) =
        .ok surface ∧
      ∀ out, nBestEntry io s r system translationId out path =
        .ok (out ++ nBestEntryOf io s r system translationId path surface) := by
  obtain ⟨surface, hs⟩ := surfaceOfPhrase_ok io.m_outputFactorOrder hne
    (innerWords path.outputPhrase) (hasOutputFactors_innerWords _ _ hf)
  refine ⟨surface, hs, fun out => ?_⟩
  have hpos : io.m_outputFactorOrder.length > 0 := List.length_pos.2 hne
  rw [nBestEntry_eq]
  simp [hlen, OutputSurface, hpos, hs, nBestEntryOf, String.append_assoc]

theorem nBestLoop_checkFailed (io : IOWrapper) (s : OutputSettings) (r : Rendering)
    (system : TranslationSystem) (translationId : Int) (hne : io.m_outputFactorOrder ≠ []) :
    ∀ (nBestList : List ChartTrellisPath),
      (∀ path ∈ nBestList, hasOutputFactors io.m_outputFactorOrder path.outputPhrase = true) →
      (∃ path ∈ nBestList, path.outputPhrase.length < 2) →
      ∀ out, nBestLoop io s r system translationId out nBestList = .error .checkFailed
  | [], _, hbad, _ => by
    obtain ⟨p, hp, _⟩ := hbad
    cases hp
  | path :: rest, hf, hbad, out => by
    by_cases hlen : 2 ≤ path.outputPhrase.length
    · obtain ⟨surface, -, he⟩ := nBestEntry_ok io s r system translationId path hne hlen
        (hf path (List.mem_cons_self _ _))
      simp only [nBestLoop, he]
      apply nBestLoop_checkFailed io s r system translationId hne rest
        (fun p hp => hf p (List.mem_cons_of_mem _ hp))
      obtain ⟨p, hp, hp2⟩ := hbad
      rcases List.mem_cons.1 hp with hp | hp
      · subst hp
        omega
      · exact ⟨p, hp, hp2⟩
    · simp only [nBestLoop, nBestEntry_eq, hlen, if_false]

theorem OutputBestHypo_null (io : IOWrapper) (s : OutputSettings) (r : Rendering)
    (pr : PhraseRendering) (arena : List ChartHypothesis) (fuel : Nat) (trace : String)
    (translationId : Int) :
    io.OutputBestHypo s r pr arena fuel trace none translationId =
      some (.ok (io.writeSingleBest translationId (emptyResultText s),
        VERBOSE s 1 trace "NO BEST TRANSLATION\n")) := by
  unfold IOWrapper.OutputBestHypo IOWrapper.writeSingleBest
  cases io.m_singleBestOutputCollector <;> rfl

theorem OutputBestHypo_eq (io : IOWrapper) (s : OutputSettings) (r : Rendering)
    (pr : PhraseRendering) (arena : List ChartHypothesis) (fuel : Nat) (trace : String)
    (hypo : HypoPtr) (h : ChartHypothesis) (translationId : Int)
    (hso : SpanOrdered arena hypo) (hd : deref arena hypo = .ok h)
    (hfuel : h.spanLength < fuel) :
    ∃ trace2, io.OutputBestHypo s r pr arena fuel trace hypo translationId =
      if io.m_surpressSingleBestOutput = true then
        some (.ok (io.writeSingleBest translationId
          (if s.outputHypoScore then r.showScore true h.m_totalScore ++ " " else ""), trace2))
      else if 2 ≤ h.outputPhrase.length then
        match pr.GetStringRep (innerWords h.outputPhrase) s.outputFactorOrder with
        | .error e => some (.error e)
        | .ok output =>
          some (.ok (io.writeSingleBest translationId (scoredResultText s r h output), trace2))
      else some (.error .checkFailed) := by
  cases hypo with
  | none => simp [deref] at hd
  | some a =>
    have hb := fun t => Backtrack_eq s arena (some a) hso h hd fuel hfuel t
    refine ⟨VERBOSE s 3 (VERBOSE s 3 (if 1 ≤ s.verboseLevel then
      trace ++ ("BEST TRANSLATION: " ++ r.showHypo h ++ "\n") else trace) "Best path: " ++
      concat ((derivationNodes arena (some a)).tail.map
        (fun node => VERBOSE s 3 "" (toString node.m_id ++ " <= ")))) "0\n", ?_⟩
    unfold IOWrapper.OutputBestHypo
    simp only [hd, Except.map]
    have hite : (if 1 ≤ s.verboseLevel then
        (Except.ok (trace ++ ("BEST TRANSLATION: " ++ r.showHypo h ++ "\n")) :
          Except Failure String)
        else .ok trace) =
        .ok (if 1 ≤ s.verboseLevel then
          trace ++ ("BEST TRANSLATION: " ++ r.showHypo h ++ "\n") else trace) := by
      split <;> rfl
    rw [hite]
    simp only [hb, removeFirstAndLast_eq]
    obtain ⟨order, sup, tid, dc, nc, sc⟩ := io
    cases sup with
    | true =>
      simp only [if_true, IOWrapper.writeSingleBest]
      cases sc <;> rfl
    | false =>
      simp only [Bool.false_eq_true, if_false]
      by_cases hlen : 2 ≤ h.outputPhrase.length
      · simp only [hlen, if_true]
        cases hg : pr.GetStringRep (innerWords h.outputPhrase) s.outputFactorOrder with
        | error e => rfl
        | ok output =>
          simp only [IOWrapper.writeSingleBest, scoredResultText]
          cases sc <;> cases s.outputHypoScore <;> cases s.pathRecoveryEnabled <;>
            simp only [String.append_assoc, String.empty_append, if_true, if_false,
              Bool.false_eq_true]
      · simp only [hlen, if_false]

theorem scoredResultText_eq_empty_iff (s : OutputSettings) (r : Rendering) (h : ChartHypothesis)
    (output : String) (hblank : ' ' ∉ (r.showScore true h.m_totalScore).data)
    (hzero : r.showScore true h.m_totalScore ≠ "0") :
    scoredResultText s r h output = emptyResultText s ↔
      (s.outputHypoScore = false ∧ s.pathRecoveryEnabled = false ∧ output = "") := by
  have hnl : ("\n" : String).data = ['\n'] := rfl
  have hbar : ("||| " : String).data = ['|', '|', '|', ' '] := rfl
  have hsp : (" " : String).data = [' '] := rfl
  have hz : ("0 " : String).data = ['0', ' '] := rfl
  have he : ("" : String).data = [] := rfl
  unfold scoredResultText emptyResultText
  rw [String.ext_iff]
  cases hs : s.outputHypoScore with
  | false =>
    cases hp : s.pathRecoveryEnabled with
    | false =>
      simp only [Bool.false_eq_true, if_false, String.data_append, hnl, he, List.nil_append,
        true_and]
      constructor
      · intro heq
        have : output.data = [] := by
          have := congrArg List.length heq
          simp at this
          exact List.length_eq_zero.1 this
        exact String.ext this
      · intro heq
        rw [heq]
        rfl
    | true =>
      simp [String.data_append, hnl, he, hbar]
  | true =>
    simp only [if_true, String.data_append, hnl, hsp, hz, Bool.true_eq_false, false_and,
      iff_false]
    intro heq
    cases hsc : (r.showScore true h.m_totalScore).data with
    | nil =>
      rw [hsc] at heq
      simp at heq
    | cons c rest =>
      rw [hsc] at heq hblank
      simp only [List.cons_append, List.append_assoc, List.cons.injEq] at heq
      obtain ⟨hc, hrest⟩ := heq
      cases rest with
      | nil =>
        apply hzero
        apply String.ext
        rw [hsc, hc]
      | cons c2 rest2 =>
        simp only [List.cons_append, List.cons.injEq] at hrest
        apply hblank
        rw [hrest.1]
        simp

/-! ## The cache of target phrase collections -/

theorem RemoveAllInColl_eq :
    ∀ (l released : List Nat),
      RemoveAllInColl released l =
        if l.Nodup ∧ ∀ a ∈ l, a ∉ released then .ok (released ++ l)
        else .error .undefinedBehaviour
  | [], released => by simp [RemoveAllInColl]
  | a :: rest, released => by
    unfold RemoveAllInColl
    by_cases ha : a ∈ released
    · rw [if_pos ha, if_neg]
      intro h
      exact h.2 a (List.mem_cons_self _ _) ha
    · rw [if_neg ha, RemoveAllInColl_eq rest (released ++ [a])]
      by_cases hc : rest.Nodup ∧ ∀ b ∈ rest, b ∉ released ++ [a]
      · rw [if_pos hc, if_pos]
        · simp
        · refine ⟨List.nodup_cons.2 ⟨fun hmem => ?_, hc.1⟩, fun b hb => ?_⟩
          · exact hc.2 a hmem (by simp)
          · rcases List.mem_cons.1 hb with hb | hb
            · rw [hb]
              exact ha
            · exact fun hbr => hc.2 b hb (List.mem_append_left _ hbr)
      · rw [if_neg hc, if_neg]
        intro h
        apply hc
        obtain ⟨hnd, hdis⟩ := h
        rw [List.nodup_cons] at hnd
        refine ⟨hnd.2, fun b hb hbr => ?_⟩
        rcases List.mem_append.1 hbr with hbr | hbr
        · exact hdis b (List.mem_cons_of_mem _ hb) hbr
        · have : b = a := by simpa using hbr
          rw [this] at hb
          exact hnd.1 hb

theorem destructor_eq (c : ChartTranslationOptionCollection) :
    c.destructor =
      if c.m_cacheTargetPhraseCollection.Nodup then .ok c.m_cacheTargetPhraseCollection
      else .error .undefinedBehaviour := by
  unfold ChartTranslationOptionCollection.destructor
  rw [RemoveAllInColl_eq]
  by_cases h : c.m_cacheTargetPhraseCollection.Nodup
  · rw [if_pos h, if_pos ⟨h, fun _ _ hn => by cases hn⟩]
    rfl
  · rw [if_neg h, if_neg (fun hh => h hh.1)]

theorem withFallback_cache (d : Decoder) (c : ChartTranslationOptionCollection) (w : Word)
    (p : Nat) :
    (withFallback d c w p).m_cacheTargetPhraseCollection =
      c.m_cacheTargetPhraseCollection ++ registeredCollections d w c.heap.length := by
  unfold withFallback registeredCollections
  dsimp only
  split <;> rfl

theorem withFallback_heap_length (d : Decoder) (c : ChartTranslationOptionCollection) (w : Word)
    (p : Nat) :
    (withFallback d c w p).heap.length = c.heap.length + createdCollections d w := by
  unfold withFallback createdCollections
  dsimp only
  split <;> simp [ChartTranslationOptionCollection.addOptions]

theorem count_registeredCollections (d : Decoder) (w : Word) (a b : Nat) :
    (registeredCollections d w a).count b =
      if a ≤ b ∧ b < a + createdCollections d w then
        (if takesDropBranch d w then d.staticData.m_unknownLHS.length else 1)
      else 0 := by
  unfold registeredCollections createdCollections
  cases hb : takesDropBranch d w
  · simp only [Bool.false_eq_true, if_false]
    by_cases hr : a ≤ b ∧ b < a + d.staticData.m_unknownLHS.length
    · rw [if_pos hr]
      exact List.count_eq_one_of_mem (List.nodup_range' _ _)
        (List.mem_range'_1.2 hr)
    · rw [if_neg hr]
      exact List.count_eq_zero_of_not_mem (fun hm => hr (List.mem_range'_1.1 hm))
  · simp only [if_true, List.count_replicate]
    by_cases hr : a ≤ b ∧ b < a + 1
    · have : a = b := by omega
      simp [this]
    · rw [if_neg hr]
      have : a ≠ b := by omega
      simp [this]

theorem withFallback_count (d : Decoder) (c : ChartTranslationOptionCollection) (w : Word)
    (p : Nat) (hold : ∀ a ∈ c.m_cacheTargetPhraseCollection, a < c.heap.length) (b : Nat) :
    (withFallback d c w p).m_cacheTargetPhraseCollection.count b =
      if c.heap.length ≤ b ∧ b < (withFallback d c w p).heap.length then
        (if takesDropBranch d w then d.staticData.m_unknownLHS.length else 1)
      else c.m_cacheTargetPhraseCollection.count b := by
  rw [withFallback_cache, withFallback_heap_length, List.count_append,
    count_registeredCollections]
  by_cases hr : c.heap.length ≤ b ∧ b < c.heap.length + createdCollections d w
  · rw [if_pos hr, if_pos hr, List.count_eq_zero_of_not_mem, Nat.zero_add]
    intro hm
    have := hold b hm
    omega
  · rw [if_neg hr, if_neg hr, Nat.add_zero]

/-! ## The weighted score of the fallback phrases -/

/-- The word penalty constant is the `double` literal `-0.434294482` converted
to `float`. -/
theorem wordPenaltyScore_eq :
    wordPenaltyScore = [Score.ofRat (doubleLiteral (-434294482 / 1000000000))] := by decide!

/-- The weighted score of a breakdown holding one unknown-word score and one
word-penalty score, in either order of assignment. -/
theorem GetWeightedScore_two (weights : List (ScoreProducer × List Score))
    (b : ScoreComponentCollection) (u c wu ww : Score)
    (hb : b = [(.unknownWordPenalty, [u]), (.wordPenalty, [c])] ∨
      b = [(.wordPenalty, [c]), (.unknownWordPenalty, [u])])
    (hnd : (weights.map Prod.fst).Nodup)
    (hu : (ScoreProducer.unknownWordPenalty, [wu]) ∈ weights)
    (hw : (ScoreProducer.wordPenalty, [ww]) ∈ weights)
    (hfin : ∀ pw ∈ weights, ∀ x ∈ pw.2, x.isFinite = true) :
    GetWeightedScore weights b = (u.mul wu).add (c.mul ww) := by
  unfold GetWeightedScore
  apply weightedSum_two weights _ u c wu ww _ _ _ hnd hu hw hfin
  · rcases hb with hb | hb <;> subst hb <;>
      simp [ScoreComponentCollection.GetScoresForProducer]
  · rcases hb with hb | hb <;> subst hb <;>
      simp [ScoreComponentCollection.GetScoresForProducer]
  · intro q h1 h2
    have hb1 : (ScoreProducer.unknownWordPenalty == q) = false :=
      beq_eq_false_iff_ne.2 (Ne.symm h1)
    have hb2 : (ScoreProducer.wordPenalty == q) = false :=
      beq_eq_false_iff_ne.2 (Ne.symm h2)
    rcases hb with hb | hb <;> subst hb <;>
      simp [ScoreComponentCollection.GetScoresForProducer, List.find?, hb1, hb2]

/-- The weighted score of a breakdown holding the unknown-word score only. -/
theorem GetWeightedScore_one (weights : List (ScoreProducer × List Score)) (u wu : Score)
    (hnd : (weights.map Prod.fst).Nodup)
    (hu : (ScoreProducer.unknownWordPenalty, [wu]) ∈ weights)
    (hfin : ∀ pw ∈ weights, ∀ x ∈ pw.2, x.isFinite = true) :
    GetWeightedScore weights [(.unknownWordPenalty, [u])] = u.mul wu := by
  unfold GetWeightedScore
  apply weightedSum_one weights _ u wu _ _ hnd hu hfin
  · simp [ScoreComponentCollection.GetScoresForProducer]
  · intro q h1
    have hb1 : (ScoreProducer.unknownWordPenalty == q) = false :=
      beq_eq_false_iff_ne.2 (Ne.symm h1)
    simp [ScoreComponentCollection.GetScoresForProducer, List.find?, hb1]

theorem getScores_assign_fun (b : ScoreComponentCollection) (producer : ScoreProducer)
    (scores : List Score) :
    (b.Assign producer scores).GetScoresForProducer =
      fun q => if q = producer then some scores else b.GetScoresForProducer q := by
  funext q
  by_cases hq : q = producer
  · rw [if_pos hq, hq]
    exact getScores_assign b producer scores
  · rw [if_neg hq]
    exact getScores_assign_ne b producer q scores hq

/-! ## The checked rule lookups -/

/-- C1 as stated fails: on the middle word of a three-word sentence whose
strict lookup is empty and whose relaxed lookup returns one option, without
the always-fallback policy, no fallback option is synthesized (no source
phrase is recorded), and yet the list after the fallback step is not the
list of the strict lookups: it holds the option of the relaxed lookup, which
was made. -/
theorem C1_counterexample :
    ∃ c1 c2,
      strictLookups relaxedDecoder (ChartTranslationOptionCollection.new relaxedDecoder) 1 1 =
        .ok c1 ∧
      ProcessUnknownWord relaxedDecoder c1 1 1 = .ok c2 ∧
      c2.m_unksrcs = [] ∧
      c1.optionsAt 1 1 = [] ∧
      c2.optionsAt 1 1 = [exampleOption ⟨1, 1⟩ (.fin 0)] ∧
      c2.lookupLog = [⟨0, ⟨1, 1⟩, true⟩, ⟨0, ⟨1, 1⟩, false⟩] :=
  ⟨withStrictLookups relaxedDecoder (ChartTranslationOptionCollection.new relaxedDecoder) 1 1,
    withRelaxedLookups relaxedDecoder
      (withStrictLookups relaxedDecoder (ChartTranslationOptionCollection.new relaxedDecoder) 1 1)
      1,
    by decide, by decide, by decide, by decide, by decide, by decide⟩

/-- C1 (amended): on a span `(start, end)` of the sentence, after the strict
lookups, `ProcessUnknownWord` runs the unknown-word fallback (it records the
source word in `m_unksrcs` and appends one option per configured label)
exactly when the span is an interior singleton and its list is empty after
the strict and relaxed lookups or the always-fallback policy is set. When
the span is not an interior singleton the collection after the fallback step
is the one the strict lookups left: no option added, no relaxed lookup. When
it is an interior singleton without fallback, the collection is the one after
the relaxed lookups, which are made when the strict lookups gave nothing. -/
theorem C1_fallback_trigger (d : Decoder) (c : ChartTranslationOptionCollection)
    (startPos endPos : Nat) (hv : d.Valid) (hwf : c.WellFormed d.m_source.length)
    (hse : startPos ≤ endPos) (hen : endPos < d.m_source.length) :
    ∃ c1 c2 w, strictLookups d c startPos endPos = .ok c1 ∧
      ProcessUnknownWord d c1 startPos endPos = .ok c2 ∧
      CreateTranslationOptionsForRange d c startPos endPos =
        SortRange (Prune d c2 startPos endPos) startPos endPos ∧
      d.m_source[startPos]? = some w ∧
      c1.m_unksrcs = c.m_unksrcs ∧
      (interiorSingleton d startPos endPos →
        ((withRelaxedLookups d c1 startPos).optionsAt startPos endPos =
          if c1.optionsAt startPos endPos = [] then
            relaxedOptions ⟨startPos, endPos⟩ d.m_ruleLookupManagers
          else c1.optionsAt startPos endPos) ∧
        (c1.optionsAt startPos endPos ≠ [] → withRelaxedLookups d c1 startPos = c1)) ∧
      ((interiorSingleton d startPos endPos ∧
          ((withRelaxedLookups d c1 startPos).optionsAt startPos endPos = [] ∨
            d.staticData.m_isAlwaysCreateDirectTranslationOption = true)) →
        c2.m_unksrcs = c1.m_unksrcs ++ [[w]] ∧
        c2.lookupLog = (withRelaxedLookups d c1 startPos).lookupLog ∧
        (fallbackOptions d w ⟨startPos, endPos⟩ c1.heap.length).length =
          d.staticData.m_unknownLHS.length ∧
        c2.optionsAt startPos endPos =
          (withRelaxedLookups d c1 startPos).optionsAt startPos endPos ++
            fallbackOptions d w ⟨startPos, endPos⟩ c1.heap.length) ∧
      ((interiorSingleton d startPos endPos ∧
          ¬ ((withRelaxedLookups d c1 startPos).optionsAt startPos endPos = [] ∨
            d.staticData.m_isAlwaysCreateDirectTranslationOption = true)) →
        c2 = withRelaxedLookups d c1 startPos ∧ c2.m_unksrcs = c1.m_unksrcs) ∧
      (¬ interiorSingleton d startPos endPos → c2 = c1) := by
  have hstrict := strictLookups_eq d c startPos endPos hv hwf hse hen
  have hv2 := hv
  obtain ⟨hn, hlen, hsize, hlab, hfac⟩ := hv
  have hpos : 0 < d.m_source.length := by omega
  obtain ⟨l, hget, hr⟩ := getList_of_wellFormed hwf hn hse hen
  have hget1 := withStrictLookups_getList d hget
  have hs : startPos < d.m_source.length := by omega
  have hw : d.m_source[startPos]? = some d.m_source[startPos] := List.getElem?_eq_getElem hs
  by_cases hint : interiorSingleton d startPos endPos
  · have hse2 : startPos = endPos := hint.1
    subst hse2
    have hint2 := hint
    have hPU := ProcessUnknownWord_interior d (withStrictLookups d c startPos startPos) startPos
      _ hn hpos hlen hget1 hr hint
    have hopt := withRelaxedLookups_optionsAt d _ startPos _ hget1
    obtain ⟨l2, hget2, hr2⟩ := withRelaxedLookups_range d _ startPos _ hget1
    have hsame : (withStrictLookups d c startPos startPos).optionsAt startPos startPos ≠ [] →
        withRelaxedLookups d (withStrictLookups d c startPos startPos) startPos =
          withStrictLookups d c startPos startPos := by
      intro hne
      unfold withRelaxedLookups
      rw [if_neg hne]
    by_cases htrig : (withRelaxedLookups d (withStrictLookups d c startPos startPos)
        startPos).optionsAt startPos startPos = [] ∨
        d.staticData.m_isAlwaysCreateDirectTranslationOption = true
    · rw [if_pos htrig] at hPU
      have hAt := ProcessUnknownWordAt_eq d _ _ startPos l2 hv2 hw hget2 (hr2.trans hr)
      rw [hAt] at hPU
      refine ⟨_, _, _, hstrict, hPU, ?_, hw, rfl, fun _ => ⟨hopt, hsame⟩, ?_, ?_, ?_⟩
      · unfold CreateTranslationOptionsForRange
        rw [hstrict]
        simp only [bind, Except.bind, hPU]
      · intro _
        refine ⟨?_, ?_, fallbackOptions_length _ _ _ _, ?_⟩
        · rw [withFallback_unksrcs]
          congr 1
          unfold withRelaxedLookups
          split <;> rfl
        · rw [withFallback_lookupLog]
        · rw [optionsAt_of_getList (withFallback_getList d _ hget2),
            optionsAt_of_getList hget2]
          have hheap : (withRelaxedLookups d (withStrictLookups d c startPos startPos)
              startPos).heap = (withStrictLookups d c startPos startPos).heap := by
            unfold withRelaxedLookups
            split <;> rfl
          rw [hheap]
          rfl
      · intro h
        exact absurd htrig h.2
      · intro h
        exact absurd hint h
    · rw [if_neg htrig] at hPU
      refine ⟨_, _, _, hstrict, hPU, ?_, hw, rfl, fun _ => ⟨hopt, hsame⟩, ?_, ?_, ?_⟩
      · unfold CreateTranslationOptionsForRange
        rw [hstrict]
        simp only [bind, Except.bind, hPU]
      · intro h
        exact absurd h.2 htrig
      · intro _
        refine ⟨rfl, ?_⟩
        unfold withRelaxedLookups
        split <;> rfl
      · intro h
        exact absurd hint h
  · have hPU := ProcessUnknownWord_other d (withStrictLookups d c startPos endPos) startPos
      endPos hn hpos hint
    refine ⟨_, _, _, hstrict, hPU, ?_, hw, rfl, ?_, ?_, ?_, ?_⟩
    · unfold CreateTranslationOptionsForRange
      rw [hstrict]
      simp only [bind, Except.bind, hPU]
    · intro h
      exact absurd h hint
    · intro h
      exact absurd h.1 hint
    · intro h
      exact absurd h.1 hint
    · intro _
      rfl

/-- C1, on the middle word of a three-word sentence with no rule and one
fallback label: the span `(1, 1)` is an interior singleton, its list is
empty after the lookups, and the fallback adds one option. -/
theorem C1_fallback_trigger_witness :
    passDecoder.Valid ∧
    (ChartTranslationOptionCollection.new passDecoder).WellFormed passDecoder.m_source.length ∧
    1 ≤ 1 ∧
    1 < passDecoder.m_source.length ∧
    ∃ c1 c2 w, strictLookups passDecoder (ChartTranslationOptionCollection.new passDecoder) 1 1 =
        .ok c1 ∧
      ProcessUnknownWord passDecoder c1 1 1 = .ok c2 ∧
      CreateTranslationOptionsForRange passDecoder
        (ChartTranslationOptionCollection.new passDecoder) 1 1 =
        SortRange (Prune passDecoder c2 1 1) 1 1 ∧
      passDecoder.m_source[1]? = some w :=
  ⟨by decide, by decide, by decide, by decide,
    match C1_fallback_trigger passDecoder (ChartTranslationOptionCollection.new passDecoder) 1 1
      (by decide) (by decide) (by decide) (by decide) with
    | ⟨c1, c2, w, h1, h2, h3, h4, _⟩ => ⟨c1, c2, w, h1, h2, h3, h4⟩⟩

/-- C2 as stated fails: with two fallback labels, the drop policy, the word
`abc` and no rule, the list of the interior singleton span `(1, 1)` holds two
options, not one. -/
theorem C2_counterexample :
    dropDecoder.staticData.m_dropUnknown = true ∧
    dropDecoder.m_source[1]? = some (exampleWord "abc") ∧
    containsDigit "abc" = false ∧
    (CreateTranslationOptionsForRange dropDecoder
        (ChartTranslationOptionCollection.new dropDecoder) 1 1).map
      (fun c3 => (c3.optionsAt 1 1).length) = .ok 2 := by
  decide

/-- C2 (amended): for an interior singleton span `(p, p)` whose list is empty
and for which no lookup returns an option, under the drop policy and for a
word whose surface string has no digit, `CreateTranslationOptionsForRange`
returns and the list holds exactly one option per configured fallback label
(so exactly one when one label is configured); each of them points to the
one phrase of the drop branch, which has no word and carries the
unknown-word score `FloorScore(-infinity)`. -/
theorem C2_drop_options (d : Decoder) (c : ChartTranslationOptionCollection) (p : Nat)
    (sourceWord : Word) (s : String) (hv : d.Valid) (hwf : c.WellFormed d.m_source.length)
    (h0 : 0 < p) (hp : p + 1 < d.m_source.length)
    (hempty : c.optionsAt p p = [])
    (hnone : ∀ m ∈ d.m_ruleLookupManagers, ∀ adhere, m.lookup ⟨p, p⟩ adhere = [])
    (hdrop : d.staticData.m_dropUnknown = true)
    (hword : d.m_source[p]? = some sourceWord)
    (hs : sourceWord.GetFactor 0 = some s) (hdig : containsDigit s = false) :
    ∃ c3, CreateTranslationOptionsForRange d c p p = .ok c3 ∧
      (c3.optionsAt p p).length = d.staticData.m_unknownLHS.length ∧
      ∀ o ∈ c3.optionsAt p p, ∃ tp, c3.targetPhrases o = [tp] ∧ tp.words = [] ∧
        tp.m_scoreBreakdown.GetScoresForProducer .unknownWordPenalty =
          some [d.helpers.FloorScore .negInf] := by
  have hn := hv.1
  obtain ⟨w, l2, hw, _, _, hget2, _, hcreate⟩ :=
    CreateTranslationOptionsForRange_eq d c p p hv hwf (le_refl p) (by omega)
  rw [hword] at hw
  cases hw
  obtain ⟨l, hget, hr⟩ := getList_of_wellFormed hwf hn (le_refl p) (by omega : p < _)
  have hl : l.m_collection = [] := by rw [← optionsAt_of_getList hget]; exact hempty
  have hget1 := withStrictLookups_getList d hget
  have hstrictNil := strictOptions_nil ⟨p, p⟩ p p d.m_decodeGraphList d.m_ruleLookupManagers
    fun m hm => hnone m hm true
  have hrelNil := relaxedOptions_nil ⟨p, p⟩ d.m_ruleLookupManagers fun m hm => hnone m hm false
  obtain ⟨lR, hgetR, _⟩ := withRelaxedLookups_range d _ p _ hget1
  have hoptR : (withRelaxedLookups d (withStrictLookups d c p p) p).optionsAt p p = [] := by
    rw [withRelaxedLookups_optionsAt d _ p _ hget1, optionsAt_of_getList hget1]
    simp [ChartTranslationOptionList.append, hl, hstrictNil, hrelNil]
  have hlR : lR.m_collection = [] := by rw [← optionsAt_of_getList hgetR]; exact hoptR
  have hint : interiorSingleton d p p := ⟨rfl, by omega, by omega⟩
  have hbranch : takesDropBranch d sourceWord = true := by
    simp [takesDropBranch, hdrop, hs, hdig]
  have hafter : afterUnknownWord d (withStrictLookups d c p p) p p sourceWord =
      withFallback d (withRelaxedLookups d (withStrictLookups d c p p) p) sourceWord p := by
    unfold afterUnknownWord
    rw [if_pos hint, if_pos (Or.inl hoptR)]
  rw [hafter] at hget2 hcreate
  have hgetF := withFallback_getList d sourceWord hgetR
  rw [hgetF] at hget2
  injection hget2 with hl2
  have hopts : l2.m_collection = fallbackOptions d sourceWord ⟨p, p⟩
      (withStrictLookups d c p p).heap.length := by
    rw [← hl2, ← withRelaxedLookups_heap d (withStrictLookups d c p p) p]
    simp [ChartTranslationOptionList.append, hlR]
  have hc3 : ((withFallback d (withRelaxedLookups d (withStrictLookups d c p p) p) sourceWord
      p).setList p p l2.SortList).optionsAt p p =
      l2.m_collection.insertionSort ChartTranslationOptionOrderer :=
    optionsAt_of_getList (getList_setList hgetF _)
  refine ⟨_, hcreate, ?_, ?_⟩
  · rw [hc3, List.length_insertionSort, hopts, fallbackOptions_length]
  · intro o ho
    rw [hc3] at ho
    have ho2 : o ∈ l2.m_collection := (List.perm_insertionSort _ _).mem_iff.1 ho
    rw [hopts] at ho2
    unfold fallbackOptions at ho2
    rw [if_pos hbranch] at ho2
    obtain ⟨hcached, _, _⟩ := mem_dropOptions _ _ _ _ _ _ _ _ _ ho2
    have hne : d.staticData.m_unknownLHS ≠ [] := by
      intro hnil
      rw [hnil] at ho2
      simp [dropOptions] at ho2
    refine ⟨_, ?_, foldl_dropPhrase_words d [sourceWord] [d.helpers.FloorScore .negInf]
        d.staticData.m_unknownLHS TargetPhrase.new,
      foldl_dropPhrase_score d [sourceWord] [d.helpers.FloorScore .negInf]
        d.staticData.m_unknownLHS TargetPhrase.new hne⟩
    unfold ChartTranslationOptionCollection.targetPhrases
    rw [hcached]
    show (withFallback d (withRelaxedLookups d (withStrictLookups d c p p) p) sourceWord
      p).heap.getD _ [] = _
    rw [withFallback_heap_drop d _ sourceWord p hbranch, withRelaxedLookups_heap]
    exact getD_append_length _ _ []

/-- C2, with one fallback label: the list of `(1, 1)` holds one option. -/
theorem C2_drop_options_witness :
    dropOneLabelDecoder.Valid ∧
    (ChartTranslationOptionCollection.new dropOneLabelDecoder).WellFormed
      dropOneLabelDecoder.m_source.length ∧
    0 < 1 ∧
    1 + 1 < dropOneLabelDecoder.m_source.length ∧
    (ChartTranslationOptionCollection.new dropOneLabelDecoder).optionsAt 1 1 = [] ∧
    (∀ m ∈ dropOneLabelDecoder.m_ruleLookupManagers, ∀ adhere, m.lookup ⟨1, 1⟩ adhere = []) ∧
    dropOneLabelDecoder.staticData.m_dropUnknown = true ∧
    dropOneLabelDecoder.m_source[1]? = some (exampleWord "abc") ∧
    (exampleWord "abc").GetFactor 0 = some "abc" ∧
    containsDigit "abc" = false ∧
    ∃ c3, CreateTranslationOptionsForRange dropOneLabelDecoder
        (ChartTranslationOptionCollection.new dropOneLabelDecoder) 1 1 = .ok c3 ∧
      (c3.optionsAt 1 1).length = 1 :=
  ⟨by decide, by decide, by decide, by decide, by decide, by decide, by decide, by decide,
    by decide, by decide,
    match C2_drop_options dropOneLabelDecoder
      (ChartTranslationOptionCollection.new dropOneLabelDecoder) 1 (exampleWord "abc") "abc"
      (by decide) (by decide) (by decide) (by decide) (by decide) (by decide) (by decide)
      (by decide) (by decide) (by decide) with
    | ⟨c3, h1, h2, _⟩ => ⟨c3, h1, h2⟩⟩

/-- C3: when `ProcessOneUnknownWord` takes the pass-through branch (the drop
policy is off, or the surface string of the word contains a digit) for the
word at position `p`, with `k` configured fallback labels, it returns and the
list of span `(p, p)` is the former list followed by exactly `k` new options,
one per label in configuration order; the target phrase collection of the
`i`-th new option holds one phrase whose left-hand side is built from the
`i`-th label, whose words are the one word `CreateUnknownWord(sourceWord)`,
and whose source phrase is the source word. -/
theorem C3_pass_through_options (d : Decoder) (c : ChartTranslationOptionCollection)
    (sourceWord : Word) (p : Nat) (hwf : c.WellFormed d.m_source.length)
    (hn : d.m_source.length < 2 ^ 64) (hp : p < d.m_source.length)
    (hlab : labelsHaveFactor d d.staticData.m_unknownLHS)
    (hbranch : d.staticData.m_dropUnknown = false ∨
      ∃ s, sourceWord.GetFactor 0 = some s ∧ containsDigit s = true) :
    ∃ c2 new, ProcessOneUnknownWord d c sourceWord p = .ok c2 ∧
      c2.optionsAt p p = c.optionsAt p p ++ new ∧
      new.length = d.staticData.m_unknownLHS.length ∧
      ∀ (i : Nat) (entry : String × Score), d.staticData.m_unknownLHS[i]? = some entry →
        ∃ o tp, new[i]? = some o ∧ c2.targetPhrases o = [tp] ∧
          tp.m_targetLHS = some (d.helpers.CreateFromString entry.1 true) ∧
          tp.words = [d.helpers.CreateUnknownWord sourceWord] ∧
          tp.m_sourcePhrase = some [sourceWord] := by
  obtain ⟨l, hget, _⟩ := getList_of_wellFormed hwf hn (le_refl p) hp
  refine ⟨_, passThroughOptions d sourceWord [sourceWord]
      (unknownWordDottedRule (d.m_hypoStackColl l.m_range)) l.m_range c.heap.length
      d.staticData.m_unknownLHS,
    ProcessOneUnknownWord_passThrough d c sourceWord p l hget hbranch hlab, ?_,
    passThroughOptions_length _ _ _ _ _ _ _, ?_⟩
  · exact (optionsAt_congr _ (c.addOptions p p _) rfl p p).trans (optionsAt_addOptions hget _)
  · intro i entry hentry
    refine ⟨⟨.cached (c.heap.length + i), unknownWordDottedRule (d.m_hypoStackColl l.m_range),
        l.m_range, d.helpers.CalcEstimateOfBestScore
          [passThroughPhrase d sourceWord [sourceWord] entry]
          (unknownWordDottedRule (d.m_hypoStackColl l.m_range)) l.m_range⟩,
      passThroughPhrase d sourceWord [sourceWord] entry, ?_, ?_, rfl, rfl, rfl⟩
    · rw [passThroughOptions_getElem?, hentry]
      rfl
    · exact getD_append_map c.heap d.staticData.m_unknownLHS
        (fun entry => [passThroughPhrase d sourceWord [sourceWord] entry]) i entry [] hentry

/-- C3, for the word `abc1` under the drop policy with two labels: two
options are appended. -/
theorem C3_pass_through_options_witness :
    (ChartTranslationOptionCollection.new dropDecoder).WellFormed dropDecoder.m_source.length ∧
    dropDecoder.m_source.length < 2 ^ 64 ∧
    1 < dropDecoder.m_source.length ∧
    labelsHaveFactor dropDecoder dropDecoder.staticData.m_unknownLHS ∧
    (exampleWord "abc1").GetFactor 0 = some "abc1" ∧
    containsDigit "abc1" = true ∧
    ∃ c2 new, ProcessOneUnknownWord dropDecoder (ChartTranslationOptionCollection.new dropDecoder)
        (exampleWord "abc1") 1 = .ok c2 ∧
      c2.optionsAt 1 1 = (ChartTranslationOptionCollection.new dropDecoder).optionsAt 1 1 ++ new ∧
      new.length = dropDecoder.staticData.m_unknownLHS.length :=
  ⟨by decide, by decide, by decide, by decide, by decide, by decide,
    match C3_pass_through_options dropDecoder (ChartTranslationOptionCollection.new dropDecoder)
      (exampleWord "abc1") 1 (by decide) (by decide) (by decide) (by decide)
      (Or.inr ⟨"abc1", by decide, by decide⟩) with
    | ⟨c2, new, h1, h2, h3, _⟩ => ⟨c2, new, h1, h2, h3⟩⟩

/-- C4: in every call of `ProcessOneUnknownWord` on a word with surface
string `s` exactly one branch runs. If the drop policy is set and `s` has no
digit, it is the drop branch: one target phrase collection is allocated, one
dotted rule list per label, and every added option points to a phrase
without words. Otherwise it is the pass-through branch: one dotted rule list,
one collection per label, and every added option points to a phrase whose
only word is the unknown word made from the source word. Having a digit means
holding one of the characters `0` to `9`. -/
theorem C4_branches_exclusive (d : Decoder) (c : ChartTranslationOptionCollection)
    (sourceWord : Word) (p : Nat) (s : String) (hwf : c.WellFormed d.m_source.length)
    (hn : d.m_source.length < 2 ^ 64) (hp : p < d.m_source.length)
    (hlab : labelsHaveFactor d d.staticData.m_unknownLHS)
    (hs : sourceWord.GetFactor 0 = some s) :
    (containsDigit s = true ↔ ∃ ch ∈ s.data, ch ∈ "0123456789".data) ∧
    ∃ c2 new, ProcessOneUnknownWord d c sourceWord p = .ok c2 ∧
      c2.optionsAt p p = c.optionsAt p p ++ new ∧
      new.length = d.staticData.m_unknownLHS.length ∧
      ((d.staticData.m_dropUnknown = true ∧ containsDigit s = false) →
        c2.heap.length = c.heap.length + 1 ∧
        c2.m_dottedRuleCache.length =
          c.m_dottedRuleCache.length + d.staticData.m_unknownLHS.length ∧
        ∀ o ∈ new, ∃ tp, c2.targetPhrases o = [tp] ∧ tp.words = []) ∧
      (¬ (d.staticData.m_dropUnknown = true ∧ containsDigit s = false) →
        c2.heap.length = c.heap.length + d.staticData.m_unknownLHS.length ∧
        c2.m_dottedRuleCache.length = c.m_dottedRuleCache.length + 1 ∧
        ∀ o ∈ new, ∃ tp, c2.targetPhrases o = [tp] ∧
          tp.words = [d.helpers.CreateUnknownWord sourceWord]) := by
  refine ⟨containsDigit_iff s, ?_⟩
  obtain ⟨l, hget, _⟩ := getList_of_wellFormed hwf hn (le_refl p) hp
  by_cases hdrop : d.staticData.m_dropUnknown = true ∧ containsDigit s = false
  · refine ⟨_, dropOptions d [sourceWord] [d.helpers.FloorScore .negInf]
        (unknownWordDottedRule (d.m_hypoStackColl l.m_range)) l.m_range c.heap.length
        d.staticData.m_unknownLHS TargetPhrase.new,
      ProcessOneUnknownWord_drop d c sourceWord p l s hget hdrop.1 hs hdrop.2 hlab, ?_,
      dropOptions_length _ _ _ _ _ _ _ _, ?_, fun h => absurd hdrop h⟩
    · exact (optionsAt_congr _ (c.addOptions p p _) rfl p p).trans (optionsAt_addOptions hget _)
    · intro _
      refine ⟨by simp, by simp, ?_⟩
      intro o ho
      obtain ⟨hc, _, _⟩ := mem_dropOptions _ _ _ _ _ _ _ _ _ ho
      refine ⟨_, ?_, foldl_dropPhrase_words d [sourceWord] [d.helpers.FloorScore .negInf]
        d.staticData.m_unknownLHS TargetPhrase.new⟩
      unfold ChartTranslationOptionCollection.targetPhrases
      rw [hc]
      exact getD_append_length c.heap _ []
  · have hbranch : d.staticData.m_dropUnknown = false ∨
        ∃ s, sourceWord.GetFactor 0 = some s ∧ containsDigit s = true := by
      cases h1 : d.staticData.m_dropUnknown
      · exact Or.inl rfl
      · right
        refine ⟨s, hs, ?_⟩
        cases h2 : containsDigit s
        · exact absurd ⟨h1, h2⟩ hdrop
        · rfl
    refine ⟨_, passThroughOptions d sourceWord [sourceWord]
        (unknownWordDottedRule (d.m_hypoStackColl l.m_range)) l.m_range c.heap.length
        d.staticData.m_unknownLHS,
      ProcessOneUnknownWord_passThrough d c sourceWord p l hget hbranch hlab, ?_,
      passThroughOptions_length _ _ _ _ _ _ _, fun h => absurd h hdrop, ?_⟩
    · exact (optionsAt_congr _ (c.addOptions p p _) rfl p p).trans (optionsAt_addOptions hget _)
    · intro _
      refine ⟨by simp, by simp, ?_⟩
      intro o ho
      obtain ⟨i, entry, hentry, hc, _, _⟩ := mem_passThroughOptions _ _ _ _ _ _ _ _ ho
      refine ⟨passThroughPhrase d sourceWord [sourceWord] entry, ?_, rfl⟩
      unfold ChartTranslationOptionCollection.targetPhrases
      rw [hc]
      exact getD_append_map c.heap d.staticData.m_unknownLHS
        (fun entry => [passThroughPhrase d sourceWord [sourceWord] entry]) i entry [] hentry

/-- C4, under the drop policy with two labels: the word `abc` is dropped
(the options added have no target word) and the word `abc1` is passed
through (the options added have one target word). -/
theorem C4_branches_exclusive_witness :
    (ChartTranslationOptionCollection.new dropDecoder).WellFormed dropDecoder.m_source.length ∧
    dropDecoder.m_source.length < 2 ^ 64 ∧
    1 < dropDecoder.m_source.length ∧
    labelsHaveFactor dropDecoder dropDecoder.staticData.m_unknownLHS ∧
    (exampleWord "abc").GetFactor 0 = some "abc" ∧
    (exampleWord "abc1").GetFactor 0 = some "abc1" ∧
    containsDigit "abc" = false ∧
    containsDigit "abc1" = true ∧
    (∃ (c2 : ChartTranslationOptionCollection) (new : List ChartTranslationOption),
      ProcessOneUnknownWord dropDecoder (ChartTranslationOptionCollection.new dropDecoder)
        (exampleWord "abc") 1 = .ok c2 ∧
      new.length = dropDecoder.staticData.m_unknownLHS.length ∧
      ∀ o ∈ new, ∃ tp, c2.targetPhrases o = [tp] ∧ tp.words = []) ∧
    (∃ (c2 : ChartTranslationOptionCollection) (new : List ChartTranslationOption),
      ProcessOneUnknownWord dropDecoder (ChartTranslationOptionCollection.new dropDecoder)
        (exampleWord "abc1") 1 = .ok c2 ∧
      new.length = dropDecoder.staticData.m_unknownLHS.length ∧
      ∀ o ∈ new, ∃ tp, c2.targetPhrases o = [tp] ∧
        tp.words = [dropDecoder.helpers.CreateUnknownWord (exampleWord "abc1")]) :=
  ⟨by decide, by decide, by decide, by decide, by decide, by decide, by decide, by decide,
    match (C4_branches_exclusive dropDecoder (ChartTranslationOptionCollection.new dropDecoder)
      (exampleWord "abc") 1 "abc" (by decide) (by decide) (by decide) (by decide)
      (by decide)).2 with
    | ⟨c2, new, h1, _, h3, h4, _⟩ => ⟨c2, new, h1, h3, (h4 ⟨by decide, by decide⟩).2.2⟩,
    match (C4_branches_exclusive dropDecoder (ChartTranslationOptionCollection.new dropDecoder)
      (exampleWord "abc1") 1 "abc1" (by decide) (by decide) (by decide) (by decide)
      (by decide)).2 with
    | ⟨c2, new, h1, _, h3, _, h5⟩ => ⟨c2, new, h1, h3, (h5 (by decide)).2.2⟩⟩

/-- C5: on a span `(start, end)` of the sentence the strict phase of
`CreateTranslationOptionsForRange` succeeds; grouping `i` is asked (strict
lookup, on this range) exactly when its maximum span is `0` or at least the
span length `end - start + 1`; the span's list receives, after what it held,
the results of the permitted groupings in grouping order, and a grouping
that is not permitted contributes nothing. -/
theorem C5_strict_lookups (d : Decoder) (c : ChartTranslationOptionCollection)
    (startPos endPos : Nat) (hv : d.Valid) (hwf : c.WellFormed d.m_source.length)
    (hse : startPos ≤ endPos) (hen : endPos < d.m_source.length) :
    ∃ c1, strictLookups d c startPos endPos = .ok c1 ∧
      c1.optionsAt startPos endPos = c.optionsAt startPos endPos ++
        ((List.zip d.m_decodeGraphList d.m_ruleLookupManagers).flatMap fun gm =>
          if gm.1.GetMaxChartSpan = 0 ∨ endPos - startPos + 1 ≤ gm.1.GetMaxChartSpan then
            gm.2.lookup ⟨startPos, endPos⟩ true
          else []) ∧
      (∃ calls, c1.lookupLog = c.lookupLog ++ calls ∧
        ∀ i range adhere, (⟨i, range, adhere⟩ : LookupCall) ∈ calls ↔
          range = ⟨startPos, endPos⟩ ∧ adhere = true ∧
          ∃ g, d.m_decodeGraphList[i]? = some g ∧
            (g.GetMaxChartSpan = 0 ∨ endPos - startPos + 1 ≤ g.GetMaxChartSpan)) ∧
      CreateTranslationOptionsForRange d c startPos endPos =
        (ProcessUnknownWord d c1 startPos endPos >>= fun c2 =>
          SortRange (Prune d c2 startPos endPos) startPos endPos) := by
  have hstrict := strictLookups_eq d c startPos endPos hv hwf hse hen
  obtain ⟨hn, hlen, hsize, _, _⟩ := hv
  obtain ⟨l, hget, hr⟩ := getList_of_wellFormed hwf hn hse hen
  refine ⟨withStrictLookups d c startPos endPos, hstrict, ?_, ?_, ?_⟩
  · rw [optionsAt_of_getList (withStrictLookups_getList d hget), optionsAt_of_getList hget,
      strictOptions_eq_flatMap]
    rfl
  · refine ⟨strictCalls ⟨startPos, endPos⟩ startPos endPos d.m_decodeGraphList
      d.m_ruleLookupManagers 0, rfl, ?_⟩
    intro i range adhere
    rw [mem_strictCalls _ _ _ _ _ _ _ hlen]
    constructor
    · rintro ⟨j, g, hc, hg, hp⟩
      simp only [LookupCall.mk.injEq, Nat.zero_add] at hc
      obtain ⟨hi, hrange, hadh⟩ := hc
      subst hi
      exact ⟨hrange, hadh, g, hg, hp⟩
    · rintro ⟨hrange, hadh, g, hg, hp⟩
      exact ⟨i, g, by simp [hrange, hadh], hg, hp⟩
  · unfold CreateTranslationOptionsForRange
    rw [hstrict]
    rfl

/-- C5, on the span `(0, 1)` of a three-word sentence with two groupings: the
first, limited to one word, is not asked; the second, without limit, is. -/
theorem C5_strict_lookups_witness :
    twoGroupingDecoder.Valid ∧
    (ChartTranslationOptionCollection.new twoGroupingDecoder).WellFormed
      twoGroupingDecoder.m_source.length ∧
    0 ≤ 1 ∧
    1 < twoGroupingDecoder.m_source.length ∧
    (strictLookups twoGroupingDecoder
        (ChartTranslationOptionCollection.new twoGroupingDecoder) 0 1).map
      (fun c1 => (c1.optionsAt 0 1, c1.lookupLog)) =
        .ok ([exampleOption ⟨0, 1⟩ .negInf], [⟨1, ⟨0, 1⟩, true⟩]) ∧
    ∃ c1, strictLookups twoGroupingDecoder
        (ChartTranslationOptionCollection.new twoGroupingDecoder) 0 1 = .ok c1 ∧
      CreateTranslationOptionsForRange twoGroupingDecoder
        (ChartTranslationOptionCollection.new twoGroupingDecoder) 0 1 =
        (ProcessUnknownWord twoGroupingDecoder c1 0 1 >>= fun c2 =>
          SortRange (Prune twoGroupingDecoder c2 0 1) 0 1) :=
  ⟨by decide, by decide, by decide, by decide, by decide,
    match C5_strict_lookups twoGroupingDecoder
      (ChartTranslationOptionCollection.new twoGroupingDecoder) 0 1
      (by decide) (by decide) (by decide) (by decide) with
    | ⟨c1, h1, _, _, h4⟩ => ⟨c1, h1, h4⟩⟩

/-- C6: over a sentence of `n` words the constructor makes `n - start` lists for
each `start < n`; `GetTranslationOptionList(start, end)` returns the (empty)
list of range `(start, end)` when `start <= end < n`; for `start < n` and any
other `end` (in particular `end < start`, where `end - start` wraps) the
`CHECK` fails; for `start >= n` no `CHECK` is reached: the row is indexed
past the end of the vector, an unguarded access. -/
theorem C6_getTranslationOptionList (d : Decoder) (startPos endPos : Nat)
    (hn : d.m_source.length < 2 ^ 64) (he : endPos < 2 ^ 64) :
    (ChartTranslationOptionCollection.new d).m_collection.map List.length =
      (List.range d.m_source.length).map (fun s => d.m_source.length - s) ∧
    (startPos ≤ endPos ∧ endPos < d.m_source.length →
      (ChartTranslationOptionCollection.new d).GetTranslationOptionList startPos endPos =
        .ok ⟨⟨startPos, endPos⟩, []⟩) ∧
    (startPos < d.m_source.length → ¬ (startPos ≤ endPos ∧ endPos < d.m_source.length) →
      (ChartTranslationOptionCollection.new d).GetTranslationOptionList startPos endPos =
        .error .checkFailed) ∧
    (d.m_source.length ≤ startPos →
      (ChartTranslationOptionCollection.new d).GetTranslationOptionList startPos endPos =
        .error .undefinedBehaviour) := by
  refine ⟨?_, ?_, ?_, ?_⟩
  · simp [ChartTranslationOptionCollection.new, List.map_map, Function.comp_def]
  · rintro ⟨hse, hen⟩
    obtain ⟨l, hget, hr⟩ := getList_of_wellFormed (wellFormed_new d) hn hse hen
    have hopt := new_optionsAt d startPos endPos
    rw [optionsAt_of_getList hget] at hopt
    rw [hget]
    congr 1
    cases l
    simp only at hr hopt
    rw [hr, hopt]
  · intro hs hout
    exact getList_checkFailed (wellFormed_new d) hn he hs hout
  · intro hs
    exact getList_undefined (wellFormed_new d) hs endPos

/-- C6, at a sentence of three words: `(1, 2)` is found, `(2, 1)` fails the
`CHECK`, and `(3, 3)` indexes the rows past their end without any `CHECK`. -/
theorem C6_getTranslationOptionList_witness :
    passDecoder.m_source.length < 2 ^ 64 ∧
    3 < 2 ^ 64 ∧
    (ChartTranslationOptionCollection.new passDecoder).GetTranslationOptionList 1 2 =
      .ok ⟨⟨1, 2⟩, []⟩ ∧
    (ChartTranslationOptionCollection.new passDecoder).GetTranslationOptionList 2 1 =
      .error .checkFailed ∧
    (ChartTranslationOptionCollection.new passDecoder).GetTranslationOptionList 3 3 =
      .error .undefinedBehaviour :=
  ⟨by decide, by decide,
    (C6_getTranslationOptionList passDecoder 1 2 (by decide) (by decide)).2.1
      ⟨by decide, by decide⟩,
    (C6_getTranslationOptionList passDecoder 2 1 (by decide) (by decide)).2.2.1
      (by decide) (by decide),
    (C6_getTranslationOptionList passDecoder 3 3 (by decide) (by decide)).2.2.2 (by decide)⟩

/-- C8: every option `ProcessOneUnknownWord` adds for position `p`, in either
branch, covers exactly `(p, p)`, the source range of the list it is added to;
its dotted rule is the empty start rule extended by one symbol, the
source-word label of the chart cell of `(p, p)`. Hence, the chart cell label
covering `(p, p)` and being a terminal, the symbols of the rule partition the
range of the option and none is a non-terminal. -/
theorem C8_fallback_option_range (d : Decoder) (c : ChartTranslationOptionCollection)
    (sourceWord : Word) (p : Nat) (hwf : c.WellFormed d.m_source.length)
    (hn : d.m_source.length < 2 ^ 64) (hp : p < d.m_source.length)
    (hlab : labelsHaveFactor d d.staticData.m_unknownLHS)
    (hw : d.staticData.m_dropUnknown = true → sourceWord.GetFactor 0 ≠ none) :
    ∃ c2 l2 new, ProcessOneUnknownWord d c sourceWord p = .ok c2 ∧
      c2.GetTranslationOptionList p p = .ok l2 ∧
      l2.m_range = ⟨p, p⟩ ∧
      l2.m_collection = c.optionsAt p p ++ new ∧
      new.length = d.staticData.m_unknownLHS.length ∧
      ∀ o ∈ new,
        o.m_wordsRange = l2.m_range ∧
        o.m_dottedRule = DottedRule.step (d.m_hypoStackColl ⟨p, p⟩) DottedRule.root ∧
        o.m_dottedRule.symbols = [d.m_hypoStackColl ⟨p, p⟩] ∧
        ((d.m_hypoStackColl ⟨p, p⟩).coverage = ⟨p, p⟩ →
          o.m_dottedRule.partitions o.m_wordsRange) ∧
        ((d.m_hypoStackColl ⟨p, p⟩).label.isNonTerminal = false →
          ∀ sym ∈ o.m_dottedRule.symbols, sym.label.isNonTerminal = false) := by
  obtain ⟨l, hget, hr⟩ := getList_of_wellFormed hwf hn (le_refl p) hp
  refine ⟨_, _, fallbackOptions d sourceWord ⟨p, p⟩ c.heap.length,
    ProcessOneUnknownWord_eq d c sourceWord p l hget hr hlab hw,
    withFallback_getList d sourceWord hget, hr, ?_, fallbackOptions_length _ _ _ _, ?_⟩
  · rw [optionsAt_of_getList hget]
    rfl
  · intro o ho
    obtain ⟨h1, h2⟩ := mem_fallbackOptions d sourceWord ⟨p, p⟩ c.heap.length o ho
    refine ⟨h2.trans hr.symm, h1, ?_, ?_, ?_⟩
    · rw [h1]
      rfl
    · intro hcov
      rw [h1, h2]
      simp [DottedRule.partitions, unknownWordDottedRule, DottedRule.symbols, tileFrom, hcov]
    · intro hterm sym hsym
      rw [h1] at hsym
      simp only [unknownWordDottedRule, DottedRule.symbols, List.nil_append,
        List.mem_singleton] at hsym
      rw [hsym]
      exact hterm

/-- C8, for the word `abc` at position 1 under the drop policy with two
labels. -/
theorem C8_fallback_option_range_witness :
    (ChartTranslationOptionCollection.new dropDecoder).WellFormed dropDecoder.m_source.length ∧
    dropDecoder.m_source.length < 2 ^ 64 ∧
    1 < dropDecoder.m_source.length ∧
    labelsHaveFactor dropDecoder dropDecoder.staticData.m_unknownLHS ∧
    (exampleWord "abc").GetFactor 0 ≠ none ∧
    (dropDecoder.m_hypoStackColl ⟨1, 1⟩).coverage = ⟨1, 1⟩ ∧
    ∃ c2 l2 new, ProcessOneUnknownWord dropDecoder
        (ChartTranslationOptionCollection.new dropDecoder) (exampleWord "abc") 1 = .ok c2 ∧
      c2.GetTranslationOptionList 1 1 = .ok l2 ∧
      l2.m_range = ⟨1, 1⟩ ∧
      l2.m_collection = (ChartTranslationOptionCollection.new dropDecoder).optionsAt 1 1 ++ new ∧
      new.length = dropDecoder.staticData.m_unknownLHS.length ∧
      ∀ o ∈ new, o.m_wordsRange = l2.m_range ∧ o.m_dottedRule.partitions o.m_wordsRange :=
  ⟨by decide, by decide, by decide, by decide, by decide, by decide,
    match C8_fallback_option_range dropDecoder (ChartTranslationOptionCollection.new dropDecoder)
      (exampleWord "abc") 1 (by decide) (by decide) (by decide) (by decide)
      (fun _ => by decide) with
    | ⟨c2, l2, new, h1, h2, h3, h4, h5, h6⟩ =>
      ⟨c2, l2, new, h1, h2, h3, h4, h5, fun o ho =>
        ⟨(h6 o ho).1, (h6 o ho).2.2.2.1 (by decide)⟩⟩⟩

/-- C9: on a span of the sentence `CreateTranslationOptionsForRange` returns,
and the list it leaves is the list present after the fallback step, sorted:
a permutation of it, in which no option scores below a later one, and in
which two options that were in insertion order and need not be swapped (the
first does not score below the second, in particular on a tie) keep their
order. -/
theorem C9_sorted_after_fallback (d : Decoder) (c : ChartTranslationOptionCollection)
    (startPos endPos : Nat) (hv : d.Valid) (hwf : c.WellFormed d.m_source.length)
    (hse : startPos ≤ endPos) (hen : endPos < d.m_source.length) :
    ∃ c1 c2 c3, strictLookups d c startPos endPos = .ok c1 ∧
      ProcessUnknownWord d c1 startPos endPos = .ok c2 ∧
      CreateTranslationOptionsForRange d c startPos endPos = .ok c3 ∧
      (c3.optionsAt startPos endPos).Perm (c2.optionsAt startPos endPos) ∧
      (c3.optionsAt startPos endPos).Pairwise
        (fun a b => Score.le b.m_estimateOfBestScore a.m_estimateOfBestScore = true) ∧
      ∀ a b, [a, b].Sublist (c2.optionsAt startPos endPos) →
        Score.le b.m_estimateOfBestScore a.m_estimateOfBestScore = true →
        [a, b].Sublist (c3.optionsAt startPos endPos) := by
  haveI : IsTotal ChartTranslationOption ChartTranslationOptionOrderer :=
    ⟨fun a b => scoreLe_total b.m_estimateOfBestScore a.m_estimateOfBestScore⟩
  haveI : IsTrans ChartTranslationOption ChartTranslationOptionOrderer :=
    ⟨fun a b c hab hbc => scoreLe_trans c.m_estimateOfBestScore b.m_estimateOfBestScore
      a.m_estimateOfBestScore hbc hab⟩
  obtain ⟨w, l2, _, hstrict, hPU, hget2, _, hcreate⟩ :=
    CreateTranslationOptionsForRange_eq d c startPos endPos hv hwf hse hen
  refine ⟨_, _, _, hstrict, hPU, hcreate, ?_, ?_, ?_⟩
  · rw [optionsAt_of_getList (getList_setList hget2 _), optionsAt_of_getList hget2]
    exact List.perm_insertionSort _ _
  · rw [optionsAt_of_getList (getList_setList hget2 _)]
    exact List.sorted_insertionSort ChartTranslationOptionOrderer _
  · intro a b hsub hab
    rw [optionsAt_of_getList (getList_setList hget2 _)]
    rw [optionsAt_of_getList hget2] at hsub
    exact List.pair_sublist_insertionSort hab hsub

/-- C9, with the always-fallback policy and a strict lookup that returns two
options scored `-infinity` and `0`: the fallback option, scored `0`, is
placed before the option scored `-infinity` and after the rule option with
the same score, which was inserted first. -/
theorem C9_sorted_after_fallback_witness :
    alwaysDecoder.Valid ∧
    (ChartTranslationOptionCollection.new alwaysDecoder).WellFormed
      alwaysDecoder.m_source.length ∧
    1 ≤ 1 ∧
    1 < alwaysDecoder.m_source.length ∧
    (CreateTranslationOptionsForRange alwaysDecoder
        (ChartTranslationOptionCollection.new alwaysDecoder) 1 1).map
      (fun c3 => (c3.optionsAt 1 1).map fun o =>
        (o.m_targetPhraseCollection, o.m_estimateOfBestScore)) =
      .ok [(.ruleTable [], .fin 0), (.cached 0, .fin 0), (.ruleTable [], .negInf)] ∧
    ∃ (c2 c3 : ChartTranslationOptionCollection), CreateTranslationOptionsForRange alwaysDecoder
        (ChartTranslationOptionCollection.new alwaysDecoder) 1 1 = .ok c3 ∧
      (c3.optionsAt 1 1).Perm (c2.optionsAt 1 1) ∧
      (c3.optionsAt 1 1).Pairwise
        (fun a b => Score.le b.m_estimateOfBestScore a.m_estimateOfBestScore = true) :=
  ⟨by decide, by decide, by decide, by decide, by decide,
    match C9_sorted_after_fallback alwaysDecoder
      (ChartTranslationOptionCollection.new alwaysDecoder) 1 1
      (by decide) (by decide) (by decide) (by decide) with
    | ⟨_, c2, c3, _, _, h3, h4, h5, _⟩ => ⟨c2, c3, h3, h4, h5⟩⟩

/-- C10: `Prune` returns the collection it is given, whatever maximum is
configured; with a maximum of one option per span and a strict lookup that
returns two options for `(1, 1)`, the list of `(1, 1)` holds two options at
the return of `CreateTranslationOptionsForRange`. -/
theorem C10_prune_keeps_all :
    (∀ d c startPos endPos, Prune d c startPos endPos = c) ∧
    prunedDecoder.staticData.m_maxNoTransOptPerCoverage = some 1 ∧
    (CreateTranslationOptionsForRange prunedDecoder
        (ChartTranslationOptionCollection.new prunedDecoder) 1 1).map
      (fun c3 => c3.optionsAt 1 1) =
        .ok [exampleOption ⟨1, 1⟩ (.fin 0), exampleOption ⟨1, 1⟩ .negInf] :=
  ⟨fun _ _ _ _ => rfl, rfl, by decide⟩

/-- C18: `ProcessUnknownWord` on a span of the sentence returns, and the
lookups it makes are relaxed lookups only, on an interior singleton span
only: grouping `i` is asked exactly when the list of the span held no option
at the call and the relaxed lookup of every earlier grouping returned none,
that is, when the list is empty at the moment grouping `i` is reached. So no
grouping is asked after one that yielded an option, and a span whose list
already holds an option gets no relaxed lookup. -/
theorem C18_relaxed_lookups (d : Decoder) (c : ChartTranslationOptionCollection)
    (startPos endPos : Nat) (hv : d.Valid) (hwf : c.WellFormed d.m_source.length)
    (hse : startPos ≤ endPos) (hen : endPos < d.m_source.length) :
    ∃ c2 calls, ProcessUnknownWord d c startPos endPos = .ok c2 ∧
      c2.lookupLog = c.lookupLog ++ calls ∧
      (c.optionsAt startPos endPos ≠ [] → calls = []) ∧
      ∀ i range adhere, (⟨i, range, adhere⟩ : LookupCall) ∈ calls ↔
        (startPos = endPos ∧ startPos ≠ 0 ∧ startPos ≠ d.m_source.length - 1) ∧
        range = ⟨startPos, endPos⟩ ∧ adhere = false ∧
        c.optionsAt startPos endPos = [] ∧
        i < d.m_ruleLookupManagers.length ∧
        ∀ j m, j < i → d.m_ruleLookupManagers[j]? = some m →
          m.lookup ⟨startPos, endPos⟩ false = [] := by
  obtain ⟨l, hget, hr⟩ := getList_of_wellFormed hwf hv.1 hse hen
  have hs : startPos < d.m_source.length := by omega
  have hw : d.m_source[startPos]? = some d.m_source[startPos] := List.getElem?_eq_getElem hs
  obtain ⟨hPU, _⟩ := ProcessUnknownWord_eq d c startPos endPos d.m_source[startPos] l hv hen hw
    hget hr
  refine ⟨_, _, hPU, afterUnknownWord_lookupLog d c startPos endPos _, ?_, ?_⟩
  · intro hne
    by_cases hint : interiorSingleton d startPos endPos
    · have hse2 : startPos = endPos := hint.1
      subst hse2
      rw [if_neg (fun h => hne h.2)]
    · rw [if_neg (fun h => hint h.1)]
  · intro i range adhere
    by_cases hcond : interiorSingleton d startPos endPos ∧ c.optionsAt startPos startPos = []
    · have hse2 : startPos = endPos := hcond.1.1
      subst hse2
      rw [if_pos hcond, mem_relaxedCalls]
      constructor
      · rintro ⟨j, hc, hj, hall⟩
        simp only [LookupCall.mk.injEq, Nat.zero_add] at hc
        obtain ⟨hi, hrange, hadh⟩ := hc
        subst hi
        exact ⟨hcond.1, hrange, hadh, hcond.2, hj, hall⟩
      · rintro ⟨_, hrange, hadh, _, hi, hall⟩
        exact ⟨i, by simp [hrange, hadh], hi, hall⟩
    · rw [if_neg hcond]
      constructor
      · intro h
        simp at h
      · rintro ⟨hint, _, _, hempty, _, _⟩
        have hse2 : startPos = endPos := hint.1
        subst hse2
        exact absurd ⟨hint, hempty⟩ hcond

/-- C18, on the middle word of a three-word sentence whose manager answers
the relaxed lookup only. -/
theorem C18_relaxed_lookups_witness :
    relaxedDecoder.Valid ∧
    (ChartTranslationOptionCollection.new relaxedDecoder).WellFormed
      relaxedDecoder.m_source.length ∧
    1 ≤ 1 ∧
    1 < relaxedDecoder.m_source.length ∧
    (ProcessUnknownWord relaxedDecoder
        (ChartTranslationOptionCollection.new relaxedDecoder) 1 1).map
      (fun c2 => c2.lookupLog) = .ok [⟨0, ⟨1, 1⟩, false⟩] ∧
    ∃ (c2 : ChartTranslationOptionCollection) (calls : List LookupCall),
      ProcessUnknownWord relaxedDecoder
        (ChartTranslationOptionCollection.new relaxedDecoder) 1 1 = .ok c2 ∧
      c2.lookupLog = (ChartTranslationOptionCollection.new relaxedDecoder).lookupLog ++ calls :=
  ⟨by decide, by decide, by decide, by decide, by decide,
    match C18_relaxed_lookups relaxedDecoder
      (ChartTranslationOptionCollection.new relaxedDecoder) 1 1
      (by decide) (by decide) (by decide) (by decide) with
    | ⟨c2, calls, h1, h2, _⟩ => ⟨c2, calls, h1, h2⟩⟩

/-- C20: in a sequence of calls of `GetInput` that all return an input, at
every call (the one for `inp`, after the calls for `pre`) the counter after
the call is strictly greater than the id of the input just returned and not
smaller than before the call; an input read with a non-zero id is returned
unchanged, an input read with id 0 is returned with the counter value held
before the call, and that id differs from the ids of all inputs returned
before it. -/
theorem C20_translation_id_bookkeeping (io io2 : IOWrapper) (pre post : List InputType)
    (inp : InputType) (outs : List InputType)
    (h : io.GetInputSequence (pre ++ inp :: post) = .ok (io2, outs)) :
    ∃ (ioA ioB : IOWrapper) (outsPre outsPost : List InputType) (out : InputType),
      io.GetInputSequence pre = .ok (ioA, outsPre) ∧
      ioA.GetInput (some inp) = .ok (ioB, some out) ∧
      ioB.GetInputSequence post = .ok (io2, outsPost) ∧
      outs = outsPre ++ out :: outsPost ∧
      outsPre.length = pre.length ∧
      out.m_translationId < ioB.m_translationId ∧
      io.m_translationId ≤ ioA.m_translationId ∧
      ioA.m_translationId ≤ ioB.m_translationId ∧
      ioB.m_translationId ≤ io2.m_translationId ∧
      (inp.m_translationId ≠ 0 → out = inp) ∧
      (inp.m_translationId = 0 →
        out = { inp with m_translationId := ioA.m_translationId } ∧
        ∀ earlier ∈ outsPre, earlier.m_translationId ≠ out.m_translationId) := by
  obtain ⟨ioA, outsPre, outs2, a1, a2, a3⟩ :=
    GetInputSequence_append pre (inp :: post) io io2 outs h
  obtain ⟨ioB, out, outsPost, b1, b2, b3⟩ := GetInputSequence_cons inp post ioA io2 outs2 a2
  obtain ⟨s1, s2, s3, s4⟩ := GetInput_step ioA ioB inp out b1
  obtain ⟨t1, t2, t3, -, -⟩ := GetInputSequence_spec pre io ioA outsPre a1
  obtain ⟨-, u2, -, -, -⟩ := GetInputSequence_spec post ioB io2 outsPost b2
  refine ⟨ioA, ioB, outsPre, outsPost, out, a1, b1, b2, by rw [a3, b3], t1, s1, t2, s2, u2,
    s3, fun h0 => ⟨(s4 h0).1, fun earlier he => ?_⟩⟩
  have h1 := t3 earlier he
  rw [(s4 h0).1]
  show earlier.m_translationId ≠ ioA.m_translationId
  omega

theorem C20_translation_id_bookkeeping_witness :
    exampleIOWrapper.GetInputSequence ([⟨0, []⟩, ⟨5, []⟩] ++ ⟨0, []⟩ :: [⟨3, []⟩]) =
      .ok ({ exampleIOWrapper with m_translationId := 7 },
        [⟨0, []⟩, ⟨5, []⟩, ⟨6, []⟩, ⟨3, []⟩]) ∧
    ∃ (ioA ioB : IOWrapper) (outsPre outsPost : List InputType) (out : InputType),
      exampleIOWrapper.GetInputSequence [⟨0, []⟩, ⟨5, []⟩] = .ok (ioA, outsPre) ∧
      ioA.GetInput (some ⟨0, []⟩) = .ok (ioB, some out) ∧
      ioB.GetInputSequence [⟨3, []⟩] =
        .ok ({ exampleIOWrapper with m_translationId := 7 }, outsPost) ∧
      [⟨0, []⟩, ⟨5, []⟩, ⟨6, []⟩, ⟨3, []⟩] = outsPre ++ out :: outsPost ∧
      outsPre.length = 2 ∧
      out.m_translationId < ioB.m_translationId ∧
      exampleIOWrapper.m_translationId ≤ ioA.m_translationId ∧
      ioA.m_translationId ≤ ioB.m_translationId ∧
      ioB.m_translationId ≤ 7 ∧
      ((0 : Int) ≠ 0 → out = ⟨0, []⟩) ∧
      ((0 : Int) = 0 →
        out = ⟨ioA.m_translationId, []⟩ ∧
        ∀ earlier ∈ outsPre, earlier.m_translationId ≠ out.m_translationId) :=
  ⟨by decide,
    C20_translation_id_bookkeeping exampleIOWrapper { exampleIOWrapper with m_translationId := 7 }
      [⟨0, []⟩, ⟨5, []⟩] [⟨3, []⟩] ⟨0, []⟩ [⟨0, []⟩, ⟨5, []⟩, ⟨6, []⟩, ⟨3, []⟩] (by decide)⟩

/-- C17: for a hypothesis whose backpointers are span-ordered (each child
pointer is valid and its hypothesis covers a strictly shorter span than its
parent, all the way down), `Backtrack` and `OutputTranslationOptions` return
without failure for every recursion bound above the span length of the
hypothesis, with a result that does not depend on the bound.
`OutputTranslationOptions` appends to the stream exactly one record per node
of the derivation tree, in pre-order: the nodes are the hypothesis followed
by the nodes of its children from left to right, and the record of a node is
the line `Trans Opt `, the translation id, a blank, the range, `: `, the
dotted rule, `: `, the left-hand side, `->`, the target phrase, a blank, the
total score, the score breakdown and the end of line. `Backtrack` traces the
id of every node below the root followed by ` <= `, in the same order, when
the verbosity is at least 3, and nothing otherwise. -/
theorem C17_walks_terminate (s : OutputSettings) (r : Rendering)
    (arena : List ChartHypothesis) (translationId : Int) (hypo : HypoPtr)
    (h : ChartHypothesis) (hso : SpanOrdered arena hypo) (hd : deref arena hypo = .ok h)
    (fuel : Nat) (hfuel : h.spanLength < fuel) (out trace : String) :
    OutputTranslationOptions r arena translationId fuel out hypo =
      some (.ok (out ++
        concat ((derivationNodes arena hypo).map (fun node =>
          "Trans Opt " ++ toString translationId
            ++ " " ++ r.showRange node.m_currSourceWordsRange
            ++ ": " ++ r.showDottedRule node.m_dottedRule
            ++ ": " ++ r.showWord node.m_currTargetPhrase.m_targetLHS
            ++ "->" ++ r.showTargetPhrase node.m_currTargetPhrase
            ++ " " ++ r.showScore false node.m_totalScore
            ++ r.showBreakdown node.m_scoreBreakdown
            ++ "\n")))) ∧
    derivationNodes arena hypo = h :: h.m_prevHypos.flatMap (derivationNodes arena) ∧
    (∀ p ∈ h.m_prevHypos, SpanOrdered arena p) ∧
    Backtrack s arena fuel trace hypo =
      some (.ok (trace ++ concat ((derivationNodes arena hypo).tail.map
        (fun node => if 3 ≤ s.verboseLevel then toString node.m_id ++ " <= " else "")))) :=
  ⟨OutputTranslationOptions_eq r arena translationId hypo hso h hd fuel hfuel out,
    derivationNodes_eq arena hypo hso h hd,
    (match hypo, hso, hd with
      | _, SpanOrdered.node a h2 valid shorter below, hd2 => by
        rw [deref_some arena a h2 valid] at hd2
        cases hd2
        exact below),
    Backtrack_eq s arena hypo hso h hd fuel hfuel trace⟩

theorem C17_walks_terminate_witness :
    SpanOrdered exampleArena (some 0) ∧
    deref exampleArena (some 0) =
      .ok { exampleLeaf 10 0 2 with m_prevHypos := [some 1, some 2] } ∧
    ChartHypothesis.spanLength { exampleLeaf 10 0 2 with m_prevHypos := [some 1, some 2] } < 4 ∧
    derivationNodes exampleArena (some 0) =
      [{ exampleLeaf 10 0 2 with m_prevHypos := [some 1, some 2] }, exampleLeaf 11 0 0,
        exampleLeaf 12 1 2] ∧
    OutputTranslationOptions exampleRendering exampleArena 7 4 "" (some 0) =
      some (.ok ("Trans Opt 7 [0..2]: 0: ->0 0/10\n" ++
        "Trans Opt 7 [0..0]: 0: ->0 0/10\n" ++ "Trans Opt 7 [1..2]: 0: ->0 0/10\n")) ∧
    Backtrack exampleSettings exampleArena 4 "" (some 0) = some (.ok "11 <= 12 <= ") ∧
    (OutputTranslationOptions exampleRendering exampleArena 7 4 "" (some 0) =
      some (.ok ("" ++ concat ((derivationNodes exampleArena (some 0)).map (fun node =>
        "Trans Opt " ++ toString (7 : Int)
          ++ " " ++ exampleRendering.showRange node.m_currSourceWordsRange
          ++ ": " ++ exampleRendering.showDottedRule node.m_dottedRule
          ++ ": " ++ exampleRendering.showWord node.m_currTargetPhrase.m_targetLHS
          ++ "->" ++ exampleRendering.showTargetPhrase node.m_currTargetPhrase
          ++ " " ++ exampleRendering.showScore false node.m_totalScore
          ++ exampleRendering.showBreakdown node.m_scoreBreakdown
          ++ "\n")))) ∧
    derivationNodes exampleArena (some 0) =
      { exampleLeaf 10 0 2 with m_prevHypos := [some 1, some 2] } ::
        [some 1, some 2].flatMap (derivationNodes exampleArena) ∧
    (∀ p ∈ [some 1, some 2], SpanOrdered exampleArena p) ∧
    Backtrack exampleSettings exampleArena 4 "" (some 0) =
      some (.ok ("" ++ concat ((derivationNodes exampleArena (some 0)).tail.map
        (fun node =>
          if 3 ≤ exampleSettings.verboseLevel then toString node.m_id ++ " <= " else ""))))) :=
  ⟨spanOrdered_of_arena exampleArena (by decide) 4 0
      { exampleLeaf 10 0 2 with m_prevHypos := [some 1, some 2] } (by decide) (by decide), by decide,
    by decide, by decide, by decide, by decide,
    C17_walks_terminate exampleSettings exampleRendering exampleArena 7 (some 0)
      { exampleLeaf 10 0 2 with m_prevHypos := [some 1, some 2] }
      (spanOrdered_of_arena exampleArena (by decide) 4 0
      { exampleLeaf 10 0 2 with m_prevHypos := [some 1, some 2] } (by decide) (by decide))
      (by decide) 4 (by decide) "" ""⟩

/-- C15: `OutputBestHypo` called with the null hypothesis returns without
failure for every wrapper, setting, rendering, arena of hypotheses and
recursion bound, and its result does not depend on the arena: no hypothesis
is read. The text is one line, which is empty or, when hypothesis-score
output is enabled, holds `0 ` only; it is written for the translation id to
the single-best collector, which a wrapper built by the constructor holds
exactly when single-best output is not suppressed. -/
theorem C15_null_hypothesis (io : IOWrapper) (s : OutputSettings) (r : Rendering)
    (pr : PhraseRendering) (arena : List ChartHypothesis) (fuel : Nat) (trace : String)
    (translationId : Int) (outputFactorOrder : List Nat) (nBestSize : Nat)
    (nBestFilePath : String) (detailedReporting : Bool) (startId : Int) :
    io.OutputBestHypo s r pr arena fuel trace none translationId =
      some (.ok (io.writeSingleBest translationId (emptyResultText s),
        VERBOSE s 1 trace "NO BEST TRANSLATION\n")) ∧
    emptyResultText s = (if s.outputHypoScore then "0 \n" else "\n") ∧
    (IOWrapper.new outputFactorOrder nBestSize nBestFilePath detailedReporting
      startId).m_surpressSingleBestOutput =
      (decide (nBestSize > 0) && decide (nBestFilePath = "-")) ∧
    ((IOWrapper.new outputFactorOrder nBestSize nBestFilePath detailedReporting
      startId).writeSingleBest translationId (emptyResultText s)).m_singleBestOutputCollector =
      (if (decide (nBestSize > 0) && decide (nBestFilePath = "-")) = true then none
        else some ⟨[(translationId, emptyResultText s)]⟩) := by
  refine ⟨OutputBestHypo_null io s r pr arena fuel trace translationId, ?_, rfl, ?_⟩
  · unfold emptyResultText
    cases s.outputHypoScore <;> rfl
  · unfold IOWrapper.writeSingleBest IOWrapper.new
    cases hsup : (decide (nBestSize > 0) && decide (nBestFilePath = "-")) <;>
      simp [hsup, OutputCollector.Write]

/-- C16, counterexample: with hypothesis-score output and path recovery
disabled and single-best output not suppressed, the hypothesis whose output
phrase holds only the two sentence-boundary words and the null hypothesis
give the same single-best text, one empty line. -/
theorem C16_counterexample :
    (sentenceHypothesis []).outputPhrase = [surfaceWord "<s>", surfaceWord "</s>"] ∧
    fileNBestWrapper.m_surpressSingleBestOutput = false ∧
    exampleSettings.outputHypoScore = false ∧
    fileNBestWrapper.OutputBestHypo exampleSettings exampleRendering examplePhraseRendering
      [sentenceHypothesis []] 4 "" (some 0) 7 =
      some (.ok ({ fileNBestWrapper with
        m_singleBestOutputCollector := some ⟨[(7, "\n")]⟩ },
        "BEST TRANSLATION: 1\nBest path: 0\n")) ∧
    fileNBestWrapper.OutputBestHypo exampleSettings exampleRendering examplePhraseRendering
      [sentenceHypothesis []] 4 "" none 7 =
      some (.ok ({ fileNBestWrapper with
        m_singleBestOutputCollector := some ⟨[(7, "\n")]⟩ },
        "NO BEST TRANSLATION\n")) := by
  decide

/-- C16, amended: for a hypothesis with span-ordered backpointers and an
output phrase of at least 2 words whose inner words render as `output`, with
single-best output not suppressed and a score rendering that holds no blank
and is not `0`, the single-best text of the hypothesis equals the text of
the empty result exactly when hypothesis-score output and path recovery are
both disabled and `output` is empty; in every other case the two texts
differ. -/
theorem C16_empty_versus_scored (io : IOWrapper) (s : OutputSettings) (r : Rendering)
    (pr : PhraseRendering) (arena : List ChartHypothesis) (fuel : Nat) (trace : String)
    (hypo : HypoPtr) (h : ChartHypothesis) (translationId : Int) (output : String)
    (hso : SpanOrdered arena hypo) (hd : deref arena hypo = .ok h)
    (hfuel : h.spanLength < fuel) (hsup : io.m_surpressSingleBestOutput = false)
    (hlen : 2 ≤ h.outputPhrase.length)
    (hrep : pr.GetStringRep (innerWords h.outputPhrase) s.outputFactorOrder = .ok output)
    (hblank : ' ' ∉ (r.showScore true h.m_totalScore).data)
    (hzero : r.showScore true h.m_totalScore ≠ "0") :
    (∃ trace2, io.OutputBestHypo s r pr arena fuel trace hypo translationId =
      some (.ok (io.writeSingleBest translationId (scoredResultText s r h output), trace2))) ∧
    io.OutputBestHypo s r pr arena fuel trace none translationId =
      some (.ok (io.writeSingleBest translationId (emptyResultText s),
        VERBOSE s 1 trace "NO BEST TRANSLATION\n")) ∧
    (scoredResultText s r h output = emptyResultText s ↔
      (s.outputHypoScore = false ∧ s.pathRecoveryEnabled = false ∧ output = "")) := by
  refine ⟨?_, OutputBestHypo_null io s r pr arena fuel trace translationId,
    scoredResultText_eq_empty_iff s r h output hblank hzero⟩
  obtain ⟨trace2, h2⟩ := OutputBestHypo_eq io s r pr arena fuel trace hypo h translationId
    hso hd hfuel
  refine ⟨trace2, ?_⟩
  rw [h2]
  simp only [hsup, Bool.false_eq_true, if_false, hlen, if_true, hrep]

theorem C16_empty_versus_scored_witness :
    SpanOrdered [sentenceHypothesis ["a", "b"]] (some 0) ∧
    deref [sentenceHypothesis ["a", "b"]] (some 0) = .ok (sentenceHypothesis ["a", "b"]) ∧
    (sentenceHypothesis ["a", "b"]).spanLength < 4 ∧
    fileNBestWrapper.m_surpressSingleBestOutput = false ∧
    2 ≤ (sentenceHypothesis ["a", "b"]).outputPhrase.length ∧
    examplePhraseRendering.GetStringRep (innerWords (sentenceHypothesis ["a", "b"]).outputPhrase)
      exampleSettings.outputFactorOrder = .ok "a b" ∧
    ' ' ∉ (exampleRendering.showScore true (sentenceHypothesis ["a", "b"]).m_totalScore).data ∧
    exampleRendering.showScore true (sentenceHypothesis ["a", "b"]).m_totalScore ≠ "0" ∧
    ((∃ trace2, fileNBestWrapper.OutputBestHypo exampleSettings exampleRendering
        examplePhraseRendering [sentenceHypothesis ["a", "b"]] 4 "" (some 0) 7 =
      some (.ok (fileNBestWrapper.writeSingleBest 7
        (scoredResultText exampleSettings exampleRendering (sentenceHypothesis ["a", "b"])
          "a b"), trace2))) ∧
    fileNBestWrapper.OutputBestHypo exampleSettings exampleRendering examplePhraseRendering
        [sentenceHypothesis ["a", "b"]] 4 "" none 7 =
      some (.ok (fileNBestWrapper.writeSingleBest 7 (emptyResultText exampleSettings),
        VERBOSE exampleSettings 1 "" "NO BEST TRANSLATION\n")) ∧
    (scoredResultText exampleSettings exampleRendering (sentenceHypothesis ["a", "b"]) "a b" =
        emptyResultText exampleSettings ↔
      (exampleSettings.outputHypoScore = false ∧ exampleSettings.pathRecoveryEnabled = false ∧
        "a b" = ""))) :=
  ⟨spanOrdered_of_arena [sentenceHypothesis ["a", "b"]] (by decide) 4 0
      (sentenceHypothesis ["a", "b"]) (by decide) (by decide),
    by decide, by decide, by decide, by decide, by decide, by decide, by decide,
    C16_empty_versus_scored fileNBestWrapper exampleSettings exampleRendering
      examplePhraseRendering [sentenceHypothesis ["a", "b"]] 4 "" (some 0)
      (sentenceHypothesis ["a", "b"]) 7 "a b"
      (spanOrdered_of_arena [sentenceHypothesis ["a", "b"]] (by decide) 4 0
        (sentenceHypothesis ["a", "b"]) (by decide) (by decide))
      (by decide) (by decide) (by decide) (by decide) (by decide) (by decide) (by decide)⟩

/-- C19, counterexample: when single-best output is suppressed,
`OutputBestHypo` builds no output phrase; called with a hypothesis whose
output phrase has one word it returns without failure. -/
theorem C19_counterexample :
    stdoutNBestWrapper.m_surpressSingleBestOutput = true ∧
    oneWordHypothesis.outputPhrase.length = 1 ∧
    stdoutNBestWrapper.OutputBestHypo exampleSettings exampleRendering examplePhraseRendering
      [oneWordHypothesis] 4 "" (some 0) 7 =
      some (.ok (stdoutNBestWrapper, "BEST TRANSLATION: 1\nBest path: 0\n")) := by
  decide

/-- C19, amended: the lines that strip the sentence boundaries give, for a
phrase of `n >= 2` words, exactly the words at the positions `1 .. n-2` in
their order, and fail a `CHECK` for a phrase of fewer than 2 words.
`OutputBestHypo`, for a hypothesis with span-ordered backpointers, runs these
lines only when single-best output is not suppressed: it then renders exactly
the inner words when `n >= 2` and fails the `CHECK` otherwise. When
single-best output is suppressed it builds and checks no output phrase and
returns without failure whatever the number of words of the output phrase,
writing only the score text. In `OutputNBestList` the entry of a path renders
exactly the inner words when `n >= 2` and fails the `CHECK` otherwise, and
the call fails the `CHECK` when some path of the list has fewer than 2 words
(the output factor order being non-empty, the words carrying the output
factors and the best hypothesis being readable). -/
theorem C19_sentence_boundaries_removed (io io2 : IOWrapper) (s : OutputSettings)
    (r : Rendering) (pr : PhraseRendering) (arena : List ChartHypothesis) (fuel : Nat)
    (trace out header : String) (hypo bestHypo : HypoPtr) (h : ChartHypothesis)
    (translationId : Int) (system : TranslationSystem) (phrase : Phrase)
    (path : ChartTrellisPath) (nBestList : List ChartTrellisPath)
    (hso : SpanOrdered arena hypo) (hd : deref arena hypo = .ok h)
    (hfuel : h.spanLength < fuel)
    (hne : io2.m_outputFactorOrder ≠ [])
    (hfactors : ∀ p ∈ nBestList, hasOutputFactors io2.m_outputFactorOrder p.outputPhrase = true)
    (hheader : nBestHeader io2 s r arena bestHypo = .ok header)
    (hbad : ∃ p ∈ nBestList, p.outputPhrase.length < 2) :
    removeFirstAndLast phrase =
      (if 2 ≤ phrase.length then .ok (innerWords phrase) else .error .checkFailed) ∧
    innerWords phrase = (phrase.drop 1).take (phrase.length - 2) ∧
    (innerWords phrase).length = phrase.length - 2 ∧
    (∀ i, i < phrase.length - 2 → (innerWords phrase).get? i = phrase.get? (i + 1)) ∧
    (∃ trace2, io.OutputBestHypo s r pr arena fuel trace hypo translationId =
      if io.m_surpressSingleBestOutput = true then
        some (.ok (io.writeSingleBest translationId
          (if s.outputHypoScore then r.showScore true h.m_totalScore ++ " " else ""), trace2))
      else if 2 ≤ h.outputPhrase.length then
        match pr.GetStringRep (innerWords h.outputPhrase) s.outputFactorOrder with
        | .error e => some (.error e)
        | .ok output =>
          some (.ok (io.writeSingleBest translationId (scoredResultText s r h output), trace2))
      else some (.error .checkFailed)) ∧
    nBestEntry io2 s r system translationId out path =
      (if 2 ≤ path.outputPhrase.length then
        match OutputSurface r (out ++ (toString translationId ++ " ||| "))
            (innerWords path.outputPhrase) io2.m_outputFactorOrder false with
        | .error e => .error e
        | .ok out1 =>
          .ok (out1 ++ nBestScoresText s r io2.m_surpressSingleBestOutput system path)
      else .error .checkFailed) ∧
    io2.OutputNBestList s r arena nBestList bestHypo system translationId =
      .error .checkFailed := by
  refine ⟨removeFirstAndLast_eq phrase, rfl, innerWords_length phrase, ?_,
    OutputBestHypo_eq io s r pr arena fuel trace hypo h translationId hso hd hfuel,
    nBestEntry_eq io2 s r system translationId out path, ?_⟩
  · intro i hi
    simp only [innerWords, List.get?_eq_getElem?, List.getElem?_take, hi, if_true,
      List.getElem?_drop]
    rw [Nat.add_comm]
  · unfold IOWrapper.OutputNBestList
    simp only [hheader,
      nBestLoop_checkFailed io2 s r system translationId hne nBestList hfactors hbad header]

theorem C19_sentence_boundaries_removed_witness :
    SpanOrdered [oneWordHypothesis] (some 0) ∧
    deref [oneWordHypothesis] (some 0) = .ok oneWordHypothesis ∧
    oneWordHypothesis.spanLength < 4 ∧
    oneWordHypothesis.outputPhrase.length = 1 ∧
    stdoutNBestWrapper.m_surpressSingleBestOutput = true ∧
    fileNBestWrapper.m_surpressSingleBestOutput = false ∧
    fileNBestWrapper.m_outputFactorOrder ≠ [] ∧
    (∀ p ∈ [examplePath ["c"], oneWordPath],
      hasOutputFactors fileNBestWrapper.m_outputFactorOrder p.outputPhrase = true) ∧
    nBestHeader fileNBestWrapper exampleSettings exampleRendering
      [oneWordHypothesis] (some 0) = .ok "" ∧
    (∃ p ∈ [examplePath ["c"], oneWordPath], p.outputPhrase.length < 2) ∧
    innerWords (sentenceHypothesis ["a", "b"]).outputPhrase = [surfaceWord "a", surfaceWord "b"] ∧
    fileNBestWrapper.OutputBestHypo exampleSettings exampleRendering examplePhraseRendering
      [oneWordHypothesis] 4 "" (some 0) 7 = some (.error .checkFailed) ∧
    (∃ trace2, stdoutNBestWrapper.OutputBestHypo exampleSettings exampleRendering
        examplePhraseRendering [oneWordHypothesis] 4 "" (some 0) 7 =
      if stdoutNBestWrapper.m_surpressSingleBestOutput = true then
        some (.ok (stdoutNBestWrapper.writeSingleBest 7
          (if exampleSettings.outputHypoScore then
            exampleRendering.showScore true oneWordHypothesis.m_totalScore ++ " " else ""),
          trace2))
      else if 2 ≤ oneWordHypothesis.outputPhrase.length then
        match examplePhraseRendering.GetStringRep (innerWords oneWordHypothesis.outputPhrase)
            exampleSettings.outputFactorOrder with
        | .error e => some (.error e)
        | .ok output =>
          some (.ok (stdoutNBestWrapper.writeSingleBest 7
            (scoredResultText exampleSettings exampleRendering oneWordHypothesis output), trace2))
      else some (.error .checkFailed)) ∧
    fileNBestWrapper.OutputNBestList exampleSettings exampleRendering
      [oneWordHypothesis] [examplePath ["c"], oneWordPath] (some 0) exampleSystem 7 =
      .error .checkFailed :=
  ⟨spanOrdered_of_arena [oneWordHypothesis] (by decide) 4 0 oneWordHypothesis
      (by decide) (by decide),
    by decide, by decide, by decide, by decide, by decide, by decide, by decide, by decide,
    by decide, by decide, by decide,
    (C19_sentence_boundaries_removed stdoutNBestWrapper fileNBestWrapper exampleSettings
      exampleRendering examplePhraseRendering [oneWordHypothesis] 4 "" "" ""
      (some 0) (some 0) oneWordHypothesis 7 exampleSystem
      oneWordHypothesis.outputPhrase (examplePath ["c"])
      [examplePath ["c"], oneWordPath]
      (spanOrdered_of_arena [oneWordHypothesis] (by decide) 4 0 oneWordHypothesis
        (by decide) (by decide))
      (by decide) (by decide) (by decide) (by decide) (by decide)
      (by decide)).2.2.2.2.1,
    (C19_sentence_boundaries_removed stdoutNBestWrapper fileNBestWrapper exampleSettings
      exampleRendering examplePhraseRendering [oneWordHypothesis] 4 "" "" ""
      (some 0) (some 0) oneWordHypothesis 7 exampleSystem
      oneWordHypothesis.outputPhrase (examplePath ["c"])
      [examplePath ["c"], oneWordPath]
      (spanOrdered_of_arena [oneWordHypothesis] (by decide) 4 0 oneWordHypothesis
        (by decide) (by decide))
      (by decide) (by decide) (by decide) (by decide) (by decide)
      (by decide)).2.2.2.2.2.2⟩

/-- C21: a call of `ProcessOneUnknownWord` for a word of the sentence, on a
well-formed collection whose cache holds each earlier collection at most
once, returns; the pass-through branch creates one collection per fallback
label and registers each exactly once. The drop branch creates one
collection and registers it once per fallback label: with `k` labels the
cache holds its address `k` times, so it is missing for `k = 0`, and for
`k >= 2` the cache holds a duplicate and the destructor deletes the
collection twice, which is undefined behaviour. Earlier entries of the cache
are not touched. -/
theorem C21_cache_registration (d : Decoder) (c : ChartTranslationOptionCollection)
    (sourceWord : Word) (p : Nat) (hv : d.Valid) (hwf : c.WellFormed d.m_source.length)
    (hp : p < d.m_source.length) (hword : sourceWord ∈ d.m_source)
    (hold : ∀ a ∈ c.m_cacheTargetPhraseCollection, a < c.heap.length)
    (hnodup : c.m_cacheTargetPhraseCollection.Nodup) :
    ∃ c2, ProcessOneUnknownWord d c sourceWord p = .ok c2 ∧
      c2.heap.length = c.heap.length + createdCollections d sourceWord ∧
      c2.m_cacheTargetPhraseCollection =
        c.m_cacheTargetPhraseCollection ++ registeredCollections d sourceWord c.heap.length ∧
      (∀ a, c2.m_cacheTargetPhraseCollection.count a =
        if c.heap.length ≤ a ∧ a < c2.heap.length then
          (if takesDropBranch d sourceWord then d.staticData.m_unknownLHS.length else 1)
        else c.m_cacheTargetPhraseCollection.count a) ∧
      c2.destructor =
        (if takesDropBranch d sourceWord = true ∧ 2 ≤ d.staticData.m_unknownLHS.length then
          .error .undefinedBehaviour
        else .ok c2.m_cacheTargetPhraseCollection) := by
  obtain ⟨l, hget, hr⟩ := getList_of_wellFormed hwf hv.1 (le_refl p) hp
  have heq := ProcessOneUnknownWord_eq d c sourceWord p l hget hr hv.2.2.2.1
    (fun hdrop => hv.2.2.2.2 hdrop sourceWord hword)
  have hcount := withFallback_count d c sourceWord p hold
  refine ⟨withFallback d c sourceWord p, heq, withFallback_heap_length d c sourceWord p,
    withFallback_cache d c sourceWord p, hcount, ?_⟩
  rw [destructor_eq]
  by_cases hbad : takesDropBranch d sourceWord = true ∧ 2 ≤ d.staticData.m_unknownLHS.length
  · rw [if_pos hbad, if_neg]
    intro hnd
    have h1 := List.nodup_iff_count_le_one.1 hnd c.heap.length
    rw [hcount, withFallback_heap_length, createdCollections, if_pos hbad.1,
      if_pos ⟨le_refl _, by omega⟩, if_pos hbad.1] at h1
    omega
  · rw [if_neg hbad, if_pos]
    rw [List.nodup_iff_count_le_one]
    intro a
    rw [hcount]
    split
    · split
      · rename_i hdropb
        have : ¬ 2 ≤ d.staticData.m_unknownLHS.length := fun h2 => hbad ⟨hdropb, h2⟩
        omega
      · exact le_refl 1
    · exact List.nodup_iff_count_le_one.1 hnodup a

theorem C21_cache_registration_witness :
    dropDecoder.Valid ∧
    (ChartTranslationOptionCollection.new dropDecoder).WellFormed dropDecoder.m_source.length ∧
    1 < dropDecoder.m_source.length ∧
    exampleWord "abc" ∈ dropDecoder.m_source ∧
    (∀ a ∈ (ChartTranslationOptionCollection.new dropDecoder).m_cacheTargetPhraseCollection,
      a < (ChartTranslationOptionCollection.new dropDecoder).heap.length) ∧
    (ChartTranslationOptionCollection.new dropDecoder).m_cacheTargetPhraseCollection.Nodup ∧
    takesDropBranch dropDecoder (exampleWord "abc") = true ∧
    dropDecoder.staticData.m_unknownLHS.length = 2 ∧
    (ProcessOneUnknownWord dropDecoder (ChartTranslationOptionCollection.new dropDecoder)
      (exampleWord "abc") 1).map (fun c2 => (c2.heap.length, c2.m_cacheTargetPhraseCollection)) =
      .ok (1, [0, 0]) ∧
    ∃ c2, ProcessOneUnknownWord dropDecoder (ChartTranslationOptionCollection.new dropDecoder)
        (exampleWord "abc") 1 = .ok c2 ∧
      c2.m_cacheTargetPhraseCollection =
        (ChartTranslationOptionCollection.new dropDecoder).m_cacheTargetPhraseCollection ++
          registeredCollections dropDecoder (exampleWord "abc")
            (ChartTranslationOptionCollection.new dropDecoder).heap.length ∧
      c2.destructor =
        (if takesDropBranch dropDecoder (exampleWord "abc") = true ∧
            2 ≤ dropDecoder.staticData.m_unknownLHS.length then
          .error .undefinedBehaviour
        else .ok c2.m_cacheTargetPhraseCollection) :=
  ⟨by decide, by decide, by decide, by decide, by decide, by decide, by decide, by decide,
    by decide,
    match C21_cache_registration dropDecoder (ChartTranslationOptionCollection.new dropDecoder)
      (exampleWord "abc") 1 (by decide) (by decide) (by decide) (by decide) (by decide)
      (by decide) with
    | ⟨c2, h1, _, h3, _, h5⟩ => ⟨c2, h1, h3, h5⟩⟩

/-- C22: `ResetScore` sets the full score and the n-gram score to zero and
every component of the score breakdown to zero, each producer keeping its
entry and its number of components; the translation score, the words, the
source phrase, the left-hand side, the alignment and the debug output keep
their values, so the phrase after the call is the phrase before it with
these three members replaced. A phrase with translation score `-1` holds,
after the call, the translation score `-1` next to an all-zero breakdown. -/
theorem C22_resetScore_frame (tp : TargetPhrase) :
    tp.ResetScore.m_fullScore = .fin 0 ∧
    tp.ResetScore.m_ngramScore = .fin 0 ∧
    (∀ e ∈ tp.ResetScore.m_scoreBreakdown, ∀ x ∈ e.2, x = Score.fin 0) ∧
    tp.ResetScore.m_scoreBreakdown.map Prod.fst = tp.m_scoreBreakdown.map Prod.fst ∧
    tp.ResetScore.m_scoreBreakdown.map (fun e => e.2.length) =
      tp.m_scoreBreakdown.map (fun e => e.2.length) ∧
    tp.ResetScore.m_transScore = tp.m_transScore ∧
    tp.ResetScore.words = tp.words ∧
    tp.ResetScore.m_sourcePhrase = tp.m_sourcePhrase ∧
    tp.ResetScore.m_targetLHS = tp.m_targetLHS ∧
    tp.ResetScore.m_alignmentInfo = tp.m_alignmentInfo ∧
    tp.ResetScore.m_debugOutput = tp.m_debugOutput ∧
    tp.ResetScore =
      { tp with
        m_fullScore := .fin 0
        m_ngramScore := .fin 0
        m_scoreBreakdown := tp.ResetScore.m_scoreBreakdown } ∧
    scoredPhrase.ResetScore.m_transScore = .fin (-1) ∧
    scoredPhrase.ResetScore.m_scoreBreakdown = [(.other 0, [.fin 0, .fin 0])] := by
  refine ⟨rfl, rfl, ?_, ?_, ?_, rfl, rfl, rfl, rfl, rfl, rfl, rfl, by decide, by decide⟩
  · intro e he x hx
    simp only [TargetPhrase.ResetScore, ScoreComponentCollection.ZeroAll, List.mem_map] at he
    obtain ⟨e0, _, rfl⟩ := he
    simp only [List.mem_map] at hx
    obtain ⟨_, _, rfl⟩ := hx
    rfl
  · simp [TargetPhrase.ResetScore, ScoreComponentCollection.ZeroAll]
  · simp [TargetPhrase.ResetScore, ScoreComponentCollection.ZeroAll]

/-- C11: the `float` that the literal `-0.434294482` converts to is
`-14572505 / 2 ^ 25`, and for every fallback label with probability `prob`
the target phrase of the pass-through option made for it has a score
breakdown that holds exactly two components: the unknown-word penalty
`FloorScore(TransformScore(prob))` and the word penalty, this `float`, the
same constant for every label and every word. -/
theorem C11_pass_through_scores (d : Decoder) (c : ChartTranslationOptionCollection)
    (sourceWord : Word) (p : Nat) (hwf : c.WellFormed d.m_source.length)
    (hn : d.m_source.length < 2 ^ 64) (hp : p < d.m_source.length)
    (hlab : labelsHaveFactor d d.staticData.m_unknownLHS)
    (hbranch : d.staticData.m_dropUnknown = false ∨
      ∃ s, sourceWord.GetFactor 0 = some s ∧ containsDigit s = true) :
    Score.ofRat (doubleLiteral (-434294482 / 1000000000)) = .fin (-14572505 / 33554432) ∧
    ∃ c2 new, ProcessOneUnknownWord d c sourceWord p = .ok c2 ∧
      c2.optionsAt p p = c.optionsAt p p ++ new ∧
      new.length = d.staticData.m_unknownLHS.length ∧
      ∀ (i : Nat) (entry : String × Score), d.staticData.m_unknownLHS[i]? = some entry →
        ∃ o tp, new[i]? = some o ∧ c2.targetPhrases o = [tp] ∧
          tp.m_scoreBreakdown =
            [(.unknownWordPenalty, [d.helpers.FloorScore (d.helpers.TransformScore entry.2)]),
             (.wordPenalty, [.fin (-14572505 / 33554432)])] := by
  refine ⟨by decide!, ?_⟩
  obtain ⟨l, hget, _⟩ := getList_of_wellFormed hwf hn (le_refl p) hp
  refine ⟨_, passThroughOptions d sourceWord [sourceWord]
      (unknownWordDottedRule (d.m_hypoStackColl l.m_range)) l.m_range c.heap.length
      d.staticData.m_unknownLHS,
    ProcessOneUnknownWord_passThrough d c sourceWord p l hget hbranch hlab, ?_,
    passThroughOptions_length _ _ _ _ _ _ _, ?_⟩
  · exact (optionsAt_congr _ (c.addOptions p p _) rfl p p).trans (optionsAt_addOptions hget _)
  · intro i entry hentry
    refine ⟨⟨.cached (c.heap.length + i), unknownWordDottedRule (d.m_hypoStackColl l.m_range),
        l.m_range, d.helpers.CalcEstimateOfBestScore
          [passThroughPhrase d sourceWord [sourceWord] entry]
          (unknownWordDottedRule (d.m_hypoStackColl l.m_range)) l.m_range⟩,
      passThroughPhrase d sourceWord [sourceWord] entry, ?_, ?_,
      passThroughPhrase_breakdown d sourceWord [sourceWord] entry⟩
    · rw [passThroughOptions_getElem?, hentry]
      rfl
    · exact getD_append_map c.heap d.staticData.m_unknownLHS
        (fun entry => [passThroughPhrase d sourceWord [sourceWord] entry]) i entry [] hentry

/-- C11, for the word `abc1` under the drop policy with two labels. -/
theorem C11_pass_through_scores_witness :
    (ChartTranslationOptionCollection.new dropDecoder).WellFormed dropDecoder.m_source.length ∧
    dropDecoder.m_source.length < 2 ^ 64 ∧
    1 < dropDecoder.m_source.length ∧
    labelsHaveFactor dropDecoder dropDecoder.staticData.m_unknownLHS ∧
    (exampleWord "abc1").GetFactor 0 = some "abc1" ∧
    containsDigit "abc1" = true ∧
    ∃ (c2 : ChartTranslationOptionCollection) (new : List ChartTranslationOption),
      ProcessOneUnknownWord dropDecoder (ChartTranslationOptionCollection.new dropDecoder)
        (exampleWord "abc1") 1 = .ok c2 ∧
      ∃ o tp, new[0]? = some o ∧ c2.targetPhrases o = [tp] ∧
        tp.m_scoreBreakdown =
          [(.unknownWordPenalty,
              [dropDecoder.helpers.FloorScore (dropDecoder.helpers.TransformScore (.fin 0))]),
           (.wordPenalty, [.fin (-14572505 / 33554432)])] :=
  ⟨by decide, by decide, by decide, by decide, by decide, by decide,
    match (C11_pass_through_scores dropDecoder (ChartTranslationOptionCollection.new dropDecoder)
      (exampleWord "abc1") 1 (by decide) (by decide) (by decide) (by decide)
      (Or.inr ⟨"abc1", by decide, by decide⟩)).2 with
    | ⟨c2, new, h1, _, _, h4⟩ => ⟨c2, new, h1, h4 0 ("X", .fin 0) rfl⟩⟩

/-- C12, counterexample: with the floor constant `-100` and the finite weight
`2 ^ 125` of the unknown-word penalty, the full score of both drop options of
the word `abc` is the `float` product `-100 * 2 ^ 125`, which overflows: it
is negative infinity. -/
theorem C12_counterexample :
    (∀ pw ∈ overflowWeights, ∀ x ∈ pw.2, x.isFinite = true) ∧
    overflowDecoder.helpers.FloorScore .negInf = .fin (-100) ∧
    (ProcessOneUnknownWord overflowDecoder (ChartTranslationOptionCollection.new overflowDecoder)
        (exampleWord "abc") 1).map
      (fun c2 => (c2.optionsAt 1 1).map fun o =>
        (c2.targetPhrases o).map fun tp => tp.m_fullScore) =
      .ok [[.negInf], [.negInf]] := by
  decide!

/-- C12, amended: with `FloorScore` flooring at a constant `LOWEST_SCORE` and
the weighted score summing score times weight in `float` arithmetic,
`FloorScore(-infinity)` is the finite value `LOWEST_SCORE`; every option of
the drop branch points to a phrase without words whose score breakdown holds
the unknown-word score `LOWEST_SCORE` and nothing else (no word-penalty
component). The weights being finite, its full score is the `float` product
of `LOWEST_SCORE` and the weight `w` of the unknown-word penalty, and it is
finite when the magnitude of that product is below `2 ^ 127`. -/
theorem C12_drop_score_finite (d : Decoder) (c : ChartTranslationOptionCollection)
    (sourceWord : Word) (p : Nat) (s : String) (LOWEST_SCORE w : ℚ)
    (weights : List (ScoreProducer × List Score))
    (hF : d.helpers.FloorScore = FloorScore LOWEST_SCORE)
    (hG : d.helpers.GetWeightedScore = GetWeightedScore weights)
    (hfin : ∀ pw ∈ weights, ∀ x ∈ pw.2, x.isFinite = true)
    (hnd : (weights.map Prod.fst).Nodup)
    (hu : (ScoreProducer.unknownWordPenalty, [Score.fin w]) ∈ weights)
    (hbound : |LOWEST_SCORE * w| < 2 ^ 127)
    (hwf : c.WellFormed d.m_source.length)
    (hn : d.m_source.length < 2 ^ 64) (hp : p < d.m_source.length)
    (hlab : labelsHaveFactor d d.staticData.m_unknownLHS)
    (hdrop : d.staticData.m_dropUnknown = true)
    (hs : sourceWord.GetFactor 0 = some s) (hdig : containsDigit s = false) :
    d.helpers.FloorScore .negInf = .fin LOWEST_SCORE ∧
    ∃ c2 new, ProcessOneUnknownWord d c sourceWord p = .ok c2 ∧
      c2.optionsAt p p = c.optionsAt p p ++ new ∧
      new.length = d.staticData.m_unknownLHS.length ∧
      ∀ o ∈ new, ∃ tp q, c2.targetPhrases o = [tp] ∧ tp.words = [] ∧
        tp.m_scoreBreakdown = [(.unknownWordPenalty, [.fin LOWEST_SCORE])] ∧
        tp.m_scoreBreakdown.GetScoresForProducer .wordPenalty = none ∧
        tp.m_fullScore = Score.ofRat (LOWEST_SCORE * w) ∧
        tp.m_fullScore = .fin q := by
  have hfloor : d.helpers.FloorScore .negInf = .fin LOWEST_SCORE := by rw [hF]; rfl
  refine ⟨hfloor, ?_⟩
  obtain ⟨l, hget, _⟩ := getList_of_wellFormed hwf hn (le_refl p) hp
  refine ⟨_, dropOptions d [sourceWord] [d.helpers.FloorScore .negInf]
      (unknownWordDottedRule (d.m_hypoStackColl l.m_range)) l.m_range c.heap.length
      d.staticData.m_unknownLHS TargetPhrase.new,
    ProcessOneUnknownWord_drop d c sourceWord p l s hget hdrop hs hdig hlab, ?_,
    dropOptions_length _ _ _ _ _ _ _ _, ?_⟩
  · exact (optionsAt_congr _ (c.addOptions p p _) rfl p p).trans (optionsAt_addOptions hget _)
  · intro o ho
    obtain ⟨hc, _, _⟩ := mem_dropOptions _ _ _ _ _ _ _ _ _ ho
    have hne : d.staticData.m_unknownLHS ≠ [] := by
      intro hnil
      rw [hnil] at ho
      simp [dropOptions] at ho
    obtain ⟨hb, hfull⟩ := foldl_dropPhrase_breakdown d [sourceWord]
      [d.helpers.FloorScore .negInf] d.staticData.m_unknownLHS TargetPhrase.new hne (Or.inl rfl)
    rw [hfloor] at hb hfull
    rw [hG, GetWeightedScore_one weights (.fin LOWEST_SCORE) (.fin w) hnd hu hfin] at hfull
    have hval : (Score.fin LOWEST_SCORE).mul (.fin w) = Score.ofRat (LOWEST_SCORE * w) := rfl
    have hfinite := ofRat_isFinite (LOWEST_SCORE * w) hbound
    cases hq : Score.ofRat (LOWEST_SCORE * w) with
    | fin q =>
      refine ⟨_, q, ?_, foldl_dropPhrase_words d [sourceWord] [d.helpers.FloorScore .negInf]
        d.staticData.m_unknownLHS TargetPhrase.new, ?_, ?_, ?_, ?_⟩
      · unfold ChartTranslationOptionCollection.targetPhrases
        rw [hc]
        exact getD_append_length c.heap _ []
      · rw [hfloor]
        exact hb
      · rw [hfloor, hb]
        rfl
      · rw [hfloor, hfull, hval, hq]
      · rw [hfloor, hfull, hval, hq]
    | nan => rw [hq] at hfinite; cases hfinite
    | negInf => rw [hq] at hfinite; cases hfinite
    | posInf => rw [hq] at hfinite; cases hfinite

/-- C12, for the word `abc` with the floor constant `-100` and the sample
weights: the full score of the drop options is `-100`. -/
theorem C12_drop_score_finite_witness :
    scoringDecoder.helpers.FloorScore = FloorScore (-100) ∧
    scoringDecoder.helpers.GetWeightedScore = GetWeightedScore exampleWeights ∧
    (∀ pw ∈ exampleWeights, ∀ x ∈ pw.2, x.isFinite = true) ∧
    (exampleWeights.map Prod.fst).Nodup ∧
    (ScoreProducer.unknownWordPenalty, [Score.fin 1]) ∈ exampleWeights ∧
    |(-100 : ℚ) * 1| < 2 ^ 127 ∧
    (ChartTranslationOptionCollection.new scoringDecoder).WellFormed
      scoringDecoder.m_source.length ∧
    scoringDecoder.m_source.length < 2 ^ 64 ∧
    1 < scoringDecoder.m_source.length ∧
    labelsHaveFactor scoringDecoder scoringDecoder.staticData.m_unknownLHS ∧
    scoringDecoder.staticData.m_dropUnknown = true ∧
    (exampleWord "abc").GetFactor 0 = some "abc" ∧
    containsDigit "abc" = false ∧
    Score.ofRat ((-100 : ℚ) * 1) = .fin (-100) ∧
    scoringDecoder.helpers.FloorScore .negInf = .fin (-100) ∧
    ∃ (c2 : ChartTranslationOptionCollection) (new : List ChartTranslationOption),
      ProcessOneUnknownWord scoringDecoder (ChartTranslationOptionCollection.new scoringDecoder)
        (exampleWord "abc") 1 = .ok c2 ∧
      new.length = scoringDecoder.staticData.m_unknownLHS.length ∧
      ∀ o ∈ new, ∃ tp q, c2.targetPhrases o = [tp] ∧ tp.words = [] ∧
        tp.m_fullScore = Score.ofRat ((-100 : ℚ) * 1) ∧ tp.m_fullScore = .fin q :=
  ⟨rfl, rfl, by decide, by decide, by decide, by decide!, by decide, by decide, by decide,
    by decide, by decide, by decide, by decide, by decide!,
    (C12_drop_score_finite scoringDecoder (ChartTranslationOptionCollection.new scoringDecoder)
      (exampleWord "abc") 1 "abc" (-100) 1 exampleWeights rfl rfl (by decide) (by decide)
      (by decide) (by decide!) (by decide) (by decide) (by decide) (by decide) (by decide)
      (by decide) (by decide)).1,
    match (C12_drop_score_finite scoringDecoder
      (ChartTranslationOptionCollection.new scoringDecoder)
      (exampleWord "abc") 1 "abc" (-100) 1 exampleWeights rfl rfl (by decide) (by decide)
      (by decide) (by decide!) (by decide) (by decide) (by decide) (by decide) (by decide)
      (by decide) (by decide)).2 with
    | ⟨c2, new, h1, _, h3, h4⟩ =>
      ⟨c2, new, h1, h3, fun o ho =>
        match h4 o ho with
        | ⟨tp, q, a1, a2, _, _, a5, a6⟩ => ⟨tp, q, a1, a2, a5, a6⟩⟩⟩

/-- C13: with the weighted score summing score times weight over the
configured producers in `float` arithmetic, after `SetScore(producer,
scores)` the full score is the weighted sum of the breakdown in which the
producer has the scores given and every other producer the scores it had
before the call. Hence, the weights being finite with one weight for the
unknown-word penalty and one for the word penalty, the phrase of a
pass-through option has the full score `weight_unknown * unknownScore +
weight_wordpenalty * c`, each operation rounded to `float` and `c` the
`float` of `-0.434294482`, and so has the phrase scored by the two calls in
the other order. -/
theorem C13_setScore_weighted_sum (d : Decoder) (weights : List (ScoreProducer × List Score))
    (hG : d.helpers.GetWeightedScore = GetWeightedScore weights) :
    (∀ (tp : TargetPhrase) (producer : ScoreProducer) (scores : List Score),
      (tp.SetScore d.helpers producer scores).m_fullScore =
        weightedSum weights (fun q =>
          if q = producer then some scores else tp.m_scoreBreakdown.GetScoresForProducer q) ∧
      (tp.SetScore d.helpers producer scores).m_scoreBreakdown.GetScoresForProducer producer =
        some scores ∧
      ∀ q, q ≠ producer →
        (tp.SetScore d.helpers producer scores).m_scoreBreakdown.GetScoresForProducer q =
          tp.m_scoreBreakdown.GetScoresForProducer q) ∧
    ∀ (wu ww : Score), (weights.map Prod.fst).Nodup →
      (ScoreProducer.unknownWordPenalty, [wu]) ∈ weights →
      (ScoreProducer.wordPenalty, [ww]) ∈ weights →
      (∀ pw ∈ weights, ∀ x ∈ pw.2, x.isFinite = true) →
      ∀ (sourceWord : Word) (m_unksrc : Phrase) (entry : String × Score),
        (passThroughPhrase d sourceWord m_unksrc entry).m_fullScore =
          (wu.mul (d.helpers.FloorScore (d.helpers.TransformScore entry.2))).add
            (ww.mul (.fin (-14572505 / 33554432))) ∧
        (((TargetPhrase.new.AddWord (d.helpers.CreateUnknownWord sourceWord)).SetScore d.helpers
            .wordPenalty wordPenaltyScore).SetScore d.helpers .unknownWordPenalty
            [d.helpers.FloorScore (d.helpers.TransformScore entry.2)]).m_fullScore =
          (passThroughPhrase d sourceWord m_unksrc entry).m_fullScore := by
  constructor
  · intro tp producer scores
    refine ⟨?_, getScores_assign _ _ _, fun q hq => getScores_assign_ne _ _ _ _ hq⟩
    simp only [TargetPhrase.SetScore, hG, GetWeightedScore, getScores_assign_fun]
  · intro wu ww hnd hu hw hfin sourceWord m_unksrc entry
    have h1 : (passThroughPhrase d sourceWord m_unksrc entry).m_fullScore =
        (wu.mul (d.helpers.FloorScore (d.helpers.TransformScore entry.2))).add
          (ww.mul (.fin (-14572505 / 33554432))) := by
      rw [passThroughPhrase_fullScore, passThroughPhrase_breakdown, hG,
        GetWeightedScore_two weights _ _ _ wu ww (Or.inl rfl) hnd hu hw hfin,
        scoreMul_comm wu, scoreMul_comm ww]
    refine ⟨h1, ?_⟩
    rw [h1]
    have hb : (((TargetPhrase.new.AddWord (d.helpers.CreateUnknownWord sourceWord)).SetScore
        d.helpers .wordPenalty wordPenaltyScore).SetScore d.helpers .unknownWordPenalty
        [d.helpers.FloorScore (d.helpers.TransformScore entry.2)]).m_scoreBreakdown =
        [(.wordPenalty, [.fin (-14572505 / 33554432)]),
         (.unknownWordPenalty, [d.helpers.FloorScore (d.helpers.TransformScore entry.2)])] := by
      simp [TargetPhrase.SetScore, TargetPhrase.AddWord, TargetPhrase.new,
        ScoreComponentCollection.Assign, wordPenaltyScore]
    have hf : (((TargetPhrase.new.AddWord (d.helpers.CreateUnknownWord sourceWord)).SetScore
        d.helpers .wordPenalty wordPenaltyScore).SetScore d.helpers .unknownWordPenalty
        [d.helpers.FloorScore (d.helpers.TransformScore entry.2)]).m_fullScore =
        d.helpers.GetWeightedScore (((TargetPhrase.new.AddWord
          (d.helpers.CreateUnknownWord sourceWord)).SetScore
          d.helpers .wordPenalty wordPenaltyScore).SetScore d.helpers .unknownWordPenalty
          [d.helpers.FloorScore (d.helpers.TransformScore entry.2)]).m_scoreBreakdown := by
      simp [TargetPhrase.SetScore]
    rw [hf, hb, hG,
      GetWeightedScore_two weights _ _ _ wu ww (Or.inr rfl) hnd hu hw hfin,
      scoreMul_comm wu, scoreMul_comm ww]

/-- C13, with the sample weights `1` for the unknown-word penalty and `-1`
for the word penalty and the unknown-word score `-100`: the full score is the
`float` `-3262569 / 2 ^ 15`, about `-99.5657043`. -/
theorem C13_setScore_weighted_sum_witness :
    scoringDecoder.helpers.GetWeightedScore = GetWeightedScore exampleWeights ∧
    (exampleWeights.map Prod.fst).Nodup ∧
    (ScoreProducer.unknownWordPenalty, [Score.fin 1]) ∈ exampleWeights ∧
    (ScoreProducer.wordPenalty, [Score.fin (-1)]) ∈ exampleWeights ∧
    (∀ pw ∈ exampleWeights, ∀ x ∈ pw.2, x.isFinite = true) ∧
    scoringDecoder.helpers.FloorScore (scoringDecoder.helpers.TransformScore .negInf) =
      .fin (-100) ∧
    ((Score.fin 1).mul (.fin (-100))).add ((Score.fin (-1)).mul (.fin (-14572505 / 33554432))) =
      .fin (-3262569 / 32768) ∧
    (passThroughPhrase scoringDecoder (exampleWord "abc") [exampleWord "abc"]
        ("X", .negInf)).m_fullScore = .fin (-3262569 / 32768) ∧
    (passThroughPhrase scoringDecoder (exampleWord "abc") [exampleWord "abc"]
        ("X", .negInf)).m_fullScore =
      ((Score.fin 1).mul (scoringDecoder.helpers.FloorScore
          (scoringDecoder.helpers.TransformScore .negInf))).add
        ((Score.fin (-1)).mul (.fin (-14572505 / 33554432))) :=
  ⟨rfl, by decide, by decide, by decide, by decide, by decide, by decide!, by decide!,
    ((C13_setScore_weighted_sum scoringDecoder exampleWeights rfl).2 (.fin 1) (.fin (-1))
      (by decide) (by decide) (by decide) (by decide) (exampleWord "abc") [exampleWord "abc"]
      ("X", .negInf)).1⟩

end Moses
